import Mathlib

/-!
# ColorFix: CIE-Lab conversion, CIEDE2000 distance and the perceivable-colour search

A shallow embedding of `src/cascadia/TerminalCore/ColorFix.cpp` over exact real
arithmetic: every `double` is a real number, `pow` with a real exponent is
`Real.rpow`, `atan2` is the argument of a complex number, and the `BYTE`
channels are numbers below 256.  The definitions follow the source line by
line and keep its names; the theorems below them settle the claims made about
the program.
-/

noncomputable section

namespace Terminal

open Real

/-! ## Constants (ColorFix.cpp, lines 7-18) -/

def gMinThreshold : ℝ := 12.0
def gExpThreshold : ℝ := 20.0
def gLStep : ℝ := 5.0

def rad006 : ℝ := 0.104719755119659774
def rad025 : ℝ := 0.436332312998582394
def rad030 : ℝ := 0.523598775598298873
def rad060 : ℝ := 1.047197551196597746
def rad063 : ℝ := 1.099557428756427633
def rad180 : ℝ := 3.141592653589793238
def rad275 : ℝ := 4.799655442984406336
def rad360 : ℝ := 6.283185307179586476

/-! ## Data model -/

/-- An 8-bit unsigned channel value. -/
abbrev BYTE := Fin 256

/-- Modelled from the spec: the header `ColorFix.hpp` is not part of the sources, so the
colour value handed in and out is taken from the data model of the specification: three
8-bit unsigned channel values (red, green, blue), no alpha channel. -/
structure COLORREF where
  r : BYTE
  g : BYTE
  b : BYTE
deriving DecidableEq

/-- Modelled from the spec: the class declared in the absent header `ColorFix.hpp`; one value
carrying the RGB view (`rgb`, whose bytes are `r`, `g`, `b`) and the Lab view (`L`, `A`, `B`)
of a colour, as the member accesses of `ColorFix.cpp` use them. -/
structure ColorFix where
  rgb : COLORREF
  L : ℝ
  A : ℝ
  B : ℝ

/-- The C library function `atan2(y, x)` over the reals: the angle in `(-π, π]` of the
point `(x, y)`. -/
def atan2 (y x : ℝ) : ℝ := Complex.arg ⟨x, y⟩

/-! ## GetHPrimeFn (lines 20-29) -/

def GetHPrimeFn (x y : ℝ) : ℝ :=
  if x = 0 ∧ y = 0 then 0
  else
    let hueAngle := atan2 x y
    if hueAngle ≥ 0 then hueAngle else hueAngle + rad360

/-! ## ColorFix::GetDeltaE (lines 33-103), one definition per local constant -/

namespace GetDeltaE

def kSubL : ℝ := 1
def kSubC : ℝ := 1
def kSubH : ℝ := 1

def deltaLPrime (x1 x2 : ColorFix) : ℝ := x2.L - x1.L

def lBar (x1 x2 : ColorFix) : ℝ := (x1.L + x2.L) / 2

def c1 (x1 : ColorFix) : ℝ := √(x1.A ^ 2 + x1.B ^ 2)

def c2 (x2 : ColorFix) : ℝ := √(x2.A ^ 2 + x2.B ^ 2)

def cBar (x1 x2 : ColorFix) : ℝ := (c1 x1 + c2 x2) / 2

def aPrime1 (x1 x2 : ColorFix) : ℝ :=
  x1.A + (x1.A / 2) * (1 - √(cBar x1 x2 ^ 7 / (cBar x1 x2 ^ 7 + (25.0 : ℝ) ^ 7)))

def aPrime2 (x1 x2 : ColorFix) : ℝ :=
  x2.A + (x2.A / 2) * (1 - √(cBar x1 x2 ^ 7 / (cBar x1 x2 ^ 7 + (25.0 : ℝ) ^ 7)))

def cPrime1 (x1 x2 : ColorFix) : ℝ := √(aPrime1 x1 x2 ^ 2 + x1.B ^ 2)

def cPrime2 (x1 x2 : ColorFix) : ℝ := √(aPrime2 x1 x2 ^ 2 + x2.B ^ 2)

def cBarPrime (x1 x2 : ColorFix) : ℝ := (cPrime1 x1 x2 + cPrime2 x1 x2) / 2

def deltaCPrime (x1 x2 : ColorFix) : ℝ := cPrime2 x1 x2 - cPrime1 x1 x2

def sSubL (x1 x2 : ColorFix) : ℝ :=
  1 + ((0.015 * (lBar x1 x2 - 50) ^ 2) / √(20 + (lBar x1 x2 - 50) ^ 2))

def sSubC (x1 x2 : ColorFix) : ℝ := 1 + 0.045 * cBarPrime x1 x2

def hPrime1 (x1 x2 : ColorFix) : ℝ := GetHPrimeFn x1.B (aPrime1 x1 x2)

def hPrime2 (x1 x2 : ColorFix) : ℝ := GetHPrimeFn x2.B (aPrime2 x1 x2)

/-- Line 83.  The conditional operator binds more loosely than `/`, so the division by two
applies to the parenthesised inner conditional only. -/
def deltaHPrime (x1 x2 : ColorFix) : ℝ :=
  if 0 = c1 x1 ∨ 0 = c2 x2 then 0
  else
    2 * √(cPrime1 x1 x2 * cPrime2 x1 x2) *
      sin (if |hPrime1 x1 x2 - hPrime2 x1 x2| ≤ rad180 then hPrime2 x1 x2 - hPrime1 x1 x2
        else
          (if hPrime2 x1 x2 ≤ hPrime1 x1 x2 then hPrime2 x1 x2 - hPrime1 x1 x2 + rad360
            else hPrime2 x1 x2 - hPrime1 x1 x2 - rad360) / 2)

def hBarPrime (x1 x2 : ColorFix) : ℝ :=
  if |hPrime1 x1 x2 - hPrime2 x1 x2| > rad180 then (hPrime1 x1 x2 + hPrime2 x1 x2 + rad360) / 2
  else (hPrime1 x1 x2 + hPrime2 x1 x2) / 2

def t (x1 x2 : ColorFix) : ℝ :=
  1 - 0.17 * cos (hBarPrime x1 x2 - rad030) + 0.24 * cos (2 * hBarPrime x1 x2)
    + 0.32 * cos (3 * hBarPrime x1 x2 + rad006) - 0.20 * cos (4 * hBarPrime x1 x2 - rad063)

def sSubH (x1 x2 : ColorFix) : ℝ := 1 + 0.015 * cBarPrime x1 x2 * t x1 x2

def rSubT (x1 x2 : ColorFix) : ℝ :=
  -2 * √(cBarPrime x1 x2 ^ 7 / (cBarPrime x1 x2 ^ 7 + (25.0 : ℝ) ^ 7))
    * sin (rad060 * exp (-((hBarPrime x1 x2 - rad275) / rad025) ^ 2))

def lightness (x1 x2 : ColorFix) : ℝ := deltaLPrime x1 x2 / (kSubL * sSubL x1 x2)

def chroma (x1 x2 : ColorFix) : ℝ := deltaCPrime x1 x2 / (kSubC * sSubC x1 x2)

def hue (x1 x2 : ColorFix) : ℝ := deltaHPrime x1 x2 / (kSubH * sSubH x1 x2)

end GetDeltaE

open GetDeltaE in
/-- DeltaE 2000 (line 102). -/
def ColorFix.GetDeltaE (x1 x2 : ColorFix) : ℝ :=
  √(lightness x1 x2 ^ 2 + chroma x1 x2 ^ 2 + hue x1 x2 ^ 2
    + rSubT x1 x2 * chroma x1 x2 * hue x1 x2)

/-! ## ColorFix::_Clamp (lines 267-275) -/

/-- Clamps the given value to be between 0-255 inclusive and converts the result to `BYTE`
(the cast of a `double` to `BYTE` truncates). -/
def ColorFix._Clamp (v : ℝ) : BYTE :=
  if v ≤ 0 then 0
  else if v ≥ 255 then 255
  else Fin.ofNat ⌊v⌋₊

/-! ## ColorFix::_ToLab (lines 123-171) -/

/-- Populates `L`, `A`, `B` from `r`, `g`, `b`. -/
def ColorFix._ToLab (c : ColorFix) : ColorFix :=
  let var_R : ℝ := ((c.rgb.r : ℕ) : ℝ) / 255.0
  let var_G : ℝ := ((c.rgb.g : ℕ) : ℝ) / 255.0
  let var_B : ℝ := ((c.rgb.b : ℕ) : ℝ) / 255.0
  let var_R : ℝ := if var_R > 0.04045 then ((var_R + 0.055) / 1.055) ^ (2.4 : ℝ) else var_R / 12.92
  let var_G : ℝ := if var_G > 0.04045 then ((var_G + 0.055) / 1.055) ^ (2.4 : ℝ) else var_G / 12.92
  let var_B : ℝ := if var_B > 0.04045 then ((var_B + 0.055) / 1.055) ^ (2.4 : ℝ) else var_B / 12.92
  let var_R : ℝ := var_R * 100
  let var_G : ℝ := var_G * 100
  let var_B : ℝ := var_B * 100
  let X : ℝ := var_R * 0.4124 + var_G * 0.3576 + var_B * 0.1805
  let Y : ℝ := var_R * 0.2126 + var_G * 0.7152 + var_B * 0.0722
  let Z : ℝ := var_R * 0.0193 + var_G * 0.1192 + var_B * 0.9505
  let var_X : ℝ := X / 95.047
  let var_Y : ℝ := Y / 100.000
  let var_Z : ℝ := Z / 108.883
  let var_X : ℝ := if var_X > 0.008856 then var_X ^ ((1 : ℝ) / 3) else (7.787 * var_X) + (16 / 116)
  let var_Y : ℝ := if var_Y > 0.008856 then var_Y ^ ((1 : ℝ) / 3) else (7.787 * var_Y) + (16 / 116)
  let var_Z : ℝ := if var_Z > 0.008856 then var_Z ^ ((1 : ℝ) / 3) else (7.787 * var_Z) + (16 / 116)
  { c with
    L := (116 * var_Y) - 16
    A := 500 * (var_X - var_Y)
    B := 200 * (var_Y - var_Z) }

/-- The constructor `ColorFix(COLORREF color)` (lines 113-117): `rgb = color; _ToLab();`. -/
def ColorFix.ofColor (color : COLORREF) : ColorFix :=
  (ColorFix.mk color 0 0 0)._ToLab

/-! ## ColorFix::_ToRGB (lines 177-224) -/

/-- Populates `r`, `g`, `b` from `L`, `A`, `B`. -/
def ColorFix._ToRGB (c : ColorFix) : ColorFix :=
  let var_Y : ℝ := (c.L + 16) / 116
  let var_X : ℝ := c.A / 500 + var_Y
  let var_Z : ℝ := var_Y - c.B / 200
  let var_Y : ℝ := if var_Y ^ 3 > 0.008856 then var_Y ^ 3 else (var_Y - 16 / 116) / 7.787
  let var_X : ℝ := if var_X ^ 3 > 0.008856 then var_X ^ 3 else (var_X - 16 / 116) / 7.787
  let var_Z : ℝ := if var_Z ^ 3 > 0.008856 then var_Z ^ 3 else (var_Z - 16 / 116) / 7.787
  let X : ℝ := 95.047 * var_X
  let Y : ℝ := 100.000 * var_Y
  let Z : ℝ := 108.883 * var_Z
  let var_X : ℝ := X / 100
  let var_Y : ℝ := Y / 100
  let var_Z : ℝ := Z / 100
  let var_R : ℝ := var_X * 3.2406 + var_Y * -1.5372 + var_Z * -0.4986
  let var_G : ℝ := var_X * -0.9689 + var_Y * 1.8758 + var_Z * 0.0415
  let var_B : ℝ := var_X * 0.0557 + var_Y * -0.2040 + var_Z * 1.0570
  let var_R : ℝ := if var_R > 0.0031308 then 1.055 * var_R ^ ((1 : ℝ) / 2.4) - 0.055 else 12.92 * var_R
  let var_G : ℝ := if var_G > 0.0031308 then 1.055 * var_G ^ ((1 : ℝ) / 2.4) - 0.055 else 12.92 * var_G
  let var_B : ℝ := if var_B > 0.0031308 then 1.055 * var_B ^ ((1 : ℝ) / 2.4) - 0.055 else 12.92 * var_B
  { c with
    rgb := ⟨ColorFix._Clamp (var_R * 255), ColorFix._Clamp (var_G * 255),
      ColorFix._Clamp (var_B * 255)⟩ }

/-! ## ColorFix::GetPerceivableColor (lines 233-258) -/

/-- The state of the search: the local `frontLab`, the value handed to `return` inside the
`while` loop once that statement has run, and a log of the loop-body executions (the loop
index `i` and the lightness `frontLab.L` on which `GetDeltaE` was evaluated, in order). -/
structure Scan where
  frontLab : ColorFix
  tested : List (ℕ × ℝ)
  returned : Option COLORREF

/-- The loop of lines 245-254 for the pass `i`, where `step = (i == 0) ? gLStep : -gLStep`. -/
def whileLoop (i : ℕ) (backLab frontLab : ColorFix) : Scan :=
  if hc : (i = 0 ∧ frontLab.L ≤ 100) ∨ (i = 1 ∧ frontLab.L ≥ 0) then
    let de2 := frontLab.GetDeltaE backLab
    if de2 ≥ gExpThreshold then
      { frontLab := frontLab._ToRGB
        tested := [(i, frontLab.L)]
        returned := some frontLab._ToRGB.rgb }
    else
      let step : ℝ := if i = 0 then gLStep else -gLStep
      let s := whileLoop i backLab { frontLab with L := frontLab.L + step }
      { s with tested := (i, frontLab.L) :: s.tested }
  else
    { frontLab := frontLab, tested := [], returned := none }
termination_by (if i = 0 then ⌊(105 - frontLab.L) / 5⌋₊ else ⌊(frontLab.L + 5) / 5⌋₊)
decreasing_by
  rcases hc with ⟨h0, hL⟩ | ⟨h1, hL⟩
  · subst h0
    have e : (105 - (frontLab.L + gLStep)) / 5 = (105 - frontLab.L) / 5 - 1 := by
      unfold gLStep; ring
    have h1 : 1 ≤ ⌊(105 - frontLab.L) / 5⌋₊ := Nat.le_floor (by norm_num; linarith)
    simp only [if_true, dite_true, e, Nat.floor_sub_one]
    omega
  · subst h1
    have e : (frontLab.L + -gLStep + 5) / 5 = (frontLab.L + 5) / 5 - 1 := by
      unfold gLStep; ring
    have h1 : 1 ≤ ⌊(frontLab.L + 5) / 5⌋₊ := Nat.le_floor (by norm_num; linarith)
    simp only [one_ne_zero, if_false, dite_false, e, Nat.floor_sub_one]
    omega

/-- The body of the `for` loop of lines 240-255 for the index `i`; a pass is skipped once
the `return` inside an earlier `while` loop has run. -/
def forBody (backLab : ColorFix) (s : Scan) (i : ℕ) : Scan :=
  match s.returned with
  | some _ => s
  | none =>
    let step : ℝ := if i = 0 then gLStep else -gLStep
    let w := whileLoop i backLab { s.frontLab with L := s.frontLab.L + step }
    { w with tested := s.tested ++ w.tested }

/-- The run of `GetPerceivableColor`: `for (int i = 0; i <= 1; i++)` under the guard
`de1 < gMinThreshold`. -/
def GetPerceivableColorRun (fg bg : COLORREF) : Scan :=
  let backLab := ColorFix.ofColor bg
  let frontLab := ColorFix.ofColor fg
  let de1 := frontLab.GetDeltaE backLab
  if de1 < gMinThreshold then
    [0, 1].foldl (forBody backLab) { frontLab := frontLab, tested := [], returned := none }
  else
    { frontLab := frontLab, tested := [], returned := none }

/-- The value returned: the one of the `return` inside the loop when it ran, else the
`frontLab.rgb` of line 257. -/
def ColorFix.GetPerceivableColor (fg bg : COLORREF) : COLORREF :=
  let s := GetPerceivableColorRun fg bg
  match s.returned with
  | some c => c
  | none => s.frontLab.rgb

/-! ## Names for sub-expressions of the conversions

The source repeats the same conditional for each of the three channels; the theorems
speak about them through the following names, which unfold to the expressions of
`_ToLab` and `_ToRGB` above. -/

/-- The conditional of lines 129-140 (decoding of one normalised channel). -/
def linearize (v : ℝ) : ℝ :=
  if v > 0.04045 then ((v + 0.055) / 1.055) ^ (2.4 : ℝ) else v / 12.92

/-- The conditional of lines 155-166. -/
def labF (t : ℝ) : ℝ :=
  if t > 0.008856 then t ^ ((1 : ℝ) / 3) else (7.787 * t) + (16 / 116)

/-- The conditional of lines 183-194. -/
def labFinv (w : ℝ) : ℝ :=
  if w ^ 3 > 0.008856 then w ^ 3 else (w - 16 / 116) / 7.787

/-- The conditional of lines 208-219 (encoding of one linear channel). -/
def gammaEnc (x : ℝ) : ℝ :=
  if x > 0.0031308 then 1.055 * x ^ ((1 : ℝ) / 2.4) - 0.055 else 12.92 * x

/-- The value of `var_R` after line 142 of `_ToLab`. -/
def linR (c : COLORREF) : ℝ := linearize (((c.r : ℕ) : ℝ) / 255.0) * 100

/-- The value of `var_G` after line 143 of `_ToLab`. -/
def linG (c : COLORREF) : ℝ := linearize (((c.g : ℕ) : ℝ) / 255.0) * 100

/-- The value of `var_B` after line 144 of `_ToLab`. -/
def linB (c : COLORREF) : ℝ := linearize (((c.b : ℕ) : ℝ) / 255.0) * 100

/-- The value of `var_X` at line 151 of `_ToLab`. -/
def xyzX (c : COLORREF) : ℝ := (linR c * 0.4124 + linG c * 0.3576 + linB c * 0.1805) / 95.047

/-- The value of `var_Y` at line 152 of `_ToLab`. -/
def xyzY (c : COLORREF) : ℝ := (linR c * 0.2126 + linG c * 0.7152 + linB c * 0.0722) / 100.000

/-- The value of `var_Z` at line 153 of `_ToLab`. -/
def xyzZ (c : COLORREF) : ℝ := (linR c * 0.0193 + linG c * 0.1192 + linB c * 0.9505) / 108.883

/-- The shorthand `RGB(r, g, b)` for a colour given by its three channel values. -/
def RGB (r g b : BYTE) : COLORREF := ⟨r, g, b⟩

/-- The lightness values on which pass `i` of the search evaluated `GetDeltaE`. -/
def testedBy (i : ℕ) (s : Scan) : List ℝ :=
  (s.tested.filter (fun p => p.1 = i)).map Prod.snd

/-- The assignment `frontLab.L = l` on a copy of the colour. -/
def ColorFix.withL (c : ColorFix) (l : ℝ) : ColorFix := { c with L := l }

/-- The value of the local `step` of line 242 in pass `i`. -/
def stepOf (i : ℕ) : ℝ := if i = 0 then gLStep else -gLStep

/-- The condition of the `while` loop of line 245 in pass `i` at lightness `l`. -/
def loopCond (i : ℕ) (l : ℝ) : Prop := (i = 0 ∧ l ≤ 100) ∨ (i = 1 ∧ l ≥ 0)

/-- The first pass of the scan, started on the foreground lightness plus one step. -/
def pass0 (fg bg : COLORREF) : Scan :=
  whileLoop 0 (ColorFix.ofColor bg) ((ColorFix.ofColor fg).withL ((ColorFix.ofColor fg).L + stepOf 0))

/-- The second pass of the scan, started one step below where the first pass stopped. -/
def pass1 (fg bg : COLORREF) : Scan :=
  whileLoop 1 (ColorFix.ofColor bg)
    ((pass0 fg bg).frontLab.withL ((pass0 fg bg).frontLab.L + stepOf 1))

/-- The foreground colour with its lightness replaced by `l`: the value of `frontLab` on
which the scan evaluates the distance when it tests the lightness `l`. -/
def candidate (fg : COLORREF) (l : ℝ) : ColorFix := (ColorFix.ofColor fg).withL l

/-- The distance of the candidate of lightness `l` to the background. -/
def candDist (fg bg : COLORREF) (l : ℝ) : ℝ := (candidate fg l).GetDeltaE (ColorFix.ofColor bg)

/-- The `j`-th lightness of the first pass (`frontLab.L` after `j + 1` additions of the step). -/
def upL (fg : COLORREF) (j : ℕ) : ℝ := (ColorFix.ofColor fg).L + 5 + 5 * (j : ℝ)

/-- The `j`-th lightness of the second pass, when the first pass made `n` tests. -/
def downL (fg : COLORREF) (n j : ℕ) : ℝ := (ColorFix.ofColor fg).L + 5 * (n : ℝ) - 5 * (j : ℝ)

/-- The value of `X` at line 196 of `_ToRGB`. -/
def toRGB_X (c : ColorFix) : ℝ := 95.047 * labFinv (c.A / 500 + (c.L + 16) / 116)

/-- The value of `Y` at line 197 of `_ToRGB`. -/
def toRGB_Y (c : ColorFix) : ℝ := 100.000 * labFinv ((c.L + 16) / 116)

/-- The value of `Z` at line 198 of `_ToRGB`. -/
def toRGB_Z (c : ColorFix) : ℝ := 108.883 * labFinv ((c.L + 16) / 116 - c.B / 200)

/-- The argument of `_Clamp` at line 221 of `_ToRGB`. -/
def toRGB_R (c : ColorFix) : ℝ :=
  gammaEnc (toRGB_X c / 100 * 3.2406 + toRGB_Y c / 100 * -1.5372 + toRGB_Z c / 100 * -0.4986) * 255

/-- The argument of `_Clamp` at line 222 of `_ToRGB`. -/
def toRGB_G (c : ColorFix) : ℝ :=
  gammaEnc (toRGB_X c / 100 * -0.9689 + toRGB_Y c / 100 * 1.8758 + toRGB_Z c / 100 * 0.0415) * 255

/-- The argument of `_Clamp` at line 223 of `_ToRGB`. -/
def toRGB_B (c : ColorFix) : ℝ :=
  gammaEnc (toRGB_X c / 100 * 0.0557 + toRGB_Y c / 100 * -0.2040 + toRGB_Z c / 100 * 1.0570) * 255

/-- One pass from RGB to Lab and back: `toRGB` after `toLab`. -/
def roundTrip (c : COLORREF) : COLORREF := (ColorFix.ofColor c)._ToRGB.rgb

open Classical in
/-- The reference search, written from the statement it is compared with: `fg` when the
initial distance is at least 12.0; otherwise `_ToRGB` of `(L0 + 5k, A0, B0)` for the smallest
integer `k >= 1` with `L0 + 5k <= 100` and distance at least 20.0, if there is one; otherwise
`_ToRGB` of `(L0 - 5j, A0, B0)` for the smallest integer `j >= 1` with `L0 - 5j >= 0` and
distance at least 20.0, if there is one; otherwise `fg`. -/
def referenceSearch (fg bg : COLORREF) : COLORREF :=
  if (ColorFix.ofColor fg).GetDeltaE (ColorFix.ofColor bg) ≥ 12.0 then fg
  else if h : ∃ k : ℕ, 1 ≤ k ∧ (ColorFix.ofColor fg).L + 5 * (k : ℝ) ≤ 100
      ∧ candDist fg bg ((ColorFix.ofColor fg).L + 5 * (k : ℝ)) ≥ 20.0 then
    (candidate fg ((ColorFix.ofColor fg).L + 5 * ((Nat.find h : ℕ) : ℝ)))._ToRGB.rgb
  else if h : ∃ j : ℕ, 1 ≤ j ∧ 0 ≤ (ColorFix.ofColor fg).L - 5 * (j : ℝ)
      ∧ candDist fg bg ((ColorFix.ofColor fg).L - 5 * (j : ℝ)) ≥ 20.0 then
    (candidate fg ((ColorFix.ofColor fg).L - 5 * ((Nat.find h : ℕ) : ℝ)))._ToRGB.rgb
  else fg

/-! ## The search over an arbitrary distance

The statements of lines 233-258 once more, with a parameter `dE` at the two places where the
source calls `GetDeltaE` (lines 236 and 247) and nothing else changed.  With
`dE = ColorFix.GetDeltaE` these are the definitions above; with another `dE` they tell what
the control flow of the search does on distances that `GetDeltaE` itself never produces. -/

/-- The loop of lines 245-254 for the pass `i`, with `dE` for the call of line 247. -/
def whileLoopWith (dE : ColorFix → ColorFix → ℝ) (i : ℕ) (backLab frontLab : ColorFix) : Scan :=
  if hc : (i = 0 ∧ frontLab.L ≤ 100) ∨ (i = 1 ∧ frontLab.L ≥ 0) then
    let de2 := dE frontLab backLab
    if de2 ≥ gExpThreshold then
      { frontLab := frontLab._ToRGB
        tested := [(i, frontLab.L)]
        returned := some frontLab._ToRGB.rgb }
    else
      let step : ℝ := if i = 0 then gLStep else -gLStep
      let s := whileLoopWith dE i backLab { frontLab with L := frontLab.L + step }
      { s with tested := (i, frontLab.L) :: s.tested }
  else
    { frontLab := frontLab, tested := [], returned := none }
termination_by (if i = 0 then ⌊(105 - frontLab.L) / 5⌋₊ else ⌊(frontLab.L + 5) / 5⌋₊)
decreasing_by
  rcases hc with ⟨h0, hL⟩ | ⟨h1, hL⟩
  · subst h0
    have e : (105 - (frontLab.L + gLStep)) / 5 = (105 - frontLab.L) / 5 - 1 := by
      unfold gLStep; ring
    have h1 : 1 ≤ ⌊(105 - frontLab.L) / 5⌋₊ := Nat.le_floor (by norm_num; linarith)
    simp only [if_true, dite_true, e, Nat.floor_sub_one]
    omega
  · subst h1
    have e : (frontLab.L + -gLStep + 5) / 5 = (frontLab.L + 5) / 5 - 1 := by
      unfold gLStep; ring
    have h1 : 1 ≤ ⌊(frontLab.L + 5) / 5⌋₊ := Nat.le_floor (by norm_num; linarith)
    simp only [one_ne_zero, if_false, dite_false, e, Nat.floor_sub_one]
    omega

/-- The body of the `for` loop of lines 240-255 for the index `i`, over `whileLoopWith`. -/
def forBodyWith (dE : ColorFix → ColorFix → ℝ) (backLab : ColorFix) (s : Scan) (i : ℕ) : Scan :=
  match s.returned with
  | some _ => s
  | none =>
    let step : ℝ := if i = 0 then gLStep else -gLStep
    let w := whileLoopWith dE i backLab { s.frontLab with L := s.frontLab.L + step }
    { w with tested := s.tested ++ w.tested }

/-- The run of `GetPerceivableColor` with `dE` for the calls of lines 236 and 247. -/
def GetPerceivableColorRunWith (dE : ColorFix → ColorFix → ℝ) (fg bg : COLORREF) : Scan :=
  let backLab := ColorFix.ofColor bg
  let frontLab := ColorFix.ofColor fg
  let de1 := dE frontLab backLab
  if de1 < gMinThreshold then
    [0, 1].foldl (forBodyWith dE backLab) { frontLab := frontLab, tested := [], returned := none }
  else
    { frontLab := frontLab, tested := [], returned := none }

/-- The value returned by the run over `dE`: the one of the `return` inside the loop when it
ran, else the `frontLab.rgb` of line 257. -/
def ColorFix.GetPerceivableColorWith (dE : ColorFix → ColorFix → ℝ) (fg bg : COLORREF) :
    COLORREF :=
  let s := GetPerceivableColorRunWith dE fg bg
  match s.returned with
  | some c => c
  | none => s.frontLab.rgb

open GetDeltaE


/-! ## Auxiliary facts about the distance -/

theorem c2_eq_c1 (x : ColorFix) : c2 x = c1 x := rfl

theorem cBar_comm (x1 x2 : ColorFix) : cBar x2 x1 = cBar x1 x2 := by
  unfold cBar c1 c2; ring

theorem aPrime1_swap (x1 x2 : ColorFix) : aPrime1 x2 x1 = aPrime2 x1 x2 := by
  unfold aPrime1 aPrime2; rw [cBar_comm x1 x2]

theorem aPrime2_swap (x1 x2 : ColorFix) : aPrime2 x2 x1 = aPrime1 x1 x2 := by
  unfold aPrime1 aPrime2; rw [cBar_comm x1 x2]

theorem cPrime1_swap (x1 x2 : ColorFix) : cPrime1 x2 x1 = cPrime2 x1 x2 := by
  unfold cPrime1 cPrime2; rw [aPrime1_swap x1 x2]

theorem cPrime2_swap (x1 x2 : ColorFix) : cPrime2 x2 x1 = cPrime1 x1 x2 := by
  unfold cPrime1 cPrime2; rw [aPrime2_swap x1 x2]

theorem cBarPrime_comm (x1 x2 : ColorFix) : cBarPrime x2 x1 = cBarPrime x1 x2 := by
  unfold cBarPrime; rw [cPrime1_swap x1 x2, cPrime2_swap x1 x2]; ring

theorem deltaCPrime_swap (x1 x2 : ColorFix) : deltaCPrime x2 x1 = -deltaCPrime x1 x2 := by
  unfold deltaCPrime; rw [cPrime1_swap x1 x2, cPrime2_swap x1 x2]; ring

theorem hPrime1_swap (x1 x2 : ColorFix) : hPrime1 x2 x1 = hPrime2 x1 x2 := by
  unfold hPrime1 hPrime2; rw [aPrime1_swap x1 x2]

theorem hPrime2_swap (x1 x2 : ColorFix) : hPrime2 x2 x1 = hPrime1 x1 x2 := by
  unfold hPrime1 hPrime2; rw [aPrime2_swap x1 x2]

theorem rad180_pos : 0 < rad180 := by unfold rad180; norm_num

theorem deltaHPrime_swap (x1 x2 : ColorFix) : deltaHPrime x2 x1 = -deltaHPrime x1 x2 := by
  unfold deltaHPrime
  rw [hPrime1_swap x1 x2, hPrime2_swap x1 x2, cPrime1_swap x1 x2, cPrime2_swap x1 x2, c2_eq_c1 x1, c2_eq_c1 x2,
    abs_sub_comm (hPrime2 x1 x2) (hPrime1 x1 x2), mul_comm (cPrime2 x1 x2) (cPrime1 x1 x2)]
  by_cases hc : 0 = c1 x1 ∨ 0 = c1 x2
  · rw [if_pos hc, if_pos hc.symm, neg_zero]
  · rw [if_neg hc, if_neg (fun h => hc h.symm)]
    by_cases hd : |hPrime1 x1 x2 - hPrime2 x1 x2| ≤ rad180
    · rw [if_pos hd, if_pos hd, ← neg_sub (hPrime2 x1 x2) (hPrime1 x1 x2), sin_neg]
      ring
    · rw [if_neg hd, if_neg hd]
      have hne : hPrime1 x1 x2 ≠ hPrime2 x1 x2 := by
        intro h
        apply hd
        rw [h, sub_self, abs_zero]
        exact rad180_pos.le
      rcases lt_or_gt_of_ne hne with h | h
      · rw [if_pos h.le, if_neg (not_le.mpr h)]
        have e : (hPrime1 x1 x2 - hPrime2 x1 x2 + rad360) / 2
            = -((hPrime2 x1 x2 - hPrime1 x1 x2 - rad360) / 2) := by ring
        rw [e, sin_neg]
        ring
      · rw [if_neg (not_le.mpr h), if_pos h.le]
        have e : (hPrime1 x1 x2 - hPrime2 x1 x2 - rad360) / 2
            = -((hPrime2 x1 x2 - hPrime1 x1 x2 + rad360) / 2) := by ring
        rw [e, sin_neg]
        ring

theorem hBarPrime_comm (x1 x2 : ColorFix) : hBarPrime x2 x1 = hBarPrime x1 x2 := by
  unfold hBarPrime
  rw [hPrime1_swap x1 x2, hPrime2_swap x1 x2, abs_sub_comm (hPrime2 x1 x2) (hPrime1 x1 x2),
    add_comm (hPrime2 x1 x2) (hPrime1 x1 x2)]

theorem lBar_comm (x1 x2 : ColorFix) : lBar x2 x1 = lBar x1 x2 := by
  unfold lBar; ring

theorem sSubL_comm (x1 x2 : ColorFix) : sSubL x2 x1 = sSubL x1 x2 := by
  unfold sSubL; rw [lBar_comm x1 x2]

theorem sSubC_comm (x1 x2 : ColorFix) : sSubC x2 x1 = sSubC x1 x2 := by
  unfold sSubC; rw [cBarPrime_comm x1 x2]

theorem t_comm (x1 x2 : ColorFix) : t x2 x1 = t x1 x2 := by
  unfold t; rw [hBarPrime_comm x1 x2]

theorem sSubH_comm (x1 x2 : ColorFix) : sSubH x2 x1 = sSubH x1 x2 := by
  unfold sSubH; rw [cBarPrime_comm x1 x2, t_comm x1 x2]

theorem rSubT_comm (x1 x2 : ColorFix) : rSubT x2 x1 = rSubT x1 x2 := by
  unfold rSubT; rw [cBarPrime_comm x1 x2, hBarPrime_comm x1 x2]

theorem lightness_swap (x1 x2 : ColorFix) : lightness x2 x1 = -lightness x1 x2 := by
  unfold lightness deltaLPrime; rw [sSubL_comm x1 x2]; ring

theorem chroma_swap (x1 x2 : ColorFix) : chroma x2 x1 = -chroma x1 x2 := by
  unfold chroma; rw [sSubC_comm x1 x2, deltaCPrime_swap x1 x2]; ring

theorem hue_swap (x1 x2 : ColorFix) : hue x2 x1 = -hue x1 x2 := by
  unfold hue; rw [sSubH_comm x1 x2, deltaHPrime_swap x1 x2]; ring

theorem GetDeltaE_comm (a b : ColorFix) : a.GetDeltaE b = b.GetDeltaE a := by
  unfold ColorFix.GetDeltaE
  rw [lightness_swap a b, chroma_swap a b, hue_swap a b, rSubT_comm a b]
  congr 1
  ring

/-- C3. `GetDeltaE` is symmetric in its two arguments, for all real `L`, `A`, `B`: whichever
branch the hue difference takes, and also when a chroma is zero. -/
theorem GetDeltaE_symm (a b : ColorFix) : a.GetDeltaE b = b.GetDeltaE a :=
  GetDeltaE_comm a b

theorem deltaHPrime_self (c : ColorFix) : deltaHPrime c c = 0 := by
  unfold deltaHPrime
  have e : hPrime2 c c = hPrime1 c c := rfl
  rw [e, sub_self, abs_zero, if_pos rad180_pos.le, sin_zero, mul_zero, ite_self]

theorem GetDeltaE_self_eq (c : ColorFix) : c.GetDeltaE c = 0 := by
  have hl : lightness c c = 0 := by unfold lightness deltaLPrime; simp
  have hc : chroma c c = 0 := by
    unfold chroma deltaCPrime
    have e : cPrime2 c c = cPrime1 c c := rfl
    rw [e, sub_self, zero_div]
  have hh : hue c c = 0 := by unfold hue; rw [deltaHPrime_self, zero_div]
  unfold ColorFix.GetDeltaE
  rw [hl, hc, hh]
  simp

/-- C4. The distance of a colour to itself is zero, for all real `L`, `A`, `B`, also
when `A = B = 0`. -/
theorem GetDeltaE_self (c : ColorFix) : c.GetDeltaE c = 0 :=
  GetDeltaE_self_eq c

theorem sqrt_ratio_mem (c : ℝ) (hc : 0 ≤ c) :
    0 ≤ √(c ^ 7 / (c ^ 7 + (25.0 : ℝ) ^ 7)) ∧ √(c ^ 7 / (c ^ 7 + (25.0 : ℝ) ^ 7)) ≤ 1 := by
  refine ⟨Real.sqrt_nonneg _, ?_⟩
  have h7 : 0 ≤ c ^ 7 := pow_nonneg hc 7
  have hp : (0 : ℝ) < (25.0 : ℝ) ^ 7 := by norm_num
  rw [Real.sqrt_le_one, div_le_one (by linarith)]
  linarith

theorem cPrime1_nonneg (x1 x2 : ColorFix) : 0 ≤ cPrime1 x1 x2 := Real.sqrt_nonneg _

theorem cPrime2_nonneg (x1 x2 : ColorFix) : 0 ≤ cPrime2 x1 x2 := Real.sqrt_nonneg _

theorem cBarPrime_nonneg (x1 x2 : ColorFix) : 0 ≤ cBarPrime x1 x2 := by
  unfold cBarPrime
  have := cPrime1_nonneg x1 x2
  have := cPrime2_nonneg x1 x2
  linarith

theorem rSubT_abs_le (x1 x2 : ColorFix) : |rSubT x1 x2| ≤ 2 := by
  unfold rSubT
  obtain ⟨h0, h1⟩ := sqrt_ratio_mem (cBarPrime x1 x2) (cBarPrime_nonneg x1 x2)
  have hs := abs_sin_le_one (rad060 * exp (-((hBarPrime x1 x2 - rad275) / rad025) ^ 2))
  rw [abs_mul, abs_mul, abs_of_nonneg h0]
  have e : |(-2 : ℝ)| = 2 := by norm_num
  rw [e]
  have : 2 * √(cBarPrime x1 x2 ^ 7 / (cBarPrime x1 x2 ^ 7 + (25.0 : ℝ) ^ 7)) ≤ 2 := by linarith
  calc 2 * √(cBarPrime x1 x2 ^ 7 / (cBarPrime x1 x2 ^ 7 + (25.0 : ℝ) ^ 7))
        * |sin (rad060 * exp (-((hBarPrime x1 x2 - rad275) / rad025) ^ 2))|
      ≤ 2 * 1 := mul_le_mul this hs (abs_nonneg _) (by norm_num)
    _ = 2 := by norm_num

theorem cross_nonneg (R c h : ℝ) (hR : |R| ≤ 2) : 0 ≤ c ^ 2 + h ^ 2 + R * c * h := by
  obtain ⟨h1, h2⟩ := abs_le.mp hR
  rcases le_total 0 (c * h) with hch | hch
  · nlinarith [sq_nonneg (c - h), mul_nonneg (by linarith : (0 : ℝ) ≤ R + 2) hch]
  · nlinarith [sq_nonneg (c + h), mul_nonneg (by linarith : (0 : ℝ) ≤ 2 - R) (neg_nonneg.mpr hch)]

/-- The expression under the final square root of `GetDeltaE` (line 102). -/
theorem radicand_ge_lightness_sq (x1 x2 : ColorFix) :
    lightness x1 x2 ^ 2 ≤ lightness x1 x2 ^ 2 + chroma x1 x2 ^ 2 + hue x1 x2 ^ 2
      + rSubT x1 x2 * chroma x1 x2 * hue x1 x2 := by
  have := cross_nonneg (rSubT x1 x2) (chroma x1 x2) (hue x1 x2) (rSubT_abs_le x1 x2)
  linarith

theorem sSubL_ge_one (x1 x2 : ColorFix) : 1 ≤ sSubL x1 x2 := by
  unfold sSubL
  have : 0 ≤ (0.015 * (lBar x1 x2 - 50) ^ 2) / √(20 + (lBar x1 x2 - 50) ^ 2) :=
    div_nonneg (mul_nonneg (by norm_num) (sq_nonneg _)) (Real.sqrt_nonneg _)
  linarith

theorem GetDeltaE_nonneg (x1 x2 : ColorFix) : 0 ≤ x1.GetDeltaE x2 := Real.sqrt_nonneg _

/-- The lightness term alone bounds the distance from below. -/
theorem GetDeltaE_ge_lightness (x1 x2 : ColorFix) :
    |x2.L - x1.L| / sSubL x1 x2 ≤ x1.GetDeltaE x2 := by
  have hs : 0 < sSubL x1 x2 := lt_of_lt_of_le one_pos (sSubL_ge_one x1 x2)
  have e : |x2.L - x1.L| / sSubL x1 x2 = |lightness x1 x2| := by
    unfold lightness deltaLPrime kSubL
    rw [one_mul, abs_div, abs_of_pos hs]
  rw [e, ← Real.sqrt_sq_eq_abs]
  exact Real.sqrt_le_sqrt (radicand_ge_lightness_sq x1 x2)

/-- C5. The value under the final square root of `GetDeltaE` is never negative, so the
distance is the non-negative real number whose square is that value. -/
theorem GetDeltaE_radicand_nonneg (a b : ColorFix) :
    0 ≤ lightness a b ^ 2 + chroma a b ^ 2 + hue a b ^ 2 + rSubT a b * chroma a b * hue a b
    ∧ a.GetDeltaE b ^ 2
        = lightness a b ^ 2 + chroma a b ^ 2 + hue a b ^ 2 + rSubT a b * chroma a b * hue a b
    ∧ 0 ≤ a.GetDeltaE b := by
  have h := radicand_ge_lightness_sq a b
  have h0 : 0 ≤ lightness a b ^ 2 + chroma a b ^ 2 + hue a b ^ 2
      + rSubT a b * chroma a b * hue a b := le_trans (sq_nonneg _) h
  exact ⟨h0, Real.sq_sqrt h0, Real.sqrt_nonneg _⟩

/-! ## The conversion to Lab -/

theorem ofColor_rgb (c : COLORREF) : (ColorFix.ofColor c).rgb = c := rfl

theorem ofColor_L (c : COLORREF) : (ColorFix.ofColor c).L = 116 * labF (xyzY c) - 16 := rfl

theorem ofColor_A (c : COLORREF) :
    (ColorFix.ofColor c).A = 500 * (labF (xyzX c) - labF (xyzY c)) := rfl

theorem ofColor_B (c : COLORREF) :
    (ColorFix.ofColor c).B = 200 * (labF (xyzY c) - labF (xyzZ c)) := rfl

theorem byte_div_mem (n : BYTE) : 0 ≤ ((n : ℕ) : ℝ) / 255.0 ∧ ((n : ℕ) : ℝ) / 255.0 ≤ 1 := by
  have h1 : ((n : ℕ) : ℝ) ≤ 255 := by
    have : (n : ℕ) ≤ 255 := by omega
    exact_mod_cast this
  have h0 : (0 : ℝ) ≤ ((n : ℕ) : ℝ) := Nat.cast_nonneg _
  constructor
  · positivity
  · rw [div_le_one (by norm_num)]; linarith

theorem linearize_mem (v : ℝ) (h0 : 0 ≤ v) (h1 : v ≤ 1) :
    0 ≤ linearize v ∧ linearize v ≤ 1 := by
  unfold linearize
  split_ifs with h
  · have hb0 : 0 ≤ (v + 0.055) / 1.055 := by positivity
    have hb1 : (v + 0.055) / 1.055 ≤ 1 := by
      rw [div_le_one (by norm_num)]; linarith
    exact ⟨Real.rpow_nonneg hb0 _, Real.rpow_le_one hb0 hb1 (by norm_num)⟩
  · constructor
    · positivity
    · rw [div_le_one (by norm_num)]; linarith

theorem linR_mem (c : COLORREF) : 0 ≤ linR c ∧ linR c ≤ 100 := by
  obtain ⟨a, b⟩ := byte_div_mem c.r
  obtain ⟨h0, h1⟩ := linearize_mem _ a b
  unfold linR
  constructor <;> nlinarith

theorem linG_mem (c : COLORREF) : 0 ≤ linG c ∧ linG c ≤ 100 := by
  obtain ⟨a, b⟩ := byte_div_mem c.g
  obtain ⟨h0, h1⟩ := linearize_mem _ a b
  unfold linG
  constructor <;> nlinarith

theorem linB_mem (c : COLORREF) : 0 ≤ linB c ∧ linB c ≤ 100 := by
  obtain ⟨a, b⟩ := byte_div_mem c.b
  obtain ⟨h0, h1⟩ := linearize_mem _ a b
  unfold linB
  constructor <;> nlinarith

theorem xyzY_mem (c : COLORREF) : 0 ≤ xyzY c ∧ xyzY c ≤ 1 := by
  obtain ⟨r0, r1⟩ := linR_mem c
  obtain ⟨g0, g1⟩ := linG_mem c
  obtain ⟨b0, b1⟩ := linB_mem c
  unfold xyzY
  constructor
  · apply div_nonneg _ (by norm_num)
    nlinarith
  · rw [div_le_one (by norm_num)]
    nlinarith

theorem labF_mem (t : ℝ) (h0 : 0 ≤ t) (h1 : t ≤ 1) : 16 / 116 ≤ labF t ∧ labF t ≤ 1 := by
  unfold labF
  split_ifs with h
  · constructor
    · have h8 : ((0.2 : ℝ) ^ (3 : ℕ)) ≤ t := by norm_num at h ⊢; linarith
      have : (0.2 : ℝ) ≤ t ^ ((1 : ℝ) / 3) := by
        have := Real.rpow_le_rpow (by norm_num) h8 (by norm_num : (0 : ℝ) ≤ (1 : ℝ) / 3)
        rwa [← Real.rpow_natCast, ← Real.rpow_mul (by norm_num), show ((3 : ℕ) : ℝ) * (1 / 3) = 1 by norm_num,
          Real.rpow_one] at this
      linarith [show (16 : ℝ) / 116 ≤ 0.2 by norm_num]
    · exact Real.rpow_le_one h0 h1 (by norm_num)
  · constructor
    · linarith
    · have : t ≤ 0.008856 := not_lt.mp h
      norm_num at this ⊢
      linarith

/-- The lightness of an RGB colour lies between 0 and 100. -/
theorem ofColor_L_mem (c : COLORREF) : 0 ≤ (ColorFix.ofColor c).L ∧ (ColorFix.ofColor c).L ≤ 100 := by
  obtain ⟨y0, y1⟩ := xyzY_mem c
  obtain ⟨f0, f1⟩ := labF_mem _ y0 y1
  rw [ofColor_L]
  constructor <;> linarith

/-! ## The scan of `GetPerceivableColor` -/

theorem withL_L (f : ColorFix) (l : ℝ) : (f.withL l).L = l := rfl

theorem withL_A (f : ColorFix) (l : ℝ) : (f.withL l).A = f.A := rfl

theorem withL_B (f : ColorFix) (l : ℝ) : (f.withL l).B = f.B := rfl

theorem withL_rgb (f : ColorFix) (l : ℝ) : (f.withL l).rgb = f.rgb := rfl

theorem withL_withL (f : ColorFix) (l m : ℝ) : (f.withL l).withL m = f.withL m := rfl

theorem withL_self (f : ColorFix) : f.withL f.L = f := rfl

theorem ToRGB_keeps_L (f : ColorFix) : f._ToRGB.L = f.L := rfl

theorem ToRGB_keeps_A (f : ColorFix) : f._ToRGB.A = f.A := rfl

theorem ToRGB_keeps_B (f : ColorFix) : f._ToRGB.B = f.B := rfl

theorem whileLoop_exit (i : ℕ) (b f : ColorFix) (h : ¬loopCond i f.L) :
    whileLoop i b f = { frontLab := f, tested := [], returned := none } := by
  unfold loopCond at h
  rw [whileLoop, dif_neg h]

theorem whileLoop_accept (i : ℕ) (b f : ColorFix) (h : loopCond i f.L)
    (hd : f.GetDeltaE b ≥ gExpThreshold) :
    whileLoop i b f
      = { frontLab := f._ToRGB, tested := [(i, f.L)], returned := some f._ToRGB.rgb } := by
  unfold loopCond at h
  rw [whileLoop, dif_pos h]
  simp only [if_pos hd]

theorem whileLoop_reject (i : ℕ) (b f : ColorFix) (h : loopCond i f.L)
    (hd : ¬f.GetDeltaE b ≥ gExpThreshold) :
    whileLoop i b f
      = { frontLab := (whileLoop i b (f.withL (f.L + stepOf i))).frontLab
          tested := (i, f.L) :: (whileLoop i b (f.withL (f.L + stepOf i))).tested
          returned := (whileLoop i b (f.withL (f.L + stepOf i))).returned } := by
  unfold loopCond at h
  rw [whileLoop, dif_pos h]
  simp only [if_neg hd]
  rfl

/-- What one run of the `while` loop does: it evaluates the distance on `n` lightness
values `f.L, f.L + step, ...`, each satisfying the loop condition and all but possibly the
last rejected; it either leaves by `return` on the last one, or it leaves with the loop
condition false and nothing but `L` changed. -/
theorem whileLoop_spec (i : ℕ) (b f : ColorFix) :
    ∃ n : ℕ,
      (whileLoop i b f).tested = (List.range n).map (fun j : ℕ => (i, f.L + stepOf i * (j : ℝ))) ∧
      (∀ j < n, loopCond i (f.L + stepOf i * j)) ∧
      (∀ j, j + 1 < n → (f.withL (f.L + stepOf i * j)).GetDeltaE b < gExpThreshold) ∧
      (((whileLoop i b f).returned = none ∧
          (whileLoop i b f).frontLab = f.withL (f.L + stepOf i * n) ∧
          ¬loopCond i (f.L + stepOf i * n) ∧
          ∀ j < n, (f.withL (f.L + stepOf i * j)).GetDeltaE b < gExpThreshold) ∨
        (∃ m, n = m + 1 ∧
          (whileLoop i b f).frontLab = (f.withL (f.L + stepOf i * m))._ToRGB ∧
          (whileLoop i b f).returned = some (f.withL (f.L + stepOf i * m))._ToRGB.rgb ∧
          (f.withL (f.L + stepOf i * m)).GetDeltaE b ≥ gExpThreshold)) := by
  induction f using whileLoop.induct i b with
  | case1 x hc de2 hd =>
    refine ⟨1, ?_, ?_, ?_, Or.inr ⟨0, rfl, ?_, ?_, ?_⟩⟩
    · rw [whileLoop_accept i b x hc hd]; simp [List.range_succ]
    · intro j hj
      have : j = 0 := by omega
      subst this
      simpa [loopCond] using hc
    · intro j hj; omega
    · rw [whileLoop_accept i b x hc hd]; simp [withL_self]
    · rw [whileLoop_accept i b x hc hd]; simp [withL_self]
    · simpa [withL_self] using hd
  | case2 x hc de2 hd step ih =>
    have hd' : ¬x.GetDeltaE b ≥ gExpThreshold := hd
    have hlt : x.GetDeltaE b < gExpThreshold := not_le.mp hd'
    change ∃ n, _ at ih
    obtain ⟨n, h1, h2, h3, h4⟩ := ih
    have ex : ({ rgb := x.rgb, L := x.L + (if h : i = 0 then gLStep else -gLStep), A := x.A, B := x.B } : ColorFix)
        = x.withL (x.L + stepOf i) := by
      unfold stepOf ColorFix.withL
      split_ifs <;> rfl
    rw [ex] at h1 h2 h3 h4
    simp only [withL_L, withL_withL] at h1 h2 h3 h4
    have shift : ∀ j : ℕ, x.L + stepOf i + stepOf i * (j : ℝ) = x.L + stepOf i * ((j + 1 : ℕ) : ℝ) := by
      intro j; push_cast; ring
    refine ⟨n + 1, ?_, ?_, ?_, ?_⟩
    · rw [whileLoop_reject i b x hc hd', h1, List.range_succ_eq_map, List.map_cons, List.map_map]
      simp only [Nat.cast_zero, mul_zero, add_zero, List.cons.injEq, true_and]
      apply List.map_congr_left
      intro j _
      simp only [Function.comp, shift]
    · intro j hj
      rcases j with _ | j
      · simpa [loopCond] using hc
      · rw [← shift]; exact h2 j (by omega)
    · intro j hj
      rcases j with _ | j
      · simpa [withL_self] using hlt
      · rw [← shift]; exact h3 j (by omega)
    · rcases h4 with ⟨r1, r2, r3, r4⟩ | ⟨m, rfl, r2, r3, r4⟩
      · left
        refine ⟨?_, ?_, ?_, ?_⟩
        · rw [whileLoop_reject i b x hc hd']; exact r1
        · rw [whileLoop_reject i b x hc hd', ← shift]; exact r2
        · rw [← shift]; exact r3
        · intro j hj
          rcases j with _ | j
          · simpa [withL_self] using hlt
          · rw [← shift]; exact r4 j (by omega)
      · right
        refine ⟨m + 1, rfl, ?_, ?_, ?_⟩
        · rw [whileLoop_reject i b x hc hd', ← shift]; exact r2
        · rw [whileLoop_reject i b x hc hd', ← shift]; exact r3
        · rw [← shift]; exact r4
  | case3 x hc =>
    refine ⟨0, ?_, ?_, ?_, Or.inl ⟨?_, ?_, ?_, ?_⟩⟩
    · rw [whileLoop_exit i b x hc]; simp
    · intro j hj; omega
    · intro j hj; omega
    · rw [whileLoop_exit i b x hc]
    · rw [whileLoop_exit i b x hc]; simp [withL_self]
    · simpa [loopCond] using hc
    · intro j hj; omega

theorem stepOf_zero : stepOf 0 = 5 := by unfold stepOf gLStep; norm_num

theorem stepOf_one : stepOf 1 = -5 := by unfold stepOf gLStep; norm_num

theorem forBody_some (b : ColorFix) (s : Scan) (i : ℕ) (c : COLORREF)
    (h : s.returned = some c) : forBody b s i = s := by
  unfold forBody; rw [h]

theorem forBody_none (b : ColorFix) (s : Scan) (i : ℕ) (h : s.returned = none) :
    forBody b s i
      = { frontLab := (whileLoop i b (s.frontLab.withL (s.frontLab.L + stepOf i))).frontLab
          tested := s.tested ++ (whileLoop i b (s.frontLab.withL (s.frontLab.L + stepOf i))).tested
          returned := (whileLoop i b (s.frontLab.withL (s.frontLab.L + stepOf i))).returned } := by
  unfold forBody; rw [h]; rfl

/-- The run when the colours are already distinguishable: no pass of the scan is made. -/
theorem run_of_not_lt (fg bg : COLORREF)
    (h : ¬(ColorFix.ofColor fg).GetDeltaE (ColorFix.ofColor bg) < gMinThreshold) :
    GetPerceivableColorRun fg bg
      = { frontLab := ColorFix.ofColor fg, tested := [], returned := none } := by
  unfold GetPerceivableColorRun
  simp only [if_neg h]

theorem run_of_lt_some (fg bg : COLORREF)
    (h : (ColorFix.ofColor fg).GetDeltaE (ColorFix.ofColor bg) < gMinThreshold)
    (c : COLORREF) (h0 : (pass0 fg bg).returned = some c) :
    GetPerceivableColorRun fg bg = pass0 fg bg := by
  unfold GetPerceivableColorRun
  simp only [if_pos h, List.foldl_cons, List.foldl_nil]
  have e : forBody (ColorFix.ofColor bg)
      { frontLab := ColorFix.ofColor fg, tested := [], returned := none } 0 = pass0 fg bg := by
    rw [forBody_none _ _ _ rfl]; rfl
  rw [e, forBody_some _ _ _ c h0]

theorem run_of_lt_none (fg bg : COLORREF)
    (h : (ColorFix.ofColor fg).GetDeltaE (ColorFix.ofColor bg) < gMinThreshold)
    (h0 : (pass0 fg bg).returned = none) :
    GetPerceivableColorRun fg bg
      = { frontLab := (pass1 fg bg).frontLab
          tested := (pass0 fg bg).tested ++ (pass1 fg bg).tested
          returned := (pass1 fg bg).returned } := by
  unfold GetPerceivableColorRun
  simp only [if_pos h, List.foldl_cons, List.foldl_nil]
  have e : forBody (ColorFix.ofColor bg)
      { frontLab := ColorFix.ofColor fg, tested := [], returned := none } 0 = pass0 fg bg := by
    rw [forBody_none _ _ _ rfl]; rfl
  rw [e, forBody_none _ _ _ h0]; rfl

theorem loopCond_zero (l : ℝ) : loopCond 0 l ↔ l ≤ 100 := by simp [loopCond]

theorem loopCond_one (l : ℝ) : loopCond 1 l ↔ 0 ≤ l := by simp [loopCond]

theorem gMin_lt_gExp : gMinThreshold < gExpThreshold := by
  unfold gMinThreshold gExpThreshold; norm_num

/-- The first pass, spelled out: `n` tested values `L0 + 5 + 5 j`, all at most 100. -/
theorem pass0_spec (fg bg : COLORREF) :
    ∃ n : ℕ,
      (pass0 fg bg).tested
        = (List.range n).map (fun j : ℕ => (0, (ColorFix.ofColor fg).L + 5 + 5 * (j : ℝ))) ∧
      (∀ j < n, (ColorFix.ofColor fg).L + 5 + 5 * (j : ℝ) ≤ 100) ∧
      (∀ j, j + 1 < n →
        ((ColorFix.ofColor fg).withL ((ColorFix.ofColor fg).L + 5 + 5 * (j : ℝ))).GetDeltaE
          (ColorFix.ofColor bg) < gExpThreshold) ∧
      (((pass0 fg bg).returned = none ∧
          (pass0 fg bg).frontLab
            = (ColorFix.ofColor fg).withL ((ColorFix.ofColor fg).L + 5 + 5 * (n : ℝ)) ∧
          100 < (ColorFix.ofColor fg).L + 5 + 5 * (n : ℝ) ∧
          ∀ j < n, ((ColorFix.ofColor fg).withL ((ColorFix.ofColor fg).L + 5 + 5 * (j : ℝ))).GetDeltaE
            (ColorFix.ofColor bg) < gExpThreshold) ∨
        (∃ m, n = m + 1 ∧
          (pass0 fg bg).frontLab
            = ((ColorFix.ofColor fg).withL ((ColorFix.ofColor fg).L + 5 + 5 * (m : ℝ)))._ToRGB ∧
          (pass0 fg bg).returned
            = some ((ColorFix.ofColor fg).withL ((ColorFix.ofColor fg).L + 5 + 5 * (m : ℝ)))._ToRGB.rgb ∧
          ((ColorFix.ofColor fg).withL ((ColorFix.ofColor fg).L + 5 + 5 * (m : ℝ))).GetDeltaE
            (ColorFix.ofColor bg) ≥ gExpThreshold)) := by
  obtain ⟨n, h1, h2, h3, h4⟩ := whileLoop_spec 0 (ColorFix.ofColor bg)
    ((ColorFix.ofColor fg).withL ((ColorFix.ofColor fg).L + stepOf 0))
  simp only [withL_L, withL_withL, stepOf_zero, loopCond_zero, not_le] at h1 h2 h3 h4
  have hp : whileLoop 0 (ColorFix.ofColor bg)
      ((ColorFix.ofColor fg).withL ((ColorFix.ofColor fg).L + 5)) = pass0 fg bg := by
    unfold pass0; rw [stepOf_zero]
  rw [hp] at h1 h4
  exact ⟨n, h1, h2, h3, h4⟩

/-- The second pass, spelled out for a start value `s`: `n` tested values `s - 5 j`, all
at least 0. -/
theorem pass1_spec (fg bg : COLORREF) (s : ℝ)
    (hs : (pass0 fg bg).frontLab = (ColorFix.ofColor fg).withL (s + 5)) :
    ∃ n : ℕ,
      (pass1 fg bg).tested = (List.range n).map (fun j : ℕ => (1, s - 5 * (j : ℝ))) ∧
      (∀ j < n, 0 ≤ s - 5 * (j : ℝ)) ∧
      (∀ j, j + 1 < n →
        ((ColorFix.ofColor fg).withL (s - 5 * (j : ℝ))).GetDeltaE
          (ColorFix.ofColor bg) < gExpThreshold) ∧
      (((pass1 fg bg).returned = none ∧
          (pass1 fg bg).frontLab = (ColorFix.ofColor fg).withL (s - 5 * (n : ℝ)) ∧
          s - 5 * (n : ℝ) < 0 ∧
          ∀ j < n, ((ColorFix.ofColor fg).withL (s - 5 * (j : ℝ))).GetDeltaE
            (ColorFix.ofColor bg) < gExpThreshold) ∨
        (∃ m, n = m + 1 ∧
          (pass1 fg bg).frontLab = ((ColorFix.ofColor fg).withL (s - 5 * (m : ℝ)))._ToRGB ∧
          (pass1 fg bg).returned
            = some ((ColorFix.ofColor fg).withL (s - 5 * (m : ℝ)))._ToRGB.rgb ∧
          ((ColorFix.ofColor fg).withL (s - 5 * (m : ℝ))).GetDeltaE
            (ColorFix.ofColor bg) ≥ gExpThreshold)) := by
  obtain ⟨n, h1, h2, h3, h4⟩ := whileLoop_spec 1 (ColorFix.ofColor bg)
    ((pass0 fg bg).frontLab.withL ((pass0 fg bg).frontLab.L + stepOf 1))
  rw [hs] at h1 h2 h3 h4
  have e : ∀ x : ℝ, s + 5 + -5 + -5 * x = s - 5 * x := by intro x; ring
  simp only [withL_L, withL_withL, stepOf_one, loopCond_one, not_le, e] at h1 h2 h3 h4
  have hp : whileLoop 1 (ColorFix.ofColor bg) ((ColorFix.ofColor fg).withL (s + 5 + -5))
      = pass1 fg bg := by
    unfold pass1; rw [hs, stepOf_one]; rfl
  rw [hp] at h1 h4
  exact ⟨n, h1, h2, h3, h4⟩

/-- C1. When the distance of the two colours is at least 12.0, `GetPerceivableColor` returns
the foreground colour it was given: no lightness is tested and no conversion back from Lab
is made.  -/
theorem GetPerceivableColor_of_ge (fg bg : COLORREF)
    (h : (ColorFix.ofColor fg).GetDeltaE (ColorFix.ofColor bg) ≥ 12.0) :
    ColorFix.GetPerceivableColor fg bg = fg
      ∧ (GetPerceivableColorRun fg bg).tested = []
      ∧ (GetPerceivableColorRun fg bg).returned = none := by
  have h' : ¬(ColorFix.ofColor fg).GetDeltaE (ColorFix.ofColor bg) < gMinThreshold := by
    unfold gMinThreshold; exact not_lt.mpr h
  unfold ColorFix.GetPerceivableColor
  rw [run_of_not_lt fg bg h']
  exact ⟨rfl, rfl, rfl⟩

theorem whileLoop_rgb_of_none (i : ℕ) (b f : ColorFix) (h : (whileLoop i b f).returned = none) :
    (whileLoop i b f).frontLab.rgb = f.rgb := by
  obtain ⟨n, -, -, -, h4⟩ := whileLoop_spec i b f
  rcases h4 with ⟨-, r2, -, -⟩ | ⟨m, -, -, r3, -⟩
  · rw [r2]; rfl
  · rw [r3] at h; cases h

/-- The three ways a run of the search under `de1 < gMinThreshold` can go: the first pass
accepts its candidate number `m`; or the first pass makes `n` tests and leaves above 100 and
the second pass accepts its candidate number `m`; or both passes run out. -/
theorem run_cases (fg bg : COLORREF)
    (h : (ColorFix.ofColor fg).GetDeltaE (ColorFix.ofColor bg) < gMinThreshold) :
    (∃ m : ℕ,
      (GetPerceivableColorRun fg bg).tested
        = (List.range (m + 1)).map (fun j : ℕ => (0, upL fg j)) ∧
      (∀ j ≤ m, upL fg j ≤ 100) ∧
      (∀ j < m, candDist fg bg (upL fg j) < gExpThreshold) ∧
      candDist fg bg (upL fg m) ≥ gExpThreshold ∧
      (GetPerceivableColorRun fg bg).frontLab = (candidate fg (upL fg m))._ToRGB ∧
      (GetPerceivableColorRun fg bg).returned = some (candidate fg (upL fg m))._ToRGB.rgb) ∨
    (∃ n m : ℕ,
      (GetPerceivableColorRun fg bg).tested
        = (List.range n).map (fun j : ℕ => (0, upL fg j))
          ++ (List.range (m + 1)).map (fun j : ℕ => (1, downL fg n j)) ∧
      (∀ j < n, upL fg j ≤ 100) ∧
      (∀ j < n, candDist fg bg (upL fg j) < gExpThreshold) ∧
      100 < upL fg n ∧
      (∀ j ≤ m, 0 ≤ downL fg n j) ∧
      (∀ j < m, candDist fg bg (downL fg n j) < gExpThreshold) ∧
      candDist fg bg (downL fg n m) ≥ gExpThreshold ∧
      (GetPerceivableColorRun fg bg).frontLab = (candidate fg (downL fg n m))._ToRGB ∧
      (GetPerceivableColorRun fg bg).returned = some (candidate fg (downL fg n m))._ToRGB.rgb) ∨
    (∃ n k : ℕ,
      (GetPerceivableColorRun fg bg).tested
        = (List.range n).map (fun j : ℕ => (0, upL fg j))
          ++ (List.range k).map (fun j : ℕ => (1, downL fg n j)) ∧
      (∀ j < n, upL fg j ≤ 100) ∧
      (∀ j < n, candDist fg bg (upL fg j) < gExpThreshold) ∧
      100 < upL fg n ∧
      (∀ j < k, 0 ≤ downL fg n j) ∧
      (∀ j < k, candDist fg bg (downL fg n j) < gExpThreshold) ∧
      downL fg n k < 0 ∧
      (GetPerceivableColorRun fg bg).frontLab = candidate fg (downL fg n k) ∧
      (GetPerceivableColorRun fg bg).returned = none) := by
  obtain ⟨n, t0, c0, p0, r0⟩ := pass0_spec fg bg
  rcases r0 with ⟨ret0, fl0, ex0, rej0⟩ | ⟨m, rfl, fl0, ret0, acc0⟩
  · -- the first pass runs out
    have hs : (pass0 fg bg).frontLab
        = (ColorFix.ofColor fg).withL ((ColorFix.ofColor fg).L + 5 * (n : ℝ) + 5) := by
      rw [fl0]; congr 1; ring
    obtain ⟨k, t1, c1, p1, r1⟩ := pass1_spec fg bg _ hs
    rw [run_of_lt_none fg bg h ret0]
    rcases r1 with ⟨ret1, fl1, ex1, rej1⟩ | ⟨m, rfl, fl1, ret1, acc1⟩
    · right; right
      exact ⟨n, k, by rw [t0, t1]; rfl, c0, rej0, ex0, c1, rej1, ex1, fl1, ret1⟩
    · right; left
      refine ⟨n, m, by rw [t0, t1]; rfl, c0, rej0, ex0, ?_, ?_, acc1, fl1, ret1⟩
      · intro j hj; exact c1 j (by omega)
      · intro j hj; exact p1 j (by omega)
  · left
    rw [run_of_lt_some fg bg h _ ret0]
    refine ⟨m, t0, ?_, ?_, acc0, fl0, ret0⟩
    · intro j hj; exact c0 j (by omega)
    · intro j hj; exact p0 j (by omega)

theorem candidate_self (fg : COLORREF) : candidate fg (ColorFix.ofColor fg).L = ColorFix.ofColor fg :=
  rfl

theorem candidate_L (fg : COLORREF) (l : ℝ) : (candidate fg l).L = l := rfl

theorem GetPerceivableColor_of_returned (fg bg c : COLORREF)
    (h : (GetPerceivableColorRun fg bg).returned = some c) :
    ColorFix.GetPerceivableColor fg bg = c := by
  unfold ColorFix.GetPerceivableColor
  simp only [h]

theorem GetPerceivableColor_of_not_returned (fg bg : COLORREF)
    (h : (GetPerceivableColorRun fg bg).returned = none) :
    ColorFix.GetPerceivableColor fg bg = (GetPerceivableColorRun fg bg).frontLab.rgb := by
  unfold ColorFix.GetPerceivableColor
  simp only [h]

theorem sSubL_le (x1 x2 : ColorFix) : sSubL x1 x2 ≤ 1 + 0.015 * |lBar x1 x2 - 50| := by
  unfold sSubL
  set x := lBar x1 x2 - 50 with hx
  have hpos : 0 < √(20 + x ^ 2) := Real.sqrt_pos.mpr (by positivity)
  have hge : |x| ≤ √(20 + x ^ 2) := by
    rw [← Real.sqrt_sq_eq_abs]
    exact Real.sqrt_le_sqrt (by linarith)
  have hq : x ^ 2 / √(20 + x ^ 2) ≤ |x| := by
    rw [div_le_iff₀ hpos]
    have h2 : x ^ 2 = |x| * |x| := by rw [← sq, sq_abs]
    have := mul_le_mul_of_nonneg_left hge (abs_nonneg x)
    linarith
  have := mul_le_mul_of_nonneg_left hq (by norm_num : (0 : ℝ) ≤ 0.015)
  rw [mul_div_assoc]
  linarith

/-- A candidate of lightness in `[0, 100]` that the scan rejects has a lightness within 35
of the lightness of the background. -/
theorem reject_close (fg bg : COLORREF) (l : ℝ) (h0 : 0 ≤ l) (h1 : l ≤ 100)
    (h : candDist fg bg l < gExpThreshold) : |(ColorFix.ofColor bg).L - l| < 35 := by
  obtain ⟨b0, b1⟩ := ofColor_L_mem bg
  have hl := GetDeltaE_ge_lightness (candidate fg l) (ColorFix.ofColor bg)
  have hs := sSubL_le (candidate fg l) (ColorFix.ofColor bg)
  have hs1 := sSubL_ge_one (candidate fg l) (ColorFix.ofColor bg)
  have hx : |lBar (candidate fg l) (ColorFix.ofColor bg) - 50| ≤ 50 := by
    unfold lBar
    rw [candidate_L, abs_le]
    constructor <;> linarith
  have hs2 : sSubL (candidate fg l) (ColorFix.ofColor bg) ≤ 1.75 := by linarith
  rw [candidate_L] at hl
  unfold candDist gExpThreshold at h
  have hlt : |(ColorFix.ofColor bg).L - l| / sSubL (candidate fg l) (ColorFix.ofColor bg) < 20 := by
    norm_num at h
    linarith
  rw [div_lt_iff₀ (by linarith)] at hlt
  nlinarith

/-- C2. When the distance is below 12.0 and the scan accepts a candidate, the colour returned
is `_ToRGB` of the Lab value `(L0 + 5 k, A0, B0)` for a non-zero integer `k`, where
`(L0, A0, B0)` is the Lab value of `fg`; that lightness lies in `[0, 100]` and the distance of
that Lab value to the background is at least 20.0. -/
theorem GetPerceivableColor_accepted (fg bg : COLORREF)
    (h : (ColorFix.ofColor fg).GetDeltaE (ColorFix.ofColor bg) < 12.0)
    (hr : (GetPerceivableColorRun fg bg).returned ≠ none) :
    ∃ k : ℤ, k ≠ 0 ∧
      ColorFix.GetPerceivableColor fg bg
        = ({ rgb := fg, L := (ColorFix.ofColor fg).L + 5 * (k : ℝ), A := (ColorFix.ofColor fg).A,
              B := (ColorFix.ofColor fg).B } : ColorFix)._ToRGB.rgb ∧
      0 ≤ (ColorFix.ofColor fg).L + 5 * (k : ℝ) ∧
      (ColorFix.ofColor fg).L + 5 * (k : ℝ) ≤ 100 ∧
      ({ rgb := fg, L := (ColorFix.ofColor fg).L + 5 * (k : ℝ), A := (ColorFix.ofColor fg).A,
          B := (ColorFix.ofColor fg).B } : ColorFix).GetDeltaE (ColorFix.ofColor bg) ≥ 20.0 := by
  have hd : (ColorFix.ofColor fg).GetDeltaE (ColorFix.ofColor bg) < gMinThreshold := by
    unfold gMinThreshold; exact h
  obtain ⟨l0, l1⟩ := ofColor_L_mem fg
  rcases run_cases fg bg hd with ⟨m, -, c, -, acc, -, ret⟩ | ⟨n, m, -, c0, -, -, c1, -, acc, -, ret⟩ |
    ⟨n, k, -, -, -, -, -, -, -, -, ret⟩
  · have hm := c m le_rfl
    unfold upL at hm
    have e : upL fg m = (ColorFix.ofColor fg).L + 5 * (((m + 1 : ℕ) : ℤ) : ℝ) := by
      unfold upL; push_cast; ring
    rw [e] at acc ret
    refine ⟨((m + 1 : ℕ) : ℤ), by omega, GetPerceivableColor_of_returned fg bg _ ret, ?_, ?_, ?_⟩
    · push_cast; positivity
    · push_cast; linarith
    · unfold gExpThreshold at acc; exact acc
  · have hm := c1 m le_rfl
    have e : downL fg n m = (ColorFix.ofColor fg).L + 5 * (((n : ℤ) - (m : ℤ) : ℤ) : ℝ) := by
      unfold downL; push_cast; ring
    rw [e] at acc ret hm
    refine ⟨(n : ℤ) - (m : ℤ), ?_, GetPerceivableColor_of_returned fg bg _ ret, hm, ?_, ?_⟩
    · intro hk
      rw [hk] at acc
      have e0 : (ColorFix.ofColor fg).L + 5 * ((0 : ℤ) : ℝ) = (ColorFix.ofColor fg).L := by
        push_cast; ring
      rw [e0] at acc
      unfold candDist at acc
      rw [candidate_self] at acc
      have := gMin_lt_gExp
      linarith
    · rcases Nat.lt_or_ge m n with hmn | hmn
      · have hn := c0 (n - 1) (by omega)
        unfold upL at hn
        have e1 : ((n - 1 : ℕ) : ℝ) = (n : ℝ) - 1 := by
          rw [Nat.cast_sub (by omega)]; simp
        rw [e1] at hn
        have : (0 : ℝ) ≤ (m : ℝ) := Nat.cast_nonneg _
        push_cast
        linarith
      · have : (n : ℝ) ≤ (m : ℝ) := by exact_mod_cast hmn
        push_cast
        linarith
    · unfold gExpThreshold at acc; exact acc
  · exact absurd ret hr

theorem testedBy_zero_of (s : Scan) (a b : ℕ) (u v : ℕ → ℝ)
    (h : s.tested = (List.range a).map (fun j : ℕ => (0, u j))
      ++ (List.range b).map (fun j : ℕ => (1, v j))) :
    testedBy 0 s = (List.range a).map u := by
  unfold testedBy
  rw [h, List.filter_append, List.map_append]
  simp [List.filter_map, Function.comp_def]

theorem testedBy_one_of (s : Scan) (a b : ℕ) (u v : ℕ → ℝ)
    (h : s.tested = (List.range a).map (fun j : ℕ => (0, u j))
      ++ (List.range b).map (fun j : ℕ => (1, v j))) :
    testedBy 1 s = (List.range b).map v := by
  unfold testedBy
  rw [h, List.filter_append, List.map_append]
  simp [List.filter_map, Function.comp_def]

/-- When the first pass ran out after `n` tests, it stopped at most one step above 100. -/
theorem top_le (fg : COLORREF) (n : ℕ) (c : ∀ j < n, upL fg j ≤ 100) :
    (ColorFix.ofColor fg).L + 5 * (n : ℝ) ≤ 100 := by
  obtain ⟨l0, l1⟩ := ofColor_L_mem fg
  rcases Nat.eq_zero_or_pos n with rfl | hn
  · simpa using l1
  · have hn := c (n - 1) (by omega)
    unfold upL at hn
    have e1 : ((n - 1 : ℕ) : ℝ) = (n : ℝ) - 1 := by
      rw [Nat.cast_sub (by omega)]; simp
    rw [e1] at hn
    linarith

/-- Two rejected lightness values of the second pass are never 95 apart. -/
theorem not_both_rejected (fg bg : COLORREF) (n : ℕ) (c : ∀ j < n, upL fg j ≤ 100)
    (h0 : candDist fg bg (downL fg n 0) < gExpThreshold)
    (h19 : candDist fg bg (downL fg n 19) < gExpThreshold)
    (hpos : 0 ≤ downL fg n 19) : False := by
  obtain ⟨l0, l1⟩ := ofColor_L_mem fg
  have ht := top_le fg n c
  have e0 : downL fg n 0 = (ColorFix.ofColor fg).L + 5 * (n : ℝ) := by unfold downL; simp
  have e19 : downL fg n 19 = (ColorFix.ofColor fg).L + 5 * (n : ℝ) - 95 := by
    unfold downL; norm_num
  rw [e19] at hpos
  have r0 := reject_close fg bg _ (by rw [e0]; linarith) (by rw [e0]; linarith) h0
  have r19 := reject_close fg bg _ (by rw [e19]; linarith) (by rw [e19]; linarith) h19
  rw [e0, abs_lt] at r0
  rw [e19, abs_lt] at r19
  linarith [r0.1, r0.2, r19.1, r19.2]

/-- C9. `GetPerceivableColor` terminates (it is a total function), and each of its two passes
executes the body of its `while` loop, hence evaluates `GetDeltaE`, at most 20 times. -/
theorem scan_iterations_le (fg bg : COLORREF) :
    (testedBy 0 (GetPerceivableColorRun fg bg)).length ≤ 20
      ∧ (testedBy 1 (GetPerceivableColorRun fg bg)).length ≤ 20 := by
  obtain ⟨l0, l1⟩ := ofColor_L_mem fg
  by_cases hd : (ColorFix.ofColor fg).GetDeltaE (ColorFix.ofColor bg) < gMinThreshold
  · rcases run_cases fg bg hd with ⟨m, t, c, -, -, -, -⟩ | ⟨n, m, t, c0, -, -, c1, rej, -, -, -⟩ |
      ⟨n, k, t, c0, -, -, c1, rej, ex, -, -⟩
    · have t' : (GetPerceivableColorRun fg bg).tested
          = (List.range (m + 1)).map (fun j : ℕ => (0, upL fg j))
            ++ (List.range 0).map (fun j : ℕ => (1, (0 : ℝ))) := by rw [t]; simp
      rw [testedBy_zero_of _ _ _ _ _ t', testedBy_one_of _ _ _ _ _ t']
      simp only [List.length_map, List.length_range]
      have hm := c m le_rfl
      unfold upL at hm
      have : (m : ℝ) ≤ 19 := by linarith
      have : m ≤ 19 := by exact_mod_cast this
      omega
    · rw [testedBy_zero_of _ _ _ _ _ t, testedBy_one_of _ _ _ _ _ t]
      simp only [List.length_map, List.length_range]
      have ht := top_le fg n c0
      have hn : (n : ℝ) ≤ 20 := by linarith
      have hn' : n ≤ 20 := by exact_mod_cast hn
      refine ⟨hn', ?_⟩
      by_contra hcon
      have hm : 20 ≤ m := by omega
      exact not_both_rejected fg bg n c0 (rej 0 (by omega)) (rej 19 (by omega)) (c1 19 (by omega))
    · rw [testedBy_zero_of _ _ _ _ _ t, testedBy_one_of _ _ _ _ _ t]
      simp only [List.length_map, List.length_range]
      have ht := top_le fg n c0
      have hn : (n : ℝ) ≤ 20 := by linarith
      have hn' : n ≤ 20 := by exact_mod_cast hn
      refine ⟨hn', ?_⟩
      by_contra hcon
      have hk : 21 ≤ k := by omega
      exact not_both_rejected fg bg n c0 (rej 0 (by omega)) (rej 19 (by omega)) (c1 19 (by omega))
  · rw [run_of_not_lt fg bg hd]
    simp [testedBy]

/-! ## Black and white -/

theorem linearize_zero : linearize 0 = 0 := by
  unfold linearize
  rw [if_neg (by norm_num)]
  simp

theorem linearize_one : linearize 1 = 1 := by
  unfold linearize
  rw [if_pos (by norm_num)]
  have : ((1 : ℝ) + 0.055) / 1.055 = 1 := by norm_num
  rw [this, Real.one_rpow]

theorem labF_zero : labF 0 = 16 / 116 := by
  unfold labF
  rw [if_neg (by norm_num)]
  simp

theorem labF_one : labF 1 = 1 := by
  unfold labF
  rw [if_pos (by norm_num), Real.one_rpow]

/-- For `t` from 1 upwards, `labF t` lies between 1 and `t`. -/
theorem labF_of_one_le (t : ℝ) (h : 1 ≤ t) : 1 ≤ labF t ∧ labF t ≤ t := by
  unfold labF
  rw [if_pos (by linarith)]
  constructor
  · exact Real.one_le_rpow h (by norm_num)
  · have := Real.rpow_le_rpow_of_exponent_le h (by norm_num : (1 : ℝ) / 3 ≤ 1)
    rwa [Real.rpow_one] at this

theorem lin_white : linR (RGB 255 255 255) = 100 ∧ linG (RGB 255 255 255) = 100
    ∧ linB (RGB 255 255 255) = 100 := by
  have hv : ((255 : BYTE) : ℕ) = 255 := rfl
  have e : (((255 : BYTE) : ℕ) : ℝ) / 255.0 = 1 := by rw [hv]; norm_num
  unfold linR linG linB RGB
  simp only [e, linearize_one]
  norm_num

theorem lin_black : linR (RGB 0 0 0) = 0 ∧ linG (RGB 0 0 0) = 0 ∧ linB (RGB 0 0 0) = 0 := by
  have hv : ((0 : BYTE) : ℕ) = 0 := rfl
  have e : (((0 : BYTE) : ℕ) : ℝ) / 255.0 = 0 := by rw [hv]; norm_num
  unfold linR linG linB RGB
  simp only [e, linearize_zero]
  norm_num

theorem white_L : (ColorFix.ofColor (RGB 255 255 255)).L = 100 := by
  obtain ⟨r, g, b⟩ := lin_white
  rw [ofColor_L]
  have : xyzY (RGB 255 255 255) = 1 := by unfold xyzY; rw [r, g, b]; norm_num
  rw [this, labF_one]; norm_num

theorem white_A : 0 ≤ (ColorFix.ofColor (RGB 255 255 255)).A
    ∧ (ColorFix.ofColor (RGB 255 255 255)).A ≤ 0.02 := by
  obtain ⟨r, g, b⟩ := lin_white
  rw [ofColor_A]
  have hy : xyzY (RGB 255 255 255) = 1 := by unfold xyzY; rw [r, g, b]; norm_num
  have hx : xyzX (RGB 255 255 255) = 95.05 / 95.047 := by unfold xyzX; rw [r, g, b]; norm_num
  obtain ⟨h1, h2⟩ := labF_of_one_le (95.05 / 95.047) (by norm_num)
  rw [hy, hx, labF_one]
  constructor
  · linarith
  · have : (95.05 : ℝ) / 95.047 ≤ 1.00004 := by norm_num
    linarith

theorem white_B : -0.04 ≤ (ColorFix.ofColor (RGB 255 255 255)).B
    ∧ (ColorFix.ofColor (RGB 255 255 255)).B ≤ 0 := by
  obtain ⟨r, g, b⟩ := lin_white
  rw [ofColor_B]
  have hy : xyzY (RGB 255 255 255) = 1 := by unfold xyzY; rw [r, g, b]; norm_num
  have hz : xyzZ (RGB 255 255 255) = 108.9 / 108.883 := by unfold xyzZ; rw [r, g, b]; norm_num
  obtain ⟨h1, h2⟩ := labF_of_one_le (108.9 / 108.883) (by norm_num)
  rw [hy, hz, labF_one]
  constructor
  · have : (108.9 : ℝ) / 108.883 ≤ 1.0002 := by norm_num
    linarith
  · linarith

theorem black_Lab : (ColorFix.ofColor (RGB 0 0 0)).L = 0 ∧ (ColorFix.ofColor (RGB 0 0 0)).A = 0
    ∧ (ColorFix.ofColor (RGB 0 0 0)).B = 0 := by
  obtain ⟨r, g, b⟩ := lin_black
  have hx : xyzX (RGB 0 0 0) = 0 := by unfold xyzX; rw [r, g, b]; norm_num
  have hy : xyzY (RGB 0 0 0) = 0 := by unfold xyzY; rw [r, g, b]; norm_num
  have hz : xyzZ (RGB 0 0 0) = 0 := by unfold xyzZ; rw [r, g, b]; norm_num
  rw [ofColor_L, ofColor_A, ofColor_B, hx, hy, hz, labF_zero]
  norm_num

/-- C7. Reference values of `_ToLab`: white is within 0.1 of `(100, 0, 0)` and black is
within 0.1 of `(0, 0, 0)` in each of `L`, `A`, `B`. -/
theorem ToLab_white_black :
    |(ColorFix.ofColor (RGB 255 255 255)).L - 100| ≤ 0.1
      ∧ |(ColorFix.ofColor (RGB 255 255 255)).A| ≤ 0.1
      ∧ |(ColorFix.ofColor (RGB 255 255 255)).B| ≤ 0.1
      ∧ |(ColorFix.ofColor (RGB 0 0 0)).L| ≤ 0.1
      ∧ |(ColorFix.ofColor (RGB 0 0 0)).A| ≤ 0.1
      ∧ |(ColorFix.ofColor (RGB 0 0 0)).B| ≤ 0.1 := by
  obtain ⟨a0, a1⟩ := white_A
  obtain ⟨b0, b1⟩ := white_B
  obtain ⟨kl, ka, kb⟩ := black_Lab
  rw [white_L, kl, ka, kb]
  refine ⟨by norm_num, ?_, ?_, by norm_num, by norm_num, by norm_num⟩
  · rw [abs_le]; constructor <;> linarith
  · rw [abs_le]; constructor <;> linarith

theorem white_black_dist :
    100 ≤ (ColorFix.ofColor (RGB 255 255 255)).GetDeltaE (ColorFix.ofColor (RGB 0 0 0)) := by
  have h := GetDeltaE_ge_lightness (ColorFix.ofColor (RGB 255 255 255)) (ColorFix.ofColor (RGB 0 0 0))
  have hs : sSubL (ColorFix.ofColor (RGB 255 255 255)) (ColorFix.ofColor (RGB 0 0 0)) = 1 := by
    unfold sSubL lBar
    rw [white_L, black_Lab.1]
    norm_num
  rw [hs, white_L, black_Lab.1] at h
  norm_num at h
  exact h

/-- C1 at white on black: the distance is at least 12.0 and white is returned. -/
theorem GetPerceivableColor_of_ge_witness :
    (ColorFix.ofColor (RGB 255 255 255)).GetDeltaE (ColorFix.ofColor (RGB 0 0 0)) ≥ 12.0
      ∧ ColorFix.GetPerceivableColor (RGB 255 255 255) (RGB 0 0 0) = RGB 255 255 255 :=
  ⟨by have := white_black_dist; linarith,
    (GetPerceivableColor_of_ge (RGB 255 255 255) (RGB 0 0 0)
      (by have := white_black_dist; linarith)).1⟩

/-! ## An upper bound on the distance -/

theorem t_ge (x1 x2 : ColorFix) : 0.07 ≤ t x1 x2 := by
  unfold t
  have h1 := Real.cos_le_one (hBarPrime x1 x2 - rad030)
  have h2 := Real.neg_one_le_cos (2 * hBarPrime x1 x2)
  have h3 := Real.neg_one_le_cos (3 * hBarPrime x1 x2 + rad006)
  have h4 := Real.cos_le_one (4 * hBarPrime x1 x2 - rad063)
  linarith

theorem sSubH_ge_one (x1 x2 : ColorFix) : 1 ≤ sSubH x1 x2 := by
  unfold sSubH
  have h1 := t_ge x1 x2
  have h2 := cBarPrime_nonneg x1 x2
  have : 0 ≤ cBarPrime x1 x2 * t x1 x2 := mul_nonneg h2 (by linarith)
  linarith

theorem sSubC_ge_one (x1 x2 : ColorFix) : 1 ≤ sSubC x1 x2 := by
  unfold sSubC
  have h2 := cBarPrime_nonneg x1 x2
  linarith

theorem abs_div_le_of_one_le (a s : ℝ) (hs : 1 ≤ s) : |a / s| ≤ |a| := by
  rw [abs_div, abs_of_pos (by linarith : (0 : ℝ) < s)]
  exact div_le_self (abs_nonneg a) hs

theorem abs_lightness_le (x1 x2 : ColorFix) : |lightness x1 x2| ≤ |x2.L - x1.L| := by
  unfold lightness kSubL deltaLPrime
  rw [one_mul]
  exact abs_div_le_of_one_le _ _ (sSubL_ge_one x1 x2)

theorem abs_chroma_le (x1 x2 : ColorFix) : |chroma x1 x2| ≤ |deltaCPrime x1 x2| := by
  unfold chroma kSubC
  rw [one_mul]
  exact abs_div_le_of_one_le _ _ (sSubC_ge_one x1 x2)

theorem abs_hue_le (x1 x2 : ColorFix) : |hue x1 x2| ≤ |deltaHPrime x1 x2| := by
  unfold hue kSubH
  rw [one_mul]
  exact abs_div_le_of_one_le _ _ (sSubH_ge_one x1 x2)

theorem abs_deltaHPrime_le (x1 x2 : ColorFix) :
    |deltaHPrime x1 x2| ≤ 2 * √(cPrime1 x1 x2 * cPrime2 x1 x2) := by
  unfold deltaHPrime
  have hs : 0 ≤ 2 * √(cPrime1 x1 x2 * cPrime2 x1 x2) := by positivity
  by_cases h : 0 = c1 x1 ∨ 0 = c2 x2
  · rw [if_pos h, abs_zero]; exact hs
  · rw [if_neg h, abs_mul, abs_of_nonneg hs]
    exact mul_le_of_le_one_right hs (abs_sin_le_one _)

theorem sqrt_sq_add_sq_le (a b : ℝ) : √(a ^ 2 + b ^ 2) ≤ |a| + |b| := by
  rw [Real.sqrt_le_left (by positivity)]
  nlinarith [abs_nonneg a, abs_nonneg b, sq_abs a, sq_abs b, mul_nonneg (abs_nonneg a) (abs_nonneg b)]

theorem abs_aPrime_le (a q : ℝ) (h0 : 0 ≤ q) (h1 : q ≤ 1) : |a + a / 2 * (1 - q)| ≤ 1.5 * |a| := by
  have e : a + a / 2 * (1 - q) = a * (1 + (1 - q) / 2) := by ring
  rw [e, abs_mul, abs_of_nonneg (by linarith : (0 : ℝ) ≤ 1 + (1 - q) / 2)]
  have := abs_nonneg a
  nlinarith

theorem cBar_nonneg (x1 x2 : ColorFix) : 0 ≤ cBar x1 x2 := by
  unfold cBar c1 c2
  have := Real.sqrt_nonneg (x1.A ^ 2 + x1.B ^ 2)
  have := Real.sqrt_nonneg (x2.A ^ 2 + x2.B ^ 2)
  linarith

theorem cPrime1_le (x1 x2 : ColorFix) : cPrime1 x1 x2 ≤ 1.5 * |x1.A| + |x1.B| := by
  unfold cPrime1 aPrime1
  obtain ⟨h0, h1⟩ := sqrt_ratio_mem (cBar x1 x2) (cBar_nonneg x1 x2)
  have := abs_aPrime_le x1.A _ h0 h1
  have := sqrt_sq_add_sq_le (x1.A + x1.A / 2 * (1 - √(cBar x1 x2 ^ 7 / (cBar x1 x2 ^ 7 + (25.0 : ℝ) ^ 7)))) x1.B
  linarith

theorem cPrime2_le (x1 x2 : ColorFix) : cPrime2 x1 x2 ≤ 1.5 * |x2.A| + |x2.B| := by
  unfold cPrime2 aPrime2
  obtain ⟨h0, h1⟩ := sqrt_ratio_mem (cBar x1 x2) (cBar_nonneg x1 x2)
  have := abs_aPrime_le x2.A _ h0 h1
  have := sqrt_sq_add_sq_le (x2.A + x2.A / 2 * (1 - √(cBar x1 x2 ^ 7 / (cBar x1 x2 ^ 7 + (25.0 : ℝ) ^ 7)))) x2.B
  linarith

/-- Colours of small chroma are about as far apart as their lightness values. -/
theorem GetDeltaE_le (x1 x2 : ColorFix) (M : ℝ) (h1 : cPrime1 x1 x2 ≤ M)
    (h2 : cPrime2 x1 x2 ≤ M) : x1.GetDeltaE x2 ≤ |x2.L - x1.L| + 3 * M := by
  have p1 := cPrime1_nonneg x1 x2
  have p2 := cPrime2_nonneg x1 x2
  have hc : |chroma x1 x2| ≤ M := by
    refine le_trans (abs_chroma_le x1 x2) ?_
    unfold deltaCPrime
    rw [abs_le]; constructor <;> linarith
  have hh : |hue x1 x2| ≤ 2 * M := by
    refine le_trans (abs_hue_le x1 x2) (le_trans (abs_deltaHPrime_le x1 x2) ?_)
    have : √(cPrime1 x1 x2 * cPrime2 x1 x2) ≤ √(M * M) :=
      Real.sqrt_le_sqrt (mul_le_mul h1 h2 p2 (by linarith))
    rw [Real.sqrt_mul_self (by linarith)] at this
    linarith
  have hl := abs_lightness_le x1 x2
  have hR := rSubT_abs_le x1 x2
  have key : lightness x1 x2 ^ 2 + chroma x1 x2 ^ 2 + hue x1 x2 ^ 2
      + rSubT x1 x2 * chroma x1 x2 * hue x1 x2
      ≤ (|lightness x1 x2| + |chroma x1 x2| + |hue x1 x2|) ^ 2 := by
    have e : rSubT x1 x2 * chroma x1 x2 * hue x1 x2
        ≤ 2 * (|chroma x1 x2| * |hue x1 x2|) := by
      have := le_abs_self (rSubT x1 x2 * chroma x1 x2 * hue x1 x2)
      rw [abs_mul, abs_mul] at this
      have h3 : |rSubT x1 x2| * |chroma x1 x2| * |hue x1 x2|
          ≤ 2 * |chroma x1 x2| * |hue x1 x2| :=
        mul_le_mul_of_nonneg_right (mul_le_mul_of_nonneg_right hR (abs_nonneg _)) (abs_nonneg _)
      linarith
    nlinarith [abs_nonneg (lightness x1 x2), abs_nonneg (chroma x1 x2), abs_nonneg (hue x1 x2),
      sq_abs (lightness x1 x2), sq_abs (chroma x1 x2), sq_abs (hue x1 x2),
      mul_nonneg (abs_nonneg (lightness x1 x2)) (abs_nonneg (chroma x1 x2)),
      mul_nonneg (abs_nonneg (lightness x1 x2)) (abs_nonneg (hue x1 x2))]
  unfold ColorFix.GetDeltaE
  have hs := Real.sqrt_le_sqrt key
  rw [Real.sqrt_sq (by positivity)] at hs
  linarith

/-! ## Bounds on real powers with a rational exponent -/

theorem le_rpow_of_pow_le (a u : ℝ) (ha : 0 ≤ a) (hu : 0 ≤ u) (m n : ℕ) (hn : n ≠ 0)
    (h : a ^ n ≤ u ^ m) : a ≤ u ^ ((m : ℝ) / (n : ℝ)) := by
  have h1 := Real.rpow_le_rpow (pow_nonneg ha n) h (inv_nonneg.mpr (Nat.cast_nonneg n))
  rw [Real.pow_rpow_inv_natCast ha hn, ← Real.rpow_natCast u m, ← Real.rpow_mul hu,
    ← div_eq_mul_inv] at h1
  exact h1

theorem rpow_le_of_pow_le (a u : ℝ) (ha : 0 ≤ a) (hu : 0 ≤ u) (m n : ℕ) (hn : n ≠ 0)
    (h : u ^ m ≤ a ^ n) : u ^ ((m : ℝ) / (n : ℝ)) ≤ a := by
  have h1 := Real.rpow_le_rpow (pow_nonneg hu m) h (inv_nonneg.mpr (Nat.cast_nonneg n))
  rw [Real.pow_rpow_inv_natCast ha hn, ← Real.rpow_natCast u m, ← Real.rpow_mul hu,
    ← div_eq_mul_inv] at h1
  exact h1

/-! ## Gray colours -/

theorem gray_xyz (v : BYTE) :
    xyzX (RGB v v v) = linearize (((v : ℕ) : ℝ) / 255.0) * (95.05 / 95.047)
      ∧ xyzY (RGB v v v) = linearize (((v : ℕ) : ℝ) / 255.0)
      ∧ xyzZ (RGB v v v) = linearize (((v : ℕ) : ℝ) / 255.0) * (108.9 / 108.883) := by
  unfold xyzX xyzY xyzZ linR linG linB RGB
  refine ⟨?_, ?_, ?_⟩ <;> ring

theorem labF_mul_sub (l k : ℝ) (hl : 0.008856 < l) (hl1 : l ≤ 1) (hk : 1 ≤ k) :
    0 ≤ labF (l * k) - labF l ∧ labF (l * k) - labF l ≤ k - 1 := by
  have hl0 : 0 ≤ l := by linarith
  have hlk : 0.008856 < l * k := by nlinarith
  unfold labF
  rw [if_pos hlk, if_pos hl, Real.mul_rpow hl0 (by linarith)]
  have a0 : 0 ≤ l ^ ((1 : ℝ) / 3) := Real.rpow_nonneg hl0 _
  have a1 : l ^ ((1 : ℝ) / 3) ≤ 1 := Real.rpow_le_one hl0 hl1 (by norm_num)
  have b0 : 1 ≤ k ^ ((1 : ℝ) / 3) := Real.one_le_rpow hk (by norm_num)
  have b1 : k ^ ((1 : ℝ) / 3) ≤ k := by
    have := Real.rpow_le_rpow_of_exponent_le hk (by norm_num : (1 : ℝ) / 3 ≤ 1)
    rwa [Real.rpow_one] at this
  constructor <;> nlinarith

/-- The Lab value of a gray colour whose linear value is in the cube-root range. -/
theorem gray_Lab (v : BYTE) (hl : 0.008856 < linearize (((v : ℕ) : ℝ) / 255.0)) :
    (ColorFix.ofColor (RGB v v v)).L = 116 * labF (linearize (((v : ℕ) : ℝ) / 255.0)) - 16
      ∧ 0 ≤ (ColorFix.ofColor (RGB v v v)).A ∧ (ColorFix.ofColor (RGB v v v)).A ≤ 0.016
      ∧ -0.032 ≤ (ColorFix.ofColor (RGB v v v)).B ∧ (ColorFix.ofColor (RGB v v v)).B ≤ 0 := by
  obtain ⟨hx, hy, hz⟩ := gray_xyz v
  obtain ⟨d0, d1⟩ := byte_div_mem v
  obtain ⟨-, l1⟩ := linearize_mem _ d0 d1
  obtain ⟨x0, x1⟩ := labF_mul_sub _ (95.05 / 95.047) hl l1 (by norm_num)
  obtain ⟨z0, z1⟩ := labF_mul_sub _ (108.9 / 108.883) hl l1 (by norm_num)
  rw [ofColor_L, ofColor_A, ofColor_B, hx, hy, hz]
  have e1 : (95.05 : ℝ) / 95.047 - 1 ≤ 0.000032 := by norm_num
  have e2 : (108.9 : ℝ) / 108.883 - 1 ≤ 0.00016 := by norm_num
  refine ⟨rfl, ?_, ?_, ?_, ?_⟩ <;> linarith

/-- The value of `var_Y` from which `L` is computed, for a channel value in the power range of
the decoding. -/
theorem labF_linearize (s : ℝ) (hs : 0.04045 < s) (hb : 0.3 ≤ (s + 0.055) / 1.055) :
    0.008856 < linearize s
      ∧ labF (linearize s) = ((s + 0.055) / 1.055) ^ (((4 : ℕ) : ℝ) / ((5 : ℕ) : ℝ)) := by
  have hu : 0 ≤ (s + 0.055) / 1.055 := by linarith
  have hlin : linearize s = ((s + 0.055) / 1.055) ^ (2.4 : ℝ) := by
    unfold linearize; rw [if_pos hs]
  have hlow : 0.008856 < ((s + 0.055) / 1.055) ^ (2.4 : ℝ) := by
    have h := le_rpow_of_pow_le 0.009 ((s + 0.055) / 1.055) (by norm_num) hu 12 5 (by norm_num)
      (by
        have : (0.3 : ℝ) ^ 12 ≤ ((s + 0.055) / 1.055) ^ 12 := pow_le_pow_left₀ (by norm_num) hb 12
        have e : (0.009 : ℝ) ^ 5 ≤ (0.3 : ℝ) ^ 12 := by norm_num
        linarith)
    have e : ((12 : ℕ) : ℝ) / ((5 : ℕ) : ℝ) = 2.4 := by norm_num
    rw [e] at h
    linarith
  rw [hlin]
  refine ⟨hlow, ?_⟩
  unfold labF
  rw [if_pos hlow, ← Real.rpow_mul hu]
  congr 1
  norm_num

theorem gray128_L : 52 ≤ (ColorFix.ofColor (RGB 128 128 128)).L
    ∧ (ColorFix.ofColor (RGB 128 128 128)).L ≤ 55 := by
  have hv : (((128 : BYTE) : ℕ) : ℝ) / 255.0 = 128 / 255 := by
    have : ((128 : BYTE) : ℕ) = 128 := rfl
    rw [this]; norm_num
  obtain ⟨hl, he⟩ := labF_linearize (128 / 255) (by norm_num) (by norm_num)
  have g := (gray_Lab 128 (by rw [hv]; exact hl)).1
  rw [hv, he] at g
  have lo := le_rpow_of_pow_le 0.59 (((128 : ℝ) / 255 + 0.055) / 1.055) (by norm_num)
    (by norm_num) 4 5 (by norm_num) (by norm_num)
  have hi := rpow_le_of_pow_le 0.61 (((128 : ℝ) / 255 + 0.055) / 1.055) (by norm_num)
    (by norm_num) 4 5 (by norm_num) (by norm_num)
  rw [g]
  constructor <;> linarith

theorem gray130_L : 52 ≤ (ColorFix.ofColor (RGB 130 130 130)).L
    ∧ (ColorFix.ofColor (RGB 130 130 130)).L ≤ 55 := by
  have hv : (((130 : BYTE) : ℕ) : ℝ) / 255.0 = 130 / 255 := by
    have : ((130 : BYTE) : ℕ) = 130 := rfl
    rw [this]; norm_num
  obtain ⟨hl, he⟩ := labF_linearize (130 / 255) (by norm_num) (by norm_num)
  have g := (gray_Lab 130 (by rw [hv]; exact hl)).1
  rw [hv, he] at g
  have lo := le_rpow_of_pow_le 0.59 (((130 : ℝ) / 255 + 0.055) / 1.055) (by norm_num)
    (by norm_num) 4 5 (by norm_num) (by norm_num)
  have hi := rpow_le_of_pow_le 0.61 (((130 : ℝ) / 255 + 0.055) / 1.055) (by norm_num)
    (by norm_num) 4 5 (by norm_num) (by norm_num)
  rw [g]
  constructor <;> linarith

theorem gray128_AB : |(ColorFix.ofColor (RGB 128 128 128)).A| ≤ 0.016
    ∧ |(ColorFix.ofColor (RGB 128 128 128)).B| ≤ 0.032 := by
  have hv : (((128 : BYTE) : ℕ) : ℝ) / 255.0 = 128 / 255 := by
    have : ((128 : BYTE) : ℕ) = 128 := rfl
    rw [this]; norm_num
  obtain ⟨hl, -⟩ := labF_linearize (128 / 255) (by norm_num) (by norm_num)
  obtain ⟨-, a0, a1, b0, b1⟩ := gray_Lab 128 (by rw [hv]; exact hl)
  constructor <;> rw [abs_le] <;> constructor <;> linarith

theorem gray130_AB : |(ColorFix.ofColor (RGB 130 130 130)).A| ≤ 0.016
    ∧ |(ColorFix.ofColor (RGB 130 130 130)).B| ≤ 0.032 := by
  have hv : (((130 : BYTE) : ℕ) : ℝ) / 255.0 = 130 / 255 := by
    have : ((130 : BYTE) : ℕ) = 130 := rfl
    rw [this]; norm_num
  obtain ⟨hl, -⟩ := labF_linearize (130 / 255) (by norm_num) (by norm_num)
  obtain ⟨-, a0, a1, b0, b1⟩ := gray_Lab 130 (by rw [hv]; exact hl)
  constructor <;> rw [abs_le] <;> constructor <;> linarith

/-- A candidate of the first pass that is in range and far enough makes the search return
from inside the loop. -/
theorem returned_of_up_candidate (fg bg : COLORREF)
    (hd : (ColorFix.ofColor fg).GetDeltaE (ColorFix.ofColor bg) < gMinThreshold) (j : ℕ)
    (hj : upL fg j ≤ 100) (hacc : candDist fg bg (upL fg j) ≥ gExpThreshold) :
    (GetPerceivableColorRun fg bg).returned ≠ none := by
  rcases run_cases fg bg hd with ⟨m, -, -, -, -, -, ret⟩ | ⟨n, m, -, -, -, -, -, -, -, -, ret⟩ |
    ⟨n, k, -, -, rej, ex, -, -, -, -, -⟩
  · rw [ret]; simp
  · rw [ret]; simp
  · exfalso
    rcases Nat.lt_or_ge j n with hjn | hjn
    · have := rej j hjn
      linarith
    · have : (n : ℝ) ≤ (j : ℝ) := by exact_mod_cast hjn
      unfold upL at ex hj
      linarith

theorem gray_pair_close :
    (ColorFix.ofColor (RGB 128 128 128)).GetDeltaE (ColorFix.ofColor (RGB 130 130 130)) < 12 := by
  obtain ⟨a1, b1⟩ := gray128_AB
  obtain ⟨a2, b2⟩ := gray130_AB
  obtain ⟨l1, u1⟩ := gray128_L
  obtain ⟨l2, u2⟩ := gray130_L
  have c1 := cPrime1_le (ColorFix.ofColor (RGB 128 128 128)) (ColorFix.ofColor (RGB 130 130 130))
  have c2 := cPrime2_le (ColorFix.ofColor (RGB 128 128 128)) (ColorFix.ofColor (RGB 130 130 130))
  have h := GetDeltaE_le (ColorFix.ofColor (RGB 128 128 128)) (ColorFix.ofColor (RGB 130 130 130))
    0.056 (by linarith) (by linarith)
  have hL : |(ColorFix.ofColor (RGB 130 130 130)).L - (ColorFix.ofColor (RGB 128 128 128)).L| ≤ 3 := by
    rw [abs_le]; constructor <;> linarith
  linarith

theorem gray_pair_candidate :
    upL (RGB 128 128 128) 8 ≤ 100
      ∧ candDist (RGB 128 128 128) (RGB 130 130 130) (upL (RGB 128 128 128) 8) ≥ gExpThreshold := by
  obtain ⟨l1, u1⟩ := gray128_L
  obtain ⟨l2, u2⟩ := gray130_L
  have e : upL (RGB 128 128 128) 8 = (ColorFix.ofColor (RGB 128 128 128)).L + 45 := by
    unfold upL; norm_num; ring
  rw [e]
  refine ⟨by linarith, ?_⟩
  have hl := GetDeltaE_ge_lightness
    (candidate (RGB 128 128 128) ((ColorFix.ofColor (RGB 128 128 128)).L + 45))
    (ColorFix.ofColor (RGB 130 130 130))
  have hs := sSubL_le
    (candidate (RGB 128 128 128) ((ColorFix.ofColor (RGB 128 128 128)).L + 45))
    (ColorFix.ofColor (RGB 130 130 130))
  have hs1 := sSubL_ge_one
    (candidate (RGB 128 128 128) ((ColorFix.ofColor (RGB 128 128 128)).L + 45))
    (ColorFix.ofColor (RGB 130 130 130))
  have hx : |lBar (candidate (RGB 128 128 128) ((ColorFix.ofColor (RGB 128 128 128)).L + 45))
      (ColorFix.ofColor (RGB 130 130 130)) - 50| ≤ 28 := by
    unfold lBar
    rw [candidate_L, abs_le]
    constructor <;> linarith
  rw [candidate_L] at hl
  have hd : 42 ≤ |(ColorFix.ofColor (RGB 130 130 130)).L
      - ((ColorFix.ofColor (RGB 128 128 128)).L + 45)| := by
    rw [abs_sub_comm]
    refine le_trans ?_ (le_abs_self _)
    linarith
  have hq : 20 ≤ |(ColorFix.ofColor (RGB 130 130 130)).L
      - ((ColorFix.ofColor (RGB 128 128 128)).L + 45)|
      / sSubL (candidate (RGB 128 128 128) ((ColorFix.ofColor (RGB 128 128 128)).L + 45))
        (ColorFix.ofColor (RGB 130 130 130)) := by
    rw [le_div_iff₀ (by linarith)]
    nlinarith
  unfold candDist gExpThreshold
  norm_num
  linarith

/-- C2 at the grays 128 on 130: the distance is below 12.0, the scan accepts a candidate, and
the colour returned is the conversion of a candidate as the theorem describes. -/
theorem GetPerceivableColor_accepted_witness :
    (ColorFix.ofColor (RGB 128 128 128)).GetDeltaE (ColorFix.ofColor (RGB 130 130 130)) < 12.0
      ∧ (GetPerceivableColorRun (RGB 128 128 128) (RGB 130 130 130)).returned ≠ none
      ∧ ∃ k : ℤ, k ≠ 0 ∧
        ColorFix.GetPerceivableColor (RGB 128 128 128) (RGB 130 130 130)
          = ({ rgb := RGB 128 128 128
               L := (ColorFix.ofColor (RGB 128 128 128)).L + 5 * (k : ℝ)
               A := (ColorFix.ofColor (RGB 128 128 128)).A
               B := (ColorFix.ofColor (RGB 128 128 128)).B } : ColorFix)._ToRGB.rgb ∧
        0 ≤ (ColorFix.ofColor (RGB 128 128 128)).L + 5 * (k : ℝ) ∧
        (ColorFix.ofColor (RGB 128 128 128)).L + 5 * (k : ℝ) ≤ 100 ∧
        ({ rgb := RGB 128 128 128
           L := (ColorFix.ofColor (RGB 128 128 128)).L + 5 * (k : ℝ)
           A := (ColorFix.ofColor (RGB 128 128 128)).A
           B := (ColorFix.ofColor (RGB 128 128 128)).B } : ColorFix).GetDeltaE
          (ColorFix.ofColor (RGB 130 130 130)) ≥ 20.0 :=
  have h1 : (ColorFix.ofColor (RGB 128 128 128)).GetDeltaE (ColorFix.ofColor (RGB 130 130 130))
      < 12.0 := by have := gray_pair_close; norm_num; linarith
  have h2 : (GetPerceivableColorRun (RGB 128 128 128) (RGB 130 130 130)).returned ≠ none :=
    returned_of_up_candidate _ _ (by unfold gMinThreshold; exact h1) 8 gray_pair_candidate.1
      gray_pair_candidate.2
  ⟨h1, h2, GetPerceivableColor_accepted (RGB 128 128 128) (RGB 130 130 130) h1 h2⟩

/-! ## `_Clamp` -/

theorem Clamp_of_nonpos (v : ℝ) (h : v ≤ 0) : ColorFix._Clamp v = 0 := by
  unfold ColorFix._Clamp; rw [if_pos h]

theorem Clamp_of_ge (v : ℝ) (h : 255 ≤ v) : ColorFix._Clamp v = 255 := by
  unfold ColorFix._Clamp; rw [if_neg (by linarith), if_pos h]

theorem Clamp_val_of_mem (v : ℝ) (h0 : 0 < v) (h1 : v < 255) :
    ((ColorFix._Clamp v : BYTE) : ℕ) = ⌊v⌋₊ := by
  unfold ColorFix._Clamp
  rw [if_neg (not_le.mpr h0), if_neg (not_le.mpr h1)]
  have : ⌊v⌋₊ < 255 := (Nat.floor_lt h0.le).mpr (by exact_mod_cast h1)
  show ⌊v⌋₊ % 256 = ⌊v⌋₊
  exact Nat.mod_eq_of_lt (by omega)

/-- The value of `_Clamp` as an integer, by the three cases of the source. -/
theorem Clamp_val (v : ℝ) :
    (((ColorFix._Clamp v : BYTE) : ℕ) : ℤ) = if v ≤ 0 then 0 else if v ≥ 255 then 255 else ⌊v⌋ := by
  by_cases h0 : v ≤ 0
  · rw [if_pos h0, Clamp_of_nonpos v h0]; rfl
  · rw [if_neg h0]
    by_cases h1 : v ≥ 255
    · rw [if_pos h1, Clamp_of_ge v h1]; rfl
    · rw [if_neg h1, Clamp_val_of_mem v (not_le.mp h0) (not_le.mp h1)]
      exact Int.natCast_floor_eq_floor (not_le.mp h0).le

theorem Clamp_mono (v w : ℝ) (h : v ≤ w) : ColorFix._Clamp v ≤ ColorFix._Clamp w := by
  rw [Fin.le_def, ← Int.ofNat_le, Clamp_val, Clamp_val]
  by_cases v0 : v ≤ 0
  · rw [if_pos v0]
    split_ifs
    · exact le_rfl
    · norm_num
    · exact Int.floor_nonneg.mpr (by linarith)
  · have w0 : ¬w ≤ 0 := fun hw => v0 (le_trans h hw)
    rw [if_neg v0, if_neg w0]
    by_cases w1 : w ≥ 255
    · rw [if_pos w1]
      split_ifs with v1
      · exact le_rfl
      · have : ⌊v⌋ < 255 := Int.floor_lt.mpr (by push_cast; linarith [not_le.mp v1])
        omega
    · have v1 : ¬v ≥ 255 := fun hv => w1 (le_trans hv h)
      rw [if_neg v1, if_neg w1]
      exact Int.floor_mono h

theorem toRGB_rgb (c : ColorFix) :
    c._ToRGB.rgb = ⟨ColorFix._Clamp (toRGB_R c), ColorFix._Clamp (toRGB_G c),
      ColorFix._Clamp (toRGB_B c)⟩ := rfl

/-- C10. `_Clamp` saturates and truncates: it is 0 up to 0, 255 from 255 on and the integer
part in between; so its value is an integer of `[0, 255]`, it is monotone, and every channel
that `_ToRGB` writes is a value of `_Clamp`, in `[0, 255]` for any Lab input. -/
theorem Clamp_saturates_truncates :
    (∀ v : ℝ, (((ColorFix._Clamp v : BYTE) : ℕ) : ℤ)
        = if v ≤ 0 then 0 else if v ≥ 255 then 255 else ⌊v⌋)
      ∧ (∀ v : ℝ, ((ColorFix._Clamp v : BYTE) : ℕ) ≤ 255)
      ∧ Monotone ColorFix._Clamp
      ∧ (∀ c : ColorFix,
          c._ToRGB.rgb.r = ColorFix._Clamp (toRGB_R c) ∧ ((c._ToRGB.rgb.r : BYTE) : ℕ) ≤ 255
          ∧ c._ToRGB.rgb.g = ColorFix._Clamp (toRGB_G c) ∧ ((c._ToRGB.rgb.g : BYTE) : ℕ) ≤ 255
          ∧ c._ToRGB.rgb.b = ColorFix._Clamp (toRGB_B c) ∧ ((c._ToRGB.rgb.b : BYTE) : ℕ) ≤ 255) := by
  refine ⟨Clamp_val, fun v => by omega, fun v w h => Clamp_mono v w h, fun c => ?_⟩
  refine ⟨rfl, by omega, rfl, by omega, rfl, by omega⟩

/-- A real number between a channel value and its successor is clamped to that value. -/
theorem Clamp_eq_of_mem (n : BYTE) (x : ℝ) (h1 : ((n : ℕ) : ℝ) ≤ x) (h2 : x < ((n : ℕ) : ℝ) + 1) :
    ColorFix._Clamp x = n := by
  have hn : (n : ℕ) ≤ 255 := by omega
  by_cases x0 : x ≤ 0
  · rw [Clamp_of_nonpos x x0]
    have : ((n : ℕ) : ℝ) ≤ 0 := le_trans h1 x0
    have : (n : ℕ) = 0 := by
      have : (n : ℕ) ≤ 0 := by exact_mod_cast this
      omega
    exact Fin.ext this.symm
  · by_cases x1 : x ≥ 255
    · rw [Clamp_of_ge x x1]
      have : (254 : ℝ) < ((n : ℕ) : ℝ) := by linarith
      have : 254 < (n : ℕ) := by exact_mod_cast this
      exact Fin.ext (by show 255 = (n : ℕ); omega)
    · apply Fin.ext
      rw [Clamp_val_of_mem x (not_le.mp x0) (not_le.mp x1)]
      exact (Nat.floor_eq_iff (not_le.mp x0).le).mpr ⟨h1, h2⟩

/-! ## The pass from RGB to Lab and back -/

/-- The conditional of `_ToRGB` undoes the conditional of `_ToLab` exactly. -/
theorem labFinv_labF (t : ℝ) (h : 0 ≤ t) : labFinv (labF t) = t := by
  unfold labF
  by_cases hb : t > 0.008856
  · rw [if_pos hb]
    have e : (t ^ ((1 : ℝ) / 3)) ^ 3 = t := by
      rw [← Real.rpow_natCast, ← Real.rpow_mul h]
      norm_num
    unfold labFinv
    rw [e, if_pos hb]
  · rw [if_neg hb]
    have hle : t ≤ 0.008856 := not_lt.mp hb
    have w0 : 0 ≤ 7.787 * t + 16 / 116 := by positivity
    have w1 : 7.787 * t + 16 / 116 ≤ 0.206893 := by
      norm_num at hle ⊢
      linarith
    have c : (7.787 * t + 16 / 116) ^ 3 ≤ (0.206893 : ℝ) ^ 3 := pow_le_pow_left₀ w0 w1 3
    have c' : ¬(7.787 * t + 16 / 116) ^ 3 > 0.008856 := by
      have : (0.206893 : ℝ) ^ 3 ≤ 0.008856 := by norm_num
      exact not_lt.mpr (le_trans c this)
    unfold labFinv
    rw [if_neg c']
    field_simp

theorem xyz_nonneg (c : COLORREF) : 0 ≤ xyzX c ∧ 0 ≤ xyzY c ∧ 0 ≤ xyzZ c := by
  obtain ⟨r0, -⟩ := linR_mem c
  obtain ⟨g0, -⟩ := linG_mem c
  obtain ⟨b0, -⟩ := linB_mem c
  unfold xyzX xyzY xyzZ
  refine ⟨?_, ?_, ?_⟩ <;> positivity

/-- After `_ToLab`, `_ToRGB` recovers the values `X`, `Y`, `Z` of `_ToLab`. -/
theorem toRGB_XYZ_ofColor (c : COLORREF) :
    toRGB_X (ColorFix.ofColor c) = linR c * 0.4124 + linG c * 0.3576 + linB c * 0.1805
      ∧ toRGB_Y (ColorFix.ofColor c) = linR c * 0.2126 + linG c * 0.7152 + linB c * 0.0722
      ∧ toRGB_Z (ColorFix.ofColor c) = linR c * 0.0193 + linG c * 0.1192 + linB c * 0.9505 := by
  obtain ⟨x0, y0, z0⟩ := xyz_nonneg c
  have ey : ((ColorFix.ofColor c).L + 16) / 116 = labF (xyzY c) := by rw [ofColor_L]; ring
  have ex : (ColorFix.ofColor c).A / 500 + ((ColorFix.ofColor c).L + 16) / 116 = labF (xyzX c) := by
    rw [ey, ofColor_A]; ring
  have ez : ((ColorFix.ofColor c).L + 16) / 116 - (ColorFix.ofColor c).B / 200 = labF (xyzZ c) := by
    rw [ey, ofColor_B]; ring
  unfold toRGB_X toRGB_Y toRGB_Z
  rw [ez, ex, ey, labFinv_labF _ x0, labFinv_labF _ y0, labFinv_labF _ z0]
  unfold xyzX xyzY xyzZ
  refine ⟨?_, ?_, ?_⟩ <;> norm_num <;> ring

theorem rpow_rpow_inv_24 (u : ℝ) (hu : 0 ≤ u) : (u ^ (2.4 : ℝ)) ^ ((1 : ℝ) / 2.4) = u := by
  rw [← Real.rpow_mul hu]
  norm_num

/-- Encoding a decoded channel value that was scaled by a factor `k` just above 1 gives a
value between the channel value and its successor. -/
theorem gamma_linearize_mem (v : BYTE) (k : ℝ) (hk1 : 1 ≤ k) (hk2 : k ≤ 1.0001) :
    ((v : ℕ) : ℝ) ≤ gammaEnc (linearize (((v : ℕ) : ℝ) / 255.0) * k) * 255
      ∧ gammaEnc (linearize (((v : ℕ) : ℝ) / 255.0) * k) * 255 < ((v : ℕ) : ℝ) + 1 := by
  have hv0 : (0 : ℝ) ≤ ((v : ℕ) : ℝ) := Nat.cast_nonneg _
  have hv255 : ((v : ℕ) : ℝ) ≤ 255 := by
    have : (v : ℕ) ≤ 255 := by omega
    exact_mod_cast this
  rcases le_or_lt (v : ℕ) 10 with hv | hv
  · have hv' : ((v : ℕ) : ℝ) ≤ 10 := by exact_mod_cast hv
    have hs : ¬((v : ℕ) : ℝ) / 255.0 > 0.04045 := by
      rw [not_lt, div_le_iff₀ (by norm_num)]; norm_num; linarith
    have hl : linearize (((v : ℕ) : ℝ) / 255.0) = ((v : ℕ) : ℝ) / 255.0 / 12.92 := by
      unfold linearize; rw [if_neg hs]
    have harg : ¬((v : ℕ) : ℝ) / 255.0 / 12.92 * k > 0.0031308 := by
      rw [not_lt]
      have : ((v : ℕ) : ℝ) / 255.0 / 12.92 ≤ 0.00304 := by
        rw [div_le_iff₀ (by norm_num), div_le_iff₀ (by norm_num)]; norm_num; linarith
      have h0 : 0 ≤ ((v : ℕ) : ℝ) / 255.0 / 12.92 := by positivity
      nlinarith
    rw [hl]
    unfold gammaEnc
    rw [if_neg harg]
    have e : 12.92 * (((v : ℕ) : ℝ) / 255.0 / 12.92 * k) * 255 = ((v : ℕ) : ℝ) * k := by
      norm_num; ring
    rw [e]
    have m1 : ((v : ℕ) : ℝ) * 1 ≤ ((v : ℕ) : ℝ) * k := mul_le_mul_of_nonneg_left hk1 hv0
    have m2 : ((v : ℕ) : ℝ) * k ≤ ((v : ℕ) : ℝ) * 1.0001 := mul_le_mul_of_nonneg_left hk2 hv0
    constructor <;> linarith
  · have hv' : (11 : ℝ) ≤ ((v : ℕ) : ℝ) := by exact_mod_cast hv
    have hs : ((v : ℕ) : ℝ) / 255.0 > 0.04045 := by
      rw [gt_iff_lt, lt_div_iff₀ (by norm_num)]; norm_num; linarith
    have hu : (0.093 : ℝ) ≤ (((v : ℕ) : ℝ) / 255.0 + 0.055) / 1.055 := by
      rw [le_div_iff₀ (by norm_num)]
      have : (11 : ℝ) / 255 ≤ ((v : ℕ) : ℝ) / 255.0 := by
        rw [div_le_div_iff₀ (by norm_num) (by norm_num)]; norm_num; linarith
      norm_num at this ⊢
      linarith
    have hu0 : 0 ≤ (((v : ℕ) : ℝ) / 255.0 + 0.055) / 1.055 := by linarith
    have hl : linearize (((v : ℕ) : ℝ) / 255.0)
        = ((((v : ℕ) : ℝ) / 255.0 + 0.055) / 1.055) ^ (2.4 : ℝ) := by
      unfold linearize; rw [if_pos hs]
    have hlow : 0.00314 ≤ ((((v : ℕ) : ℝ) / 255.0 + 0.055) / 1.055) ^ (2.4 : ℝ) := by
      have h := le_rpow_of_pow_le 0.00314 _ (by norm_num) hu0 12 5 (by norm_num)
        (by
          have : (0.093 : ℝ) ^ 12 ≤ ((((v : ℕ) : ℝ) / 255.0 + 0.055) / 1.055) ^ 12 :=
            pow_le_pow_left₀ (by norm_num) hu 12
          have e : (0.00314 : ℝ) ^ 5 ≤ (0.093 : ℝ) ^ 12 := by norm_num
          linarith)
      have e : ((12 : ℕ) : ℝ) / ((5 : ℕ) : ℝ) = 2.4 := by norm_num
      rw [e] at h
      exact h
    have harg : ((((v : ℕ) : ℝ) / 255.0 + 0.055) / 1.055) ^ (2.4 : ℝ) * k > 0.0031308 := by
      nlinarith
    rw [hl]
    unfold gammaEnc
    rw [if_pos harg, Real.mul_rpow (by linarith) (by linarith), rpow_rpow_inv_24 _ hu0]
    have k1 : 1 ≤ k ^ ((1 : ℝ) / 2.4) := Real.one_le_rpow hk1 (by norm_num)
    have k2 : k ^ ((1 : ℝ) / 2.4) ≤ k := by
      have := Real.rpow_le_rpow_of_exponent_le hk1 (by norm_num : (1 : ℝ) / 2.4 ≤ 1)
      rwa [Real.rpow_one] at this
    have e : (1.055 * ((((v : ℕ) : ℝ) / 255.0 + 0.055) / 1.055 * k ^ ((1 : ℝ) / 2.4)) - 0.055) * 255
        = (((v : ℕ) : ℝ) + 14.025) * k ^ ((1 : ℝ) / 2.4) - 14.025 := by
      norm_num; ring
    rw [e]
    have m1 : (((v : ℕ) : ℝ) + 14.025) * 1 ≤ (((v : ℕ) : ℝ) + 14.025) * k ^ ((1 : ℝ) / 2.4) :=
      mul_le_mul_of_nonneg_left k1 (by linarith)
    have m2 : (((v : ℕ) : ℝ) + 14.025) * k ^ ((1 : ℝ) / 2.4)
        ≤ (((v : ℕ) : ℝ) + 14.025) * 1.0001 :=
      mul_le_mul_of_nonneg_left (by linarith) (by linarith)
    constructor <;> linarith

theorem gray_lin (v : BYTE) :
    linR (RGB v v v) = linearize (((v : ℕ) : ℝ) / 255.0) * 100
      ∧ linG (RGB v v v) = linearize (((v : ℕ) : ℝ) / 255.0) * 100
      ∧ linB (RGB v v v) = linearize (((v : ℕ) : ℝ) / 255.0) * 100 := ⟨rfl, rfl, rfl⟩

/-- One pass from RGB to Lab and back leaves every gray colour as it is. -/
theorem roundTrip_gray_eq (v : BYTE) : roundTrip (RGB v v v) = RGB v v v := by
  obtain ⟨hx, hy, hz⟩ := toRGB_XYZ_ofColor (RGB v v v)
  obtain ⟨lr, lg, lb⟩ := gray_lin v
  unfold roundTrip
  rw [toRGB_rgb]
  unfold toRGB_R toRGB_G toRGB_B
  rw [hx, hy, hz, lr, lg, lb]
  have eR : (linearize (((v : ℕ) : ℝ) / 255.0) * 100 * 0.4124
        + linearize (((v : ℕ) : ℝ) / 255.0) * 100 * 0.3576
        + linearize (((v : ℕ) : ℝ) / 255.0) * 100 * 0.1805) / 100 * 3.2406
      + (linearize (((v : ℕ) : ℝ) / 255.0) * 100 * 0.2126
        + linearize (((v : ℕ) : ℝ) / 255.0) * 100 * 0.7152
        + linearize (((v : ℕ) : ℝ) / 255.0) * 100 * 0.0722) / 100 * -1.5372
      + (linearize (((v : ℕ) : ℝ) / 255.0) * 100 * 0.0193
        + linearize (((v : ℕ) : ℝ) / 255.0) * 100 * 0.1192
        + linearize (((v : ℕ) : ℝ) / 255.0) * 100 * 0.9505) / 100 * -0.4986
      = linearize (((v : ℕ) : ℝ) / 255.0) * 1.0000149 := by
    norm_num; ring
  have eG : (linearize (((v : ℕ) : ℝ) / 255.0) * 100 * 0.4124
        + linearize (((v : ℕ) : ℝ) / 255.0) * 100 * 0.3576
        + linearize (((v : ℕ) : ℝ) / 255.0) * 100 * 0.1805) / 100 * -0.9689
      + (linearize (((v : ℕ) : ℝ) / 255.0) * 100 * 0.2126
        + linearize (((v : ℕ) : ℝ) / 255.0) * 100 * 0.7152
        + linearize (((v : ℕ) : ℝ) / 255.0) * 100 * 0.0722) / 100 * 1.8758
      + (linearize (((v : ℕ) : ℝ) / 255.0) * 100 * 0.0193
        + linearize (((v : ℕ) : ℝ) / 255.0) * 100 * 0.1192
        + linearize (((v : ℕ) : ℝ) / 255.0) * 100 * 0.9505) / 100 * 0.0415
      = linearize (((v : ℕ) : ℝ) / 255.0) * 1.00005405 := by
    norm_num; ring
  have eB : (linearize (((v : ℕ) : ℝ) / 255.0) * 100 * 0.4124
        + linearize (((v : ℕ) : ℝ) / 255.0) * 100 * 0.3576
        + linearize (((v : ℕ) : ℝ) / 255.0) * 100 * 0.1805) / 100 * 0.0557
      + (linearize (((v : ℕ) : ℝ) / 255.0) * 100 * 0.2126
        + linearize (((v : ℕ) : ℝ) / 255.0) * 100 * 0.7152
        + linearize (((v : ℕ) : ℝ) / 255.0) * 100 * 0.0722) / 100 * -0.2040
      + (linearize (((v : ℕ) : ℝ) / 255.0) * 100 * 0.0193
        + linearize (((v : ℕ) : ℝ) / 255.0) * 100 * 0.1192
        + linearize (((v : ℕ) : ℝ) / 255.0) * 100 * 0.9505) / 100 * 1.0570
      = linearize (((v : ℕ) : ℝ) / 255.0) * 1.00001585 := by
    norm_num; ring
  rw [eR, eG, eB]
  obtain ⟨r1, r2⟩ := gamma_linearize_mem v 1.0000149 (by norm_num) (by norm_num)
  obtain ⟨g1, g2⟩ := gamma_linearize_mem v 1.00005405 (by norm_num) (by norm_num)
  obtain ⟨b1, b2⟩ := gamma_linearize_mem v 1.00001585 (by norm_num) (by norm_num)
  rw [Clamp_eq_of_mem v _ r1 r2, Clamp_eq_of_mem v _ g1 g2, Clamp_eq_of_mem v _ b1 b2]
  rfl

theorem Clamp_val_lt (x : ℝ) (n : ℕ) (hn : 0 < n) (h : x < (n : ℝ)) :
    ((ColorFix._Clamp x : BYTE) : ℕ) < n := by
  by_cases x0 : x ≤ 0
  · rw [Clamp_of_nonpos x x0]; exact hn
  · by_cases x1 : x ≥ 255
    · rw [Clamp_of_ge x x1]
      have : (255 : ℝ) < (n : ℝ) := by linarith
      have : 255 < n := by exact_mod_cast this
      exact this
    · rw [Clamp_val_of_mem x (not_le.mp x0) (not_le.mp x1)]
      exact (Nat.floor_lt (not_le.mp x0).le).mpr h

theorem lin_red (r : BYTE) :
    linR (RGB r 0 0) = linearize (((r : ℕ) : ℝ) / 255.0) * 100 ∧ linG (RGB r 0 0) = 0
      ∧ linB (RGB r 0 0) = 0 := by
  have hv : ((0 : BYTE) : ℕ) = 0 := rfl
  have e : (((0 : BYTE) : ℕ) : ℝ) / 255.0 = 0 := by rw [hv]; norm_num
  refine ⟨rfl, ?_, ?_⟩
  · unfold linG RGB; simp only [e, linearize_zero]; norm_num
  · unfold linB RGB; simp only [e, linearize_zero]; norm_num

/-- The arguments of `_Clamp` in the pass of a pure red `RGB(r, 0, 0)`. -/
theorem toRGB_red (r : BYTE) :
    toRGB_R (ColorFix.ofColor (RGB r 0 0))
        = gammaEnc (linearize (((r : ℕ) : ℝ) / 255.0) * 0.99999174) * 255
      ∧ toRGB_G (ColorFix.ofColor (RGB r 0 0))
        = gammaEnc (linearize (((r : ℕ) : ℝ) / 255.0) * 0.00002167) * 255
      ∧ toRGB_B (ColorFix.ofColor (RGB r 0 0))
        = gammaEnc (linearize (((r : ℕ) : ℝ) / 255.0) * 0.00000038) * 255 := by
  obtain ⟨hx, hy, hz⟩ := toRGB_XYZ_ofColor (RGB r 0 0)
  obtain ⟨lr, lg, lb⟩ := lin_red r
  unfold toRGB_R toRGB_G toRGB_B
  rw [hx, hy, hz, lr, lg, lb]
  refine ⟨?_, ?_, ?_⟩ <;> congr 2 <;> norm_num <;> ring

theorem roundTrip_red : roundTrip (RGB 255 0 0) = RGB 254 0 0 := by
  obtain ⟨hr, hg, hb⟩ := toRGB_red 255
  have hv : ((255 : BYTE) : ℕ) = 255 := rfl
  have e : (((255 : BYTE) : ℕ) : ℝ) / 255.0 = 1 := by rw [hv]; norm_num
  rw [e, linearize_one, one_mul] at hr hg hb
  unfold roundTrip
  rw [toRGB_rgb, hr, hg, hb]
  have cR : ColorFix._Clamp (gammaEnc 0.99999174 * 255) = 254 := by
    apply Clamp_eq_of_mem
    · unfold gammaEnc
      rw [if_pos (by norm_num)]
      have h1 : (0.99999174 : ℝ) ≤ (0.99999174 : ℝ) ^ ((1 : ℝ) / 2.4) := by
        have := Real.rpow_le_rpow_of_exponent_ge (by norm_num : (0 : ℝ) < 0.99999174)
          (by norm_num) (by norm_num : (1 : ℝ) / 2.4 ≤ 1)
        rwa [Real.rpow_one] at this
      have hv' : ((254 : BYTE) : ℕ) = 254 := rfl
      rw [hv']
      push_cast
      linarith
    · unfold gammaEnc
      rw [if_pos (by norm_num)]
      have h2 : (0.99999174 : ℝ) ^ ((1 : ℝ) / 2.4) < 1 :=
        Real.rpow_lt_one (by norm_num) (by norm_num) (by norm_num)
      have hv' : ((254 : BYTE) : ℕ) = 254 := rfl
      rw [hv']
      push_cast
      linarith
  have cG : ColorFix._Clamp (gammaEnc 0.00002167 * 255) = 0 := by
    apply Clamp_eq_of_mem
    · unfold gammaEnc
      rw [if_neg (by norm_num)]
      have hv' : ((0 : BYTE) : ℕ) = 0 := rfl
      rw [hv']
      norm_num
    · unfold gammaEnc
      rw [if_neg (by norm_num)]
      have hv' : ((0 : BYTE) : ℕ) = 0 := rfl
      rw [hv']
      norm_num
  have cB : ColorFix._Clamp (gammaEnc 0.00000038 * 255) = 0 := by
    apply Clamp_eq_of_mem
    · unfold gammaEnc
      rw [if_neg (by norm_num)]
      have hv' : ((0 : BYTE) : ℕ) = 0 := rfl
      rw [hv']
      norm_num
    · unfold gammaEnc
      rw [if_neg (by norm_num)]
      have hv' : ((0 : BYTE) : ℕ) = 0 := rfl
      rw [hv']
      norm_num
  rw [cR, cG, cB]
  rfl

theorem roundTrip_red254_r : (((roundTrip (RGB 254 0 0)).r : BYTE) : ℕ) < 254 := by
  obtain ⟨hr, -, -⟩ := toRGB_red 254
  have hv : ((254 : BYTE) : ℕ) = 254 := rfl
  have e : (((254 : BYTE) : ℕ) : ℝ) / 255.0 = 254 / 255 := by rw [hv]; norm_num
  rw [e] at hr
  unfold roundTrip
  rw [toRGB_rgb]
  show ((ColorFix._Clamp (toRGB_R (ColorFix.ofColor (RGB 254 0 0))) : BYTE) : ℕ) < 254
  rw [hr]
  apply Clamp_val_lt _ 254 (by norm_num)
  have hu0 : (0 : ℝ) ≤ ((254 : ℝ) / 255 + 0.055) / 1.055 := by norm_num
  have hl : linearize (254 / 255) = (((254 : ℝ) / 255 + 0.055) / 1.055) ^ (2.4 : ℝ) := by
    unfold linearize; rw [if_pos (by norm_num)]
  have hlow : 0.9 ≤ (((254 : ℝ) / 255 + 0.055) / 1.055) ^ (2.4 : ℝ) := by
    have h := le_rpow_of_pow_le 0.9 (((254 : ℝ) / 255 + 0.055) / 1.055) (by norm_num) hu0 12 5
      (by norm_num) (by norm_num)
    have e : ((12 : ℕ) : ℝ) / ((5 : ℕ) : ℝ) = 2.4 := by norm_num
    rw [e] at h
    exact h
  rw [hl]
  unfold gammaEnc
  rw [if_pos (by nlinarith), Real.mul_rpow (by linarith) (by norm_num), rpow_rpow_inv_24 _ hu0]
  have k2 : (0.99999174 : ℝ) ^ ((1 : ℝ) / 2.4) < 1 :=
    Real.rpow_lt_one (by norm_num) (by norm_num) (by norm_num)
  have m : ((254 : ℝ) / 255 + 0.055) / 1.055 * (0.99999174 : ℝ) ^ ((1 : ℝ) / 2.4)
      < ((254 : ℝ) / 255 + 0.055) / 1.055 * 1 :=
    mul_lt_mul_of_pos_left k2 (by norm_num)
  push_cast
  norm_num at m ⊢
  linarith

/-- C6, refuted at `RGB(255, 0, 0)`: one pass gives `RGB(254, 0, 0)`, and a second pass
changes it again, so the result of one pass is not a fixed point. -/
theorem roundTrip_not_fixed :
    roundTrip (RGB 255 0 0) = RGB 254 0 0
      ∧ roundTrip (roundTrip (RGB 255 0 0)) ≠ roundTrip (RGB 255 0 0) := by
  refine ⟨roundTrip_red, ?_⟩
  rw [roundTrip_red]
  intro h
  have h1 := roundTrip_red254_r
  rw [h] at h1
  exact absurd h1 (by decide)

/-! ## The divisors of `GetDeltaE` -/

/-- C17. `GetDeltaE` never divides by zero: the weights `S_L`, `S_C`, `S_H` are at least 1
(the hue term `T` is strictly positive), and `cBar^7 + 25^7`, `cBarPrime^7 + 25^7` and
`20 + (lBar - 50)^2` are strictly positive, so every divisor of the source is non-zero. -/
theorem GetDeltaE_divisors_pos (a b : ColorFix) :
    1 ≤ sSubL a b ∧ 1 ≤ sSubC a b ∧ 1 ≤ sSubH a b ∧ 0 < t a b
      ∧ 0 < cBar a b ^ 7 + (25.0 : ℝ) ^ 7
      ∧ 0 < cBarPrime a b ^ 7 + (25.0 : ℝ) ^ 7
      ∧ 0 < 20 + (lBar a b - 50) ^ 2
      ∧ √(20 + (lBar a b - 50) ^ 2) ≠ 0
      ∧ kSubL * sSubL a b ≠ 0 ∧ kSubC * sSubC a b ≠ 0 ∧ kSubH * sSubH a b ≠ 0 := by
  have hL := sSubL_ge_one a b
  have hC := sSubC_ge_one a b
  have hH := sSubH_ge_one a b
  have ht := t_ge a b
  have h1 : 0 ≤ cBar a b ^ 7 := pow_nonneg (cBar_nonneg a b) 7
  have h2 : 0 ≤ cBarPrime a b ^ 7 := pow_nonneg (cBarPrime_nonneg a b) 7
  have h25 : (0 : ℝ) < (25.0 : ℝ) ^ 7 := by norm_num
  have h3 : 0 < 20 + (lBar a b - 50) ^ 2 := by positivity
  refine ⟨hL, hC, hH, by linarith, by linarith, by linarith, h3, ?_, ?_, ?_, ?_⟩
  · exact (Real.sqrt_pos.mpr h3).ne'
  · unfold kSubL; rw [one_mul]; linarith
  · unfold kSubC; rw [one_mul]; linarith
  · unfold kSubH; rw [one_mul]; linarith

/-! ## Achromatic colours -/

theorem aPrime1_of_A_zero (a b : ColorFix) (h : a.A = 0) : aPrime1 a b = 0 := by
  unfold aPrime1; rw [h]; simp

theorem aPrime2_of_A_zero (a b : ColorFix) (h : b.A = 0) : aPrime2 a b = 0 := by
  unfold aPrime2; rw [h]; simp

theorem GetDeltaE_achromatic (a b : ColorFix) (ha : a.A = 0) (hb : a.B = 0) (hc : b.A = 0)
    (hd : b.B = 0) : a.GetDeltaE b = |b.L - a.L| / sSubL a b := by
  have hs : 0 < sSubL a b := lt_of_lt_of_le one_pos (sSubL_ge_one a b)
  have c1z : cPrime1 a b = 0 := by
    unfold cPrime1; rw [aPrime1_of_A_zero a b ha, hb]; simp
  have c2z : cPrime2 a b = 0 := by
    unfold cPrime2; rw [aPrime2_of_A_zero a b hc, hd]; simp
  have hch : chroma a b = 0 := by
    unfold chroma deltaCPrime; rw [c1z, c2z]; simp
  have hh : hue a b = 0 := by
    unfold hue deltaHPrime
    have : 0 = c1 a := by unfold c1; rw [ha, hb]; simp
    rw [if_pos (Or.inl this)]; simp
  have e : |b.L - a.L| / sSubL a b = |lightness a b| := by
    unfold lightness deltaLPrime kSubL
    rw [one_mul, abs_div, abs_of_pos hs]
  unfold ColorFix.GetDeltaE
  rw [hch, hh, e, ← Real.sqrt_sq_eq_abs]
  congr 1
  ring

/-- C18. The lightness term bounds the distance from below: `GetDeltaE(a, b)` is at least
`|b.L - a.L| / S_L` with `S_L = 1 + 0.015 (lBar - 50)^2 / sqrt(20 + (lBar - 50)^2)` and
`lBar = (a.L + b.L) / 2`; the two are equal when both colours have `A = B = 0`. -/
theorem GetDeltaE_lightness_bound (a b : ColorFix) :
    |b.L - a.L| / (1 + 0.015 * ((a.L + b.L) / 2 - 50) ^ 2 / √(20 + ((a.L + b.L) / 2 - 50) ^ 2))
        ≤ a.GetDeltaE b
      ∧ (a.A = 0 → a.B = 0 → b.A = 0 → b.B = 0 →
          a.GetDeltaE b = |b.L - a.L|
            / (1 + 0.015 * ((a.L + b.L) / 2 - 50) ^ 2 / √(20 + ((a.L + b.L) / 2 - 50) ^ 2))) :=
  ⟨GetDeltaE_ge_lightness a b, GetDeltaE_achromatic a b⟩

/-- C18 at two achromatic colours of lightness 10 and 30: the distance is the lightness
term. -/
theorem GetDeltaE_lightness_bound_witness :
    (ColorFix.mk (RGB 0 0 0) 10 0 0).GetDeltaE (ColorFix.mk (RGB 0 0 0) 30 0 0)
      = |(30 : ℝ) - 10|
        / (1 + 0.015 * (((10 : ℝ) + 30) / 2 - 50) ^ 2 / √(20 + (((10 : ℝ) + 30) / 2 - 50) ^ 2)) :=
  (GetDeltaE_lightness_bound (ColorFix.mk (RGB 0 0 0) 10 0 0) (ColorFix.mk (RGB 0 0 0) 30 0 0)).2
    rfl rfl rfl rfl

/-! ## The hue angle -/

theorem rad360_lt_two_pi : rad360 < 2 * π := by
  have := Real.pi_gt_d20
  unfold rad360
  norm_num at this ⊢
  linarith

theorem two_pi_sub_rad360_lt : 2 * π - rad360 < 1e-18 := by
  have := Real.pi_lt_d20
  unfold rad360
  norm_num at this ⊢
  linarith

theorem atan2_le_pi (y x : ℝ) : atan2 y x ≤ π := Complex.arg_le_pi _

theorem neg_pi_lt_atan2 (y x : ℝ) : -π < atan2 y x := Complex.neg_pi_lt_arg _

theorem GetHPrimeFn_zero : GetHPrimeFn 0 0 = 0 := by
  unfold GetHPrimeFn; simp

theorem GetHPrimeFn_nonneg (x y : ℝ) : 0 ≤ GetHPrimeFn x y := by
  unfold GetHPrimeFn
  by_cases h : x = 0 ∧ y = 0
  · rw [if_pos h]
  · rw [if_neg h]
    by_cases h2 : atan2 x y ≥ 0
    · simp only [if_pos h2]; exact h2
    · simp only [if_neg h2]
      have := neg_pi_lt_atan2 x y
      have := Real.pi_lt_d20
      unfold rad360
      norm_num at *
      linarith

theorem GetHPrimeFn_lt_rad360_or (x y : ℝ) : GetHPrimeFn x y < 2 * π := by
  unfold GetHPrimeFn
  have hp := Real.pi_pos
  by_cases h : x = 0 ∧ y = 0
  · rw [if_pos h]; linarith
  · rw [if_neg h]
    by_cases h2 : atan2 x y ≥ 0
    · simp only [if_pos h2]
      have := atan2_le_pi x y
      linarith
    · simp only [if_neg h2]
      have := rad360_lt_two_pi
      linarith [not_le.mp h2]

theorem aPrime_factor_pos (q : ℝ) (h1 : q ≤ 1) : 0 < 1 + (1 - q) / 2 := by linarith

theorem aPrime1_eq_zero_iff (a b : ColorFix) : aPrime1 a b = 0 ↔ a.A = 0 := by
  obtain ⟨-, h1⟩ := sqrt_ratio_mem (cBar a b) (cBar_nonneg a b)
  have e : aPrime1 a b
      = a.A * (1 + (1 - √(cBar a b ^ 7 / (cBar a b ^ 7 + (25.0 : ℝ) ^ 7))) / 2) := by
    unfold aPrime1; ring
  rw [e, mul_eq_zero]
  constructor
  · rintro (h | h)
    · exact h
    · exact absurd h (aPrime_factor_pos _ h1).ne'
  · intro h; exact Or.inl h

theorem aPrime2_eq_zero_iff (a b : ColorFix) : aPrime2 a b = 0 ↔ b.A = 0 := by
  obtain ⟨-, h1⟩ := sqrt_ratio_mem (cBar a b) (cBar_nonneg a b)
  have e : aPrime2 a b
      = b.A * (1 + (1 - √(cBar a b ^ 7 / (cBar a b ^ 7 + (25.0 : ℝ) ^ 7))) / 2) := by
    unfold aPrime2; ring
  rw [e, mul_eq_zero]
  constructor
  · rintro (h | h)
    · exact h
    · exact absurd h (aPrime_factor_pos _ h1).ne'
  · intro h; exact Or.inl h

/-- C16. `GetHPrimeFn` normalises the hue angle into `[0, 2π)`: it is 0 at `(0, 0)`, and else
`atan2 x y`, shifted by `rad360` (one full turn, to within `1e-18`) when that is negative.
Inside `GetDeltaE` the hue of a colour with `A = 0` and `B = 0` is therefore 0, the adjusted
`a'` being zero exactly when `A` is. -/
theorem GetHPrimeFn_normalises (x y : ℝ) (a b : ColorFix) (rgb : COLORREF) (l : ℝ) :
    0 ≤ GetHPrimeFn x y ∧ GetHPrimeFn x y < 2 * π
      ∧ GetHPrimeFn 0 0 = 0
      ∧ GetHPrimeFn x y
          = (if x = 0 ∧ y = 0 then 0
             else if atan2 x y ≥ 0 then atan2 x y else atan2 x y + rad360)
      ∧ |rad360 - 2 * π| < 1e-18
      ∧ hPrime1 (ColorFix.mk rgb l 0 0) b = 0
      ∧ hPrime2 a (ColorFix.mk rgb l 0 0) = 0
      ∧ (aPrime1 a b = 0 ↔ a.A = 0)
      ∧ (aPrime2 a b = 0 ↔ b.A = 0) := by
  refine ⟨GetHPrimeFn_nonneg x y, GetHPrimeFn_lt_rad360_or x y, GetHPrimeFn_zero, rfl, ?_, ?_, ?_,
    aPrime1_eq_zero_iff a b, aPrime2_eq_zero_iff a b⟩
  · have h1 := rad360_lt_two_pi
    have h2 := two_pi_sub_rad360_lt
    rw [abs_lt]
    constructor <;> linarith
  · unfold hPrime1
    rw [aPrime1_of_A_zero _ b rfl]
    exact GetHPrimeFn_zero
  · unfold hPrime2
    rw [aPrime2_of_A_zero a _ rfl]
    exact GetHPrimeFn_zero

/-! ## The range of the lightness -/

theorem linearize_eq_zero (s : ℝ) (h0 : 0 ≤ s) (h : linearize s = 0) : s = 0 := by
  unfold linearize at h
  by_cases hs : s > 0.04045
  · rw [if_pos hs] at h
    have : 0 < ((s + 0.055) / 1.055) ^ (2.4 : ℝ) := Real.rpow_pos_of_pos (by positivity) _
    linarith
  · rw [if_neg hs] at h
    have h' : s = 0 * 12.92 := (div_eq_iff (by norm_num)).mp h
    linarith

theorem linearize_eq_one (s : ℝ) (h1 : s ≤ 1) (h : linearize s = 1) : s = 1 := by
  unfold linearize at h
  by_cases hs : s > 0.04045
  · rw [if_pos hs] at h
    by_contra hne
    have hlt : s < 1 := lt_of_le_of_ne h1 hne
    have hb0 : 0 ≤ (s + 0.055) / 1.055 := div_nonneg (by linarith) (by norm_num)
    have hb1 : (s + 0.055) / 1.055 < 1 := by
      rw [div_lt_one (by norm_num)]; linarith
    have := Real.rpow_lt_one hb0 hb1 (by norm_num : (0 : ℝ) < 2.4)
    linarith
  · rw [if_neg hs] at h
    have h' : s = 1 * 12.92 := (div_eq_iff (by norm_num)).mp h
    linarith

theorem byte_eq_zero (n : BYTE) (h : ((n : ℕ) : ℝ) / 255.0 = 0) : n = 0 := by
  have h' : ((n : ℕ) : ℝ) = 0 * 255.0 := (div_eq_iff (by norm_num)).mp h
  have : ((n : ℕ) : ℝ) = 0 := by linarith
  have : (n : ℕ) = 0 := by exact_mod_cast this
  exact Fin.ext this

theorem byte_eq_max (n : BYTE) (h : ((n : ℕ) : ℝ) / 255.0 = 1) : n = 255 := by
  have h' : ((n : ℕ) : ℝ) = 1 * 255.0 := (div_eq_iff (by norm_num)).mp h
  have : ((n : ℕ) : ℝ) = 255 := by norm_num at h'; linarith
  have : (n : ℕ) = 255 := by exact_mod_cast this
  exact Fin.ext this

/-- Only black has a `Y` of zero. -/
theorem eq_black_of_xyzY (c : COLORREF) (h : xyzY c = 0) : c = RGB 0 0 0 := by
  obtain ⟨r0, -⟩ := linR_mem c
  obtain ⟨g0, -⟩ := linG_mem c
  obtain ⟨b0, -⟩ := linB_mem c
  unfold xyzY at h
  have hsum : linR c * 0.2126 + linG c * 0.7152 + linB c * 0.0722 = 0 := by
    have := (div_eq_iff (by norm_num : (100.000 : ℝ) ≠ 0)).mp h
    linarith
  have hr : linR c = 0 := by nlinarith
  have hg : linG c = 0 := by nlinarith
  have hb : linB c = 0 := by nlinarith
  unfold linR at hr
  unfold linG at hg
  unfold linB at hb
  have er := byte_eq_zero c.r (linearize_eq_zero _ (byte_div_mem c.r).1 (by linarith))
  have eg := byte_eq_zero c.g (linearize_eq_zero _ (byte_div_mem c.g).1 (by linarith))
  have eb := byte_eq_zero c.b (linearize_eq_zero _ (byte_div_mem c.b).1 (by linarith))
  cases c
  simp only [RGB, COLORREF.mk.injEq]
  exact ⟨er, eg, eb⟩

/-- Only white has a `Y` of one. -/
theorem eq_white_of_xyzY (c : COLORREF) (h : xyzY c = 1) : c = RGB 255 255 255 := by
  obtain ⟨r0, r1⟩ := linR_mem c
  obtain ⟨g0, g1⟩ := linG_mem c
  obtain ⟨b0, b1⟩ := linB_mem c
  unfold xyzY at h
  have hsum : linR c * 0.2126 + linG c * 0.7152 + linB c * 0.0722 = 100 := by
    have := (div_eq_iff (by norm_num : (100.000 : ℝ) ≠ 0)).mp h
    norm_num at this ⊢
    linarith
  have hr : linR c = 100 := by nlinarith
  have hg : linG c = 100 := by nlinarith
  have hb : linB c = 100 := by nlinarith
  unfold linR at hr
  unfold linG at hg
  unfold linB at hb
  have er := byte_eq_max c.r (linearize_eq_one _ (byte_div_mem c.r).2
    (by linarith))
  have eg := byte_eq_max c.g (linearize_eq_one _ (byte_div_mem c.g).2
    (by linarith))
  have eb := byte_eq_max c.b (linearize_eq_one _ (byte_div_mem c.b).2
    (by linarith))
  cases c
  simp only [RGB, COLORREF.mk.injEq]
  exact ⟨er, eg, eb⟩

theorem labF_eq_low (t : ℝ) (h0 : 0 ≤ t) (h : labF t = 16 / 116) : t = 0 := by
  unfold labF at h
  by_cases hb : t > 0.008856
  · rw [if_pos hb] at h
    have h8 : ((0.2 : ℝ) ^ (3 : ℕ)) ≤ t := by norm_num at hb ⊢; linarith
    have : (0.2 : ℝ) ≤ t ^ ((1 : ℝ) / 3) := by
      have := Real.rpow_le_rpow (by norm_num) h8 (by norm_num : (0 : ℝ) ≤ (1 : ℝ) / 3)
      rwa [← Real.rpow_natCast, ← Real.rpow_mul (by norm_num),
        show ((3 : ℕ) : ℝ) * (1 / 3) = 1 by norm_num, Real.rpow_one] at this
    norm_num at h this
    linarith
  · rw [if_neg hb] at h
    linarith

theorem labF_eq_one (t : ℝ) (h0 : 0 ≤ t) (h1 : t ≤ 1) (h : labF t = 1) : t = 1 := by
  unfold labF at h
  by_cases hb : t > 0.008856
  · rw [if_pos hb] at h
    by_contra hne
    have hlt : t < 1 := lt_of_le_of_ne h1 hne
    have := Real.rpow_lt_one h0 hlt (by norm_num : (0 : ℝ) < (1 : ℝ) / 3)
    linarith
  · rw [if_neg hb] at h
    have : t ≤ 0.008856 := not_lt.mp hb
    norm_num at h this
    linarith

/-- C19. The lightness that `_ToLab` computes for an RGB colour lies in `[0, 100]`; it is 0 for
`RGB(0,0,0)` and for no other colour, and 100 for `RGB(255,255,255)` and for no other. -/
theorem ToLab_L_range (c : COLORREF) :
    0 ≤ (ColorFix.ofColor c).L ∧ (ColorFix.ofColor c).L ≤ 100
      ∧ ((ColorFix.ofColor c).L = 0 ↔ c = RGB 0 0 0)
      ∧ ((ColorFix.ofColor c).L = 100 ↔ c = RGB 255 255 255) := by
  obtain ⟨l0, l1⟩ := ofColor_L_mem c
  obtain ⟨y0, y1⟩ := xyzY_mem c
  refine ⟨l0, l1, ⟨fun h => ?_, fun h => ?_⟩, ⟨fun h => ?_, fun h => ?_⟩⟩
  · rw [ofColor_L] at h
    exact eq_black_of_xyzY c (labF_eq_low _ y0 (by linarith))
  · rw [h]; exact black_Lab.1
  · rw [ofColor_L] at h
    exact eq_white_of_xyzY c (labF_eq_one _ y0 y1 (by linarith))
  · rw [h]; exact white_L

/-! ## The fall-through is never reached after a scan -/

/-- The two passes cannot both run out: the second one would have rejected two lightness
values 95 apart. -/
theorem both_exhausted_false (fg bg : COLORREF) (n k : ℕ) (c0 : ∀ j < n, upL fg j ≤ 100)
    (ex0 : 100 < upL fg n) (c1 : ∀ j < k, 0 ≤ downL fg n j)
    (rej : ∀ j < k, candDist fg bg (downL fg n j) < gExpThreshold)
    (ex : downL fg n k < 0) : False := by
  have hk : 20 ≤ k := by
    by_contra hcon
    have h19 : k ≤ 19 := by omega
    have : (k : ℝ) ≤ 19 := by exact_mod_cast h19
    unfold upL at ex0
    unfold downL at ex
    linarith
  exact not_both_rejected fg bg n c0 (rej 0 (by omega)) (rej 19 (by omega)) (c1 19 (by omega))

/-- Under `de1 < gMinThreshold` the search returns from inside a loop, on a tested candidate
that is far enough from the background. -/
theorem returned_candidate (fg bg : COLORREF)
    (hd : (ColorFix.ofColor fg).GetDeltaE (ColorFix.ofColor bg) < gMinThreshold) :
    ∃ l : ℝ, (∃ i, (i, l) ∈ (GetPerceivableColorRun fg bg).tested)
      ∧ candDist fg bg l ≥ gExpThreshold
      ∧ (GetPerceivableColorRun fg bg).returned = some (candidate fg l)._ToRGB.rgb := by
  rcases run_cases fg bg hd with ⟨m, t, -, -, acc, -, ret⟩ | ⟨n, m, t, -, -, -, -, -, acc, -, ret⟩ |
    ⟨n, k, -, c0, -, ex0, c1, rej, ex, -, -⟩
  · refine ⟨upL fg m, ⟨0, ?_⟩, acc, ret⟩
    rw [t]
    exact List.mem_map.mpr ⟨m, List.mem_range.mpr (by omega), rfl⟩
  · refine ⟨downL fg n m, ⟨1, ?_⟩, acc, ret⟩
    rw [t]
    exact List.mem_append_right _ (List.mem_map.mpr ⟨m, List.mem_range.mpr (by omega), rfl⟩)
  · exact (both_exhausted_false fg bg n k c0 ex0 c1 rej ex).elim

/-- C14. The fall-through of line 257 is not reached once the scan has started: whenever the
initial distance is below 12.0, some tested lightness has distance at least 20.0 and
`GetPerceivableColor` returns the `_ToRGB` conversion of that candidate. -/
theorem fallback_unreachable (fg bg : COLORREF)
    (h : (ColorFix.ofColor fg).GetDeltaE (ColorFix.ofColor bg) < 12.0) :
    (GetPerceivableColorRun fg bg).returned ≠ none
      ∧ ∃ l : ℝ, (∃ i, (i, l) ∈ (GetPerceivableColorRun fg bg).tested)
        ∧ ({ rgb := fg, L := l, A := (ColorFix.ofColor fg).A, B := (ColorFix.ofColor fg).B } :
            ColorFix).GetDeltaE (ColorFix.ofColor bg) ≥ 20.0
        ∧ ColorFix.GetPerceivableColor fg bg
          = ({ rgb := fg, L := l, A := (ColorFix.ofColor fg).A, B := (ColorFix.ofColor fg).B } :
              ColorFix)._ToRGB.rgb := by
  have hd : (ColorFix.ofColor fg).GetDeltaE (ColorFix.ofColor bg) < gMinThreshold := by
    unfold gMinThreshold; exact h
  obtain ⟨l, ht, acc, ret⟩ := returned_candidate fg bg hd
  refine ⟨by rw [ret]; simp, l, ht, ?_, GetPerceivableColor_of_returned fg bg _ ret⟩
  unfold gExpThreshold at acc
  exact acc

/-- C14 at the grays 128 on 130: the distance is below 12.0 and the search returns the
conversion of a tested candidate at distance 20.0 or more. -/
theorem fallback_unreachable_witness :
    (ColorFix.ofColor (RGB 128 128 128)).GetDeltaE (ColorFix.ofColor (RGB 130 130 130)) < 12.0
      ∧ (GetPerceivableColorRun (RGB 128 128 128) (RGB 130 130 130)).returned ≠ none :=
  have h : (ColorFix.ofColor (RGB 128 128 128)).GetDeltaE (ColorFix.ofColor (RGB 130 130 130))
      < 12.0 := by have := gray_pair_close; norm_num; linarith
  ⟨h, (fallback_unreachable (RGB 128 128 128) (RGB 130 130 130) h).1⟩

/-! ## The search against the reference search -/

theorem upL_eq (fg : COLORREF) (j : ℕ) :
    upL fg j = (ColorFix.ofColor fg).L + 5 * ((j + 1 : ℕ) : ℝ) := by
  unfold upL; push_cast; ring

theorem downL_add (fg : COLORREF) (n j : ℕ) :
    downL fg n (n + j) = (ColorFix.ofColor fg).L - 5 * (j : ℝ) := by
  unfold downL; push_cast; ring

theorem downL_eq_upL (fg : COLORREF) (n m : ℕ) (h : m < n) :
    downL fg n m = upL fg (n - m - 1) := by
  unfold downL upL
  have e : ((n - m - 1 : ℕ) : ℝ) = (n : ℝ) - (m : ℝ) - 1 := by
    rw [Nat.cast_sub (by omega), Nat.cast_sub (by omega)]; simp
  rw [e]; ring

theorem downL_self (fg : COLORREF) (n : ℕ) : downL fg n n = (ColorFix.ofColor fg).L := by
  unfold downL; ring

theorem candDist_self (fg bg : COLORREF) :
    candDist fg bg (ColorFix.ofColor fg).L
      = (ColorFix.ofColor fg).GetDeltaE (ColorFix.ofColor bg) := rfl

/-- When the second pass accepts its candidate number `m` after `n` tests of the first pass,
that candidate lies below the lightness of `fg`. -/
theorem down_accept_below (fg bg : COLORREF)
    (hd : (ColorFix.ofColor fg).GetDeltaE (ColorFix.ofColor bg) < gMinThreshold) (n m : ℕ)
    (rej0 : ∀ j < n, candDist fg bg (upL fg j) < gExpThreshold)
    (acc : candDist fg bg (downL fg n m) ≥ gExpThreshold) : n < m := by
  have hlt := gMin_lt_gExp
  by_contra hcon
  rcases Nat.lt_or_ge m n with h | h
  · rw [downL_eq_upL fg n m h] at acc
    have := rej0 (n - m - 1) (by omega)
    linarith
  · have : m = n := by omega
    rw [this, downL_self, candDist_self] at acc
    linarith

open Classical in
/-- C15. Over exact real arithmetic `GetPerceivableColor` returns what the reference search
returns, for every `fg` and `bg`: the lightness values that the second pass re-tests on its
way down from the top of the first pass never change the result. -/
theorem GetPerceivableColor_eq_referenceSearch (fg bg : COLORREF) :
    ColorFix.GetPerceivableColor fg bg = referenceSearch fg bg := by
  unfold referenceSearch
  by_cases hd : (ColorFix.ofColor fg).GetDeltaE (ColorFix.ofColor bg) < gMinThreshold
  · have hge : ¬(ColorFix.ofColor fg).GetDeltaE (ColorFix.ofColor bg) ≥ 12.0 := by
      unfold gMinThreshold at hd; exact not_le.mpr hd
    rw [if_neg hge]
    rcases run_cases fg bg hd with ⟨m, -, c, rej, acc, -, ret⟩ |
      ⟨n, m, -, c0, rej0, ex0, c1, rej1, acc, -, ret⟩ | ⟨n, k, -, c0, -, ex0, c1, rej, ex, -, -⟩
    · -- the first pass accepts its candidate number `m`
      have hP : ∃ k : ℕ, 1 ≤ k ∧ (ColorFix.ofColor fg).L + 5 * (k : ℝ) ≤ 100
          ∧ candDist fg bg ((ColorFix.ofColor fg).L + 5 * (k : ℝ)) ≥ 20.0 := by
        refine ⟨m + 1, by omega, ?_, ?_⟩
        · rw [← upL_eq]; exact c m le_rfl
        · rw [← upL_eq]; unfold gExpThreshold at acc; exact acc
      have hfind : Nat.find hP = m + 1 := by
        rw [Nat.find_eq_iff]
        refine ⟨⟨by omega, ?_, ?_⟩, ?_⟩
        · rw [← upL_eq]; exact c m le_rfl
        · rw [← upL_eq]; unfold gExpThreshold at acc; exact acc
        · rintro j hj ⟨h1, -, h3⟩
          obtain ⟨i, rfl⟩ : ∃ i, j = i + 1 := ⟨j - 1, by omega⟩
          rw [← upL_eq] at h3
          have := rej i (by omega)
          unfold gExpThreshold at this
          linarith
      rw [dif_pos hP, hfind, ← upL_eq]
      exact GetPerceivableColor_of_returned fg bg _ ret
    · -- the first pass runs out, the second accepts its candidate number `m`
      have hnm := down_accept_below fg bg hd n m rej0 acc
      have hP : ¬∃ k : ℕ, 1 ≤ k ∧ (ColorFix.ofColor fg).L + 5 * (k : ℝ) ≤ 100
          ∧ candDist fg bg ((ColorFix.ofColor fg).L + 5 * (k : ℝ)) ≥ 20.0 := by
        rintro ⟨k, h1, h2, h3⟩
        obtain ⟨i, rfl⟩ : ∃ i, k = i + 1 := ⟨k - 1, by omega⟩
        rw [← upL_eq] at h2 h3
        rcases Nat.lt_or_ge i n with hi | hi
        · have := rej0 i hi
          unfold gExpThreshold at this
          linarith
        · have : (n : ℝ) ≤ (i : ℝ) := by exact_mod_cast hi
          unfold upL at ex0 h2
          linarith
      obtain ⟨d, rfl⟩ : ∃ d, m = n + d := ⟨m - n, by omega⟩
      have hQ : ∃ j : ℕ, 1 ≤ j ∧ 0 ≤ (ColorFix.ofColor fg).L - 5 * (j : ℝ)
          ∧ candDist fg bg ((ColorFix.ofColor fg).L - 5 * (j : ℝ)) ≥ 20.0 := by
        refine ⟨d, by omega, ?_, ?_⟩
        · rw [← downL_add fg n d]; exact c1 (n + d) le_rfl
        · rw [← downL_add fg n d]; unfold gExpThreshold at acc; exact acc
      have hfind : Nat.find hQ = d := by
        rw [Nat.find_eq_iff]
        refine ⟨⟨by omega, ?_, ?_⟩, ?_⟩
        · rw [← downL_add fg n d]; exact c1 (n + d) le_rfl
        · rw [← downL_add fg n d]; unfold gExpThreshold at acc; exact acc
        · rintro j hj ⟨-, -, h3⟩
          rw [← downL_add fg n j] at h3
          have := rej1 (n + j) (by omega)
          unfold gExpThreshold at this
          linarith
      rw [dif_neg hP, dif_pos hQ, hfind, ← downL_add fg n d]
      exact GetPerceivableColor_of_returned fg bg _ ret
    · exact (both_exhausted_false fg bg n k c0 ex0 c1 rej ex).elim
  · have hge : (ColorFix.ofColor fg).GetDeltaE (ColorFix.ofColor bg) ≥ 12.0 := by
      unfold gMinThreshold at hd; exact not_lt.mp hd
    rw [if_pos hge]
    have e := run_of_not_lt fg bg hd
    rw [GetPerceivableColor_of_not_returned fg bg (by rw [e]), e]
    rfl

/-! ## Where the second pass starts -/

/-- The log of the two passes when the first one returns nothing: the second pass starts at
the lightness where the first stopped, less one step. -/
theorem second_pass_trace (fg bg : COLORREF)
    (hd : (ColorFix.ofColor fg).GetDeltaE (ColorFix.ofColor bg) < gMinThreshold)
    (h0 : (pass0 fg bg).returned = none) :
    ∃ n k : ℕ, 1 ≤ k
      ∧ testedBy 0 (GetPerceivableColorRun fg bg) = (List.range n).map (upL fg)
      ∧ testedBy 1 (GetPerceivableColorRun fg bg) = (List.range k).map (downL fg n)
      ∧ (∀ j < k, 0 ≤ downL fg n j)
      ∧ 100 < upL fg n ∧ (∀ j < n, upL fg j ≤ 100) := by
  obtain ⟨n, t0, c0, -, r0⟩ := pass0_spec fg bg
  rcases r0 with ⟨-, fl0, ex0, -⟩ | ⟨m, -, -, ret0, -⟩
  · have hs : (pass0 fg bg).frontLab
        = (ColorFix.ofColor fg).withL ((ColorFix.ofColor fg).L + 5 * (n : ℝ) + 5) := by
      rw [fl0]; congr 1; ring
    obtain ⟨k, t1, c1, -, r1⟩ := pass1_spec fg bg _ hs
    have ht : (GetPerceivableColorRun fg bg).tested
        = (List.range n).map (fun j : ℕ => (0, upL fg j))
          ++ (List.range k).map (fun j : ℕ => (1, downL fg n j)) := by
      rw [run_of_lt_none fg bg hd h0, t0, t1]; rfl
    have hk : 1 ≤ k := by
      rcases r1 with ⟨-, -, ex1, -⟩ | ⟨m, rfl, -, -, -⟩
      · by_contra hcon
        have : k = 0 := by omega
        subst this
        simp only [Nat.cast_zero, mul_zero, sub_zero] at ex1
        linarith
      · omega
    exact ⟨n, k, hk, testedBy_zero_of _ _ _ _ _ ht, testedBy_one_of _ _ _ _ _ ht, c1, ex0, c0⟩
  · rw [ret0] at h0; cases h0

theorem pass0_white : (pass0 (RGB 255 255 255) (RGB 255 255 255)).returned = none := by
  unfold pass0
  rw [whileLoop_exit]
  rw [loopCond_zero, withL_L, stepOf_zero, white_L]
  norm_num

theorem white_white_close :
    (ColorFix.ofColor (RGB 255 255 255)).GetDeltaE (ColorFix.ofColor (RGB 255 255 255))
      < gMinThreshold := by
  rw [GetDeltaE_self_eq]; unfold gMinThreshold; norm_num

/-- C13, refuted at white on white: the first pass returns nothing (it tests nothing, 105
being above 100), and the first lightness the second pass tests is 100, the lightness of the
foreground itself, not that lightness minus 5.0. -/
theorem second_pass_starts_at_top :
    (ColorFix.ofColor (RGB 255 255 255)).GetDeltaE (ColorFix.ofColor (RGB 255 255 255)) < 12.0
      ∧ (pass0 (RGB 255 255 255) (RGB 255 255 255)).returned = none
      ∧ testedBy 0 (GetPerceivableColorRun (RGB 255 255 255) (RGB 255 255 255)) = []
      ∧ (testedBy 1 (GetPerceivableColorRun (RGB 255 255 255) (RGB 255 255 255))).head? = some 100
      ∧ (ColorFix.ofColor (RGB 255 255 255)).L - 5.0 = 95 := by
  have hd := white_white_close
  obtain ⟨n, k, hk, t0, t1, -, -, c0⟩ :=
    second_pass_trace (RGB 255 255 255) (RGB 255 255 255) hd pass0_white
  have hn : n = 0 := by
    by_contra hcon
    have := c0 0 (by omega)
    unfold upL at this
    rw [white_L] at this
    norm_num at this
  subst hn
  obtain ⟨k, rfl⟩ : ∃ i, k = i + 1 := ⟨k - 1, by omega⟩
  refine ⟨by unfold gMinThreshold at hd; exact hd, pass0_white, by rw [t0]; rfl, ?_, ?_⟩
  · rw [t1, List.range_succ_eq_map]
    simp [downL, white_L]
  · rw [white_L]; norm_num

/-- C13, amended. Whenever the increasing scan returns nothing, the first lightness the
decreasing scan tests is the lightness at which the increasing scan stopped, minus 5.0: that
is `L0 + 5 n` after `n` tests of the increasing scan, a value in `(95, 100]` and never
`L0 - 5.0`; the values tested after it are that value minus further multiples of 5.0, all of
them at least 0. -/
theorem second_pass_start (fg bg : COLORREF)
    (h : (ColorFix.ofColor fg).GetDeltaE (ColorFix.ofColor bg) < 12.0)
    (h0 : (pass0 fg bg).returned = none) :
    ∃ k : ℕ, 1 ≤ k
      ∧ testedBy 1 (GetPerceivableColorRun fg bg)
        = (List.range k).map (fun j : ℕ => (ColorFix.ofColor fg).L
            + 5 * (((testedBy 0 (GetPerceivableColorRun fg bg)).length : ℕ) : ℝ) - 5 * (j : ℝ))
      ∧ (testedBy 1 (GetPerceivableColorRun fg bg)).head?
        = some ((ColorFix.ofColor fg).L
            + 5 * (((testedBy 0 (GetPerceivableColorRun fg bg)).length : ℕ) : ℝ))
      ∧ (∀ l ∈ testedBy 1 (GetPerceivableColorRun fg bg), 0 ≤ l)
      ∧ 95 < (ColorFix.ofColor fg).L
          + 5 * (((testedBy 0 (GetPerceivableColorRun fg bg)).length : ℕ) : ℝ)
      ∧ (ColorFix.ofColor fg).L
          + 5 * (((testedBy 0 (GetPerceivableColorRun fg bg)).length : ℕ) : ℝ) ≤ 100 := by
  have hd : (ColorFix.ofColor fg).GetDeltaE (ColorFix.ofColor bg) < gMinThreshold := by
    unfold gMinThreshold; exact h
  obtain ⟨n, k, hk, t0, t1, c1, ex0, c0⟩ := second_pass_trace fg bg hd h0
  have hlen : (testedBy 0 (GetPerceivableColorRun fg bg)).length = n := by
    rw [t0]; simp
  rw [hlen, t1]
  refine ⟨k, hk, rfl, ?_, ?_, ?_, top_le fg n c0⟩
  · obtain ⟨i, rfl⟩ : ∃ i, k = i + 1 := ⟨k - 1, by omega⟩
    rw [List.range_succ_eq_map]
    simp [downL]
  · intro l hl
    obtain ⟨j, hj, rfl⟩ := List.mem_map.mp hl
    exact c1 j (List.mem_range.mp hj)
  · unfold upL at ex0; linarith

/-- C13 at white on white: the first pass returns nothing and the second pass starts at the
lightness 100 of the foreground. -/
theorem second_pass_start_witness :
    (ColorFix.ofColor (RGB 255 255 255)).GetDeltaE (ColorFix.ofColor (RGB 255 255 255)) < 12.0
      ∧ (pass0 (RGB 255 255 255) (RGB 255 255 255)).returned = none
      ∧ ∃ k : ℕ, 1 ≤ k
        ∧ testedBy 1 (GetPerceivableColorRun (RGB 255 255 255) (RGB 255 255 255))
          = (List.range k).map (fun j : ℕ => (ColorFix.ofColor (RGB 255 255 255)).L
              + 5 * (((testedBy 0
                  (GetPerceivableColorRun (RGB 255 255 255) (RGB 255 255 255))).length : ℕ) : ℝ)
              - 5 * (j : ℝ)) :=
  have h : (ColorFix.ofColor (RGB 255 255 255)).GetDeltaE (ColorFix.ofColor (RGB 255 255 255))
      < 12.0 := by have := white_white_close; unfold gMinThreshold at this; exact this
  ⟨h, pass0_white,
    (second_pass_start (RGB 255 255 255) (RGB 255 255 255) h pass0_white).imp
      (fun _ hk => ⟨hk.1, hk.2.1⟩)⟩

/-! ## The hue difference term -/

theorem aPrime1_ge (a b : ColorFix) (h : 0 ≤ a.A) : a.A ≤ aPrime1 a b := by
  obtain ⟨-, h1⟩ := sqrt_ratio_mem (cBar a b) (cBar_nonneg a b)
  unfold aPrime1
  have : 0 ≤ a.A / 2 * (1 - √(cBar a b ^ 7 / (cBar a b ^ 7 + (25.0 : ℝ) ^ 7))) :=
    mul_nonneg (by linarith) (by linarith)
  linarith

theorem aPrime2_ge (a b : ColorFix) (h : 0 ≤ b.A) : b.A ≤ aPrime2 a b := by
  obtain ⟨-, h1⟩ := sqrt_ratio_mem (cBar a b) (cBar_nonneg a b)
  unfold aPrime2
  have : 0 ≤ b.A / 2 * (1 - √(cBar a b ^ 7 / (cBar a b ^ 7 + (25.0 : ℝ) ^ 7))) :=
    mul_nonneg (by linarith) (by linarith)
  linarith

theorem atan2_zero_of_pos (x : ℝ) (hx : 0 < x) : atan2 0 x = 0 := by
  show Complex.arg ((x : ℝ) : ℂ) = 0
  exact Complex.arg_ofReal_of_nonneg hx.le

theorem atan2_one_zero : atan2 1 0 = π / 2 := by
  show Complex.arg Complex.I = π / 2
  exact Complex.arg_I

theorem GetHPrimeFn_zero_of_pos (x : ℝ) (hx : 0 < x) : GetHPrimeFn 0 x = 0 := by
  unfold GetHPrimeFn
  rw [if_neg (fun h => hx.ne' h.2)]
  simp only [atan2_zero_of_pos x hx, ge_iff_le, le_refl, if_true]

theorem GetHPrimeFn_one_zero : GetHPrimeFn 1 0 = π / 2 := by
  unfold GetHPrimeFn
  rw [if_neg (fun h => one_ne_zero h.1)]
  have hp := Real.pi_pos
  simp only [atan2_one_zero]
  rw [if_pos (by linarith)]

theorem pi_div_two_le_rad180 : π / 2 ≤ rad180 := by
  have := Real.pi_lt_d6
  unfold rad180
  norm_num at this ⊢
  linarith

/-- C11 at the Lab colours `(50, 1, 0)` and `(50, 0, 1)`: both chromas are 1, the hue angles are
0 and `π / 2`, a difference within `rad180`, and `deltaHPrime` is
`2 sqrt(C1' C2') sin(h2' - h1')`, which differs from the half-angle value
`2 sqrt(C1' C2') sin((h2' - h1') / 2)`. -/
theorem deltaHPrime_full_angle :
    c1 (ColorFix.mk (RGB 0 0 0) 50 1 0) = 1 ∧ c2 (ColorFix.mk (RGB 0 0 0) 50 0 1) = 1
      ∧ hPrime1 (ColorFix.mk (RGB 0 0 0) 50 1 0) (ColorFix.mk (RGB 0 0 0) 50 0 1) = 0
      ∧ hPrime2 (ColorFix.mk (RGB 0 0 0) 50 1 0) (ColorFix.mk (RGB 0 0 0) 50 0 1) = π / 2
      ∧ |hPrime1 (ColorFix.mk (RGB 0 0 0) 50 1 0) (ColorFix.mk (RGB 0 0 0) 50 0 1)
          - hPrime2 (ColorFix.mk (RGB 0 0 0) 50 1 0) (ColorFix.mk (RGB 0 0 0) 50 0 1)| ≤ rad180
      ∧ deltaHPrime (ColorFix.mk (RGB 0 0 0) 50 1 0) (ColorFix.mk (RGB 0 0 0) 50 0 1)
          = 2 * √(cPrime1 (ColorFix.mk (RGB 0 0 0) 50 1 0) (ColorFix.mk (RGB 0 0 0) 50 0 1)
              * cPrime2 (ColorFix.mk (RGB 0 0 0) 50 1 0) (ColorFix.mk (RGB 0 0 0) 50 0 1))
            * sin (hPrime2 (ColorFix.mk (RGB 0 0 0) 50 1 0) (ColorFix.mk (RGB 0 0 0) 50 0 1)
              - hPrime1 (ColorFix.mk (RGB 0 0 0) 50 1 0) (ColorFix.mk (RGB 0 0 0) 50 0 1))
      ∧ deltaHPrime (ColorFix.mk (RGB 0 0 0) 50 1 0) (ColorFix.mk (RGB 0 0 0) 50 0 1)
          ≠ 2 * √(cPrime1 (ColorFix.mk (RGB 0 0 0) 50 1 0) (ColorFix.mk (RGB 0 0 0) 50 0 1)
              * cPrime2 (ColorFix.mk (RGB 0 0 0) 50 1 0) (ColorFix.mk (RGB 0 0 0) 50 0 1))
            * sin ((hPrime2 (ColorFix.mk (RGB 0 0 0) 50 1 0) (ColorFix.mk (RGB 0 0 0) 50 0 1)
              - hPrime1 (ColorFix.mk (RGB 0 0 0) 50 1 0) (ColorFix.mk (RGB 0 0 0) 50 0 1)) / 2) := by
  set a : ColorFix := ColorFix.mk (RGB 0 0 0) 50 1 0 with ha
  set b : ColorFix := ColorFix.mk (RGB 0 0 0) 50 0 1 with hb
  have hp := Real.pi_pos
  have hc1 : c1 a = 1 := by unfold c1; simp [ha]
  have hc2 : c2 b = 1 := by unfold c2; simp [hb]
  have ha1 : 1 ≤ aPrime1 a b := aPrime1_ge a b (by simp [ha])
  have ha2 : aPrime2 a b = 0 := aPrime2_of_A_zero a b rfl
  have h1 : hPrime1 a b = 0 := by
    unfold hPrime1
    exact GetHPrimeFn_zero_of_pos _ (by linarith)
  have h2 : hPrime2 a b = π / 2 := by
    unfold hPrime2
    rw [ha2]
    exact GetHPrimeFn_one_zero
  have hd : |hPrime1 a b - hPrime2 a b| ≤ rad180 := by
    rw [h1, h2, zero_sub, abs_neg, abs_of_pos (by linarith)]
    exact pi_div_two_le_rad180
  have hcp1 : 1 ≤ cPrime1 a b := by
    unfold cPrime1
    rw [show a.B = 0 from rfl]
    simp only [ne_eq, OfNat.ofNat_ne_zero, not_false_eq_true, zero_pow, add_zero]
    rw [Real.sqrt_sq (by linarith)]
    exact ha1
  have hcp2 : cPrime2 a b = 1 := by
    unfold cPrime2
    rw [ha2, show b.B = 1 from rfl]
    simp
  have hs : 1 ≤ √(cPrime1 a b * cPrime2 a b) := by
    rw [hcp2, mul_one, Real.one_le_sqrt]
    exact hcp1
  have hcode : deltaHPrime a b
      = 2 * √(cPrime1 a b * cPrime2 a b) * sin (hPrime2 a b - hPrime1 a b) := by
    unfold deltaHPrime
    rw [if_neg (by rw [hc1, hc2]; norm_num), if_pos hd]
  refine ⟨hc1, hc2, h1, h2, hd, hcode, ?_⟩
  rw [hcode, h1, h2, sub_zero, Real.sin_pi_div_two,
    show π / 2 / 2 = π / 4 by ring, Real.sin_pi_div_four]
  intro h
  have h2lt : √2 < 2 := by
    rw [Real.sqrt_lt' (by norm_num)]; norm_num
  have : 2 * √(cPrime1 a b * cPrime2 a b) * (1 - √2 / 2) = 0 := by linarith
  have hpos : 0 < 2 * √(cPrime1 a b * cPrime2 a b) * (1 - √2 / 2) :=
    mul_pos (by linarith) (by linarith)
  linarith

/-! ## The mean hue -/

theorem rad360_eq : rad360 = 2 * rad180 := by unfold rad360 rad180; norm_num

theorem pi_lt_rad360 : π < rad360 := by
  have := Real.pi_lt_d6
  unfold rad360
  norm_num at this ⊢
  linarith

theorem GetHPrimeFn_lt_rad360 (x y : ℝ) : GetHPrimeFn x y < rad360 := by
  unfold GetHPrimeFn
  have h360 : 0 < rad360 := by unfold rad360; norm_num
  by_cases h : x = 0 ∧ y = 0
  · rw [if_pos h]; exact h360
  · rw [if_neg h]
    by_cases h2 : atan2 x y ≥ 0
    · simp only [if_pos h2]
      have := atan2_le_pi x y
      have := pi_lt_rad360
      linarith
    · simp only [if_neg h2]
      linarith [not_le.mp h2]

theorem hPrime_mem (a b : ColorFix) :
    0 ≤ hPrime1 a b ∧ hPrime1 a b < rad360 ∧ 0 ≤ hPrime2 a b ∧ hPrime2 a b < rad360 :=
  ⟨GetHPrimeFn_nonneg _ _, GetHPrimeFn_lt_rad360 _ _, GetHPrimeFn_nonneg _ _,
    GetHPrimeFn_lt_rad360 _ _⟩

/-- The angle of a point `(x, -1)` with `x >= 1` is negative and at least `-π / 4`. -/
theorem atan2_fourth_quadrant (x : ℝ) (hx : 1 ≤ x) :
    -(π / 4) ≤ atan2 (-1) x ∧ atan2 (-1) x < 0 := by
  have hp := Real.pi_pos
  constructor
  · unfold atan2
    rw [Complex.arg_of_re_nonneg (show (0 : ℝ) ≤ (⟨x, -1⟩ : ℂ).re by simp; linarith)]
    rw [Real.le_arcsin_iff_sin_le' ⟨by linarith, by linarith⟩, Real.sin_neg,
      Real.sin_pi_div_four, Complex.abs_apply, Complex.normSq_mk]
    have hpos : 0 < √(x * x + -1 * -1) := Real.sqrt_pos.mpr (by nlinarith)
    have h2 : √2 ≤ √(x * x + -1 * -1) := Real.sqrt_le_sqrt (by nlinarith)
    have hs2 : √2 * √2 = 2 := Real.mul_self_sqrt (by norm_num)
    have hs0 : 0 ≤ √2 := Real.sqrt_nonneg _
    show -(√2 / 2) ≤ (-1 : ℝ) / √(x * x + -1 * -1)
    rw [le_div_iff₀ hpos]
    have hm := mul_le_mul_of_nonneg_left h2 hs0
    generalize √(x * x + -1 * -1) = S at hpos h2 hm ⊢
    linarith
  · unfold atan2
    rw [Complex.arg_neg_iff]
    simp

/-- C12, refuted at the Lab colours `(50, 0, 1)` and `(50, 1, -1)`: the hue angles differ by
more than `rad180` and add up to `rad360` or more, and the mean hue is
`(h1' + h2' + rad360) / 2`, which is `rad360` or more, not `(h1' + h2' - rad360) / 2`. -/
theorem hBarPrime_above_full_turn :
    |hPrime1 (ColorFix.mk (RGB 0 0 0) 50 0 1) (ColorFix.mk (RGB 0 0 0) 50 1 (-1))
        - hPrime2 (ColorFix.mk (RGB 0 0 0) 50 0 1) (ColorFix.mk (RGB 0 0 0) 50 1 (-1))| > rad180
      ∧ rad360 ≤ hPrime1 (ColorFix.mk (RGB 0 0 0) 50 0 1) (ColorFix.mk (RGB 0 0 0) 50 1 (-1))
          + hPrime2 (ColorFix.mk (RGB 0 0 0) 50 0 1) (ColorFix.mk (RGB 0 0 0) 50 1 (-1))
      ∧ hBarPrime (ColorFix.mk (RGB 0 0 0) 50 0 1) (ColorFix.mk (RGB 0 0 0) 50 1 (-1))
          ≠ (hPrime1 (ColorFix.mk (RGB 0 0 0) 50 0 1) (ColorFix.mk (RGB 0 0 0) 50 1 (-1))
              + hPrime2 (ColorFix.mk (RGB 0 0 0) 50 0 1) (ColorFix.mk (RGB 0 0 0) 50 1 (-1))
              - rad360) / 2
      ∧ rad360 ≤ hBarPrime (ColorFix.mk (RGB 0 0 0) 50 0 1) (ColorFix.mk (RGB 0 0 0) 50 1 (-1)) := by
  set a : ColorFix := ColorFix.mk (RGB 0 0 0) 50 0 1 with ha
  set b : ColorFix := ColorFix.mk (RGB 0 0 0) 50 1 (-1) with hb
  have hp := Real.pi_pos
  have hpl := Real.pi_lt_d6
  have hpg := Real.pi_gt_d6
  have h360 : rad360 = 6.283185307179586476 := rfl
  have h180 : rad180 = 3.141592653589793238 := rfl
  have ha1 : aPrime1 a b = 0 := aPrime1_of_A_zero a b rfl
  have ha2 : 1 ≤ aPrime2 a b := aPrime2_ge a b (by simp [hb])
  have h1 : hPrime1 a b = π / 2 := by
    unfold hPrime1
    rw [ha1]
    exact GetHPrimeFn_one_zero
  obtain ⟨q1, q2⟩ := atan2_fourth_quadrant (aPrime2 a b) ha2
  have h2 : hPrime2 a b = atan2 (-1) (aPrime2 a b) + rad360 := by
    unfold hPrime2 GetHPrimeFn
    rw [show b.B = -1 from rfl, if_neg (fun h => by norm_num at h)]
    simp only [if_neg (not_le.mpr q2)]
  have hdiff : |hPrime1 a b - hPrime2 a b| > rad180 := by
    rw [abs_sub_comm, h1, h2]
    refine lt_of_lt_of_le ?_ (le_abs_self _)
    rw [h360, h180]
    norm_num at hpl ⊢
    linarith
  have hsum : rad360 ≤ hPrime1 a b + hPrime2 a b := by
    rw [h1, h2]; linarith
  have hcode : hBarPrime a b = (hPrime1 a b + hPrime2 a b + rad360) / 2 := by
    unfold hBarPrime; rw [if_pos hdiff]
  have hpos : 0 < rad360 := by rw [h360]; norm_num
  refine ⟨hdiff, hsum, ?_, ?_⟩
  · rw [hcode]; intro h; linarith
  · rw [hcode]; linarith

/-- C12, amended. The mean hue used by `GetDeltaE` is `(h1' + h2' + rad360) / 2` whenever the
hue angles differ by more than `rad180`, whatever their sum, and `(h1' + h2') / 2` when they
differ by at most `rad180`; it lies in `[0, 450 degrees)`, so it can be `rad360` or more. -/
theorem hBarPrime_spec (a b : ColorFix) :
    hBarPrime a b
        = (if |hPrime1 a b - hPrime2 a b| > rad180
            then (hPrime1 a b + hPrime2 a b + rad360) / 2
            else (hPrime1 a b + hPrime2 a b) / 2)
      ∧ 0 ≤ hBarPrime a b
      ∧ hBarPrime a b < rad360 + rad180 / 2 := by
  obtain ⟨p1, q1, p2, q2⟩ := hPrime_mem a b
  have e := rad360_eq
  have h180 : 0 < rad180 := rad180_pos
  refine ⟨rfl, ?_, ?_⟩
  · unfold hBarPrime
    split_ifs <;> linarith
  · unfold hBarPrime
    split_ifs with h
    · rcases lt_abs.mp h with h' | h' <;> linarith
    · linarith

/-! ## One pass from RGB to Lab and back, for every colour -/

/-- The power range of the decoding: for a channel value from 11 on, `u = (s + 0.055) / 1.055`
is at least 0.093, the decoded value is `u ^ 2.4`, at least 0.0033, and `u ^ 1.4` is at least
0.02. -/
theorem linearize_power_range (v : BYTE) (hv : 11 ≤ (v : ℕ)) :
    (0.093 : ℝ) ≤ (((v : ℕ) : ℝ) / 255.0 + 0.055) / 1.055
      ∧ linearize (((v : ℕ) : ℝ) / 255.0)
          = ((((v : ℕ) : ℝ) / 255.0 + 0.055) / 1.055) ^ (2.4 : ℝ)
      ∧ (0.0033 : ℝ) ≤ ((((v : ℕ) : ℝ) / 255.0 + 0.055) / 1.055) ^ (2.4 : ℝ)
      ∧ (0.02 : ℝ) ≤ ((((v : ℕ) : ℝ) / 255.0 + 0.055) / 1.055) ^ (1.4 : ℝ) := by
  have hv' : (11 : ℝ) ≤ ((v : ℕ) : ℝ) := by exact_mod_cast hv
  have hs : ((v : ℕ) : ℝ) / 255.0 > 0.04045 := by
    rw [gt_iff_lt, lt_div_iff₀ (by norm_num)]; norm_num; linarith
  have hu : (0.093 : ℝ) ≤ (((v : ℕ) : ℝ) / 255.0 + 0.055) / 1.055 := by
    rw [le_div_iff₀ (by norm_num)]
    have : (11 : ℝ) / 255 ≤ ((v : ℕ) : ℝ) / 255.0 := by
      rw [div_le_div_iff₀ (by norm_num) (by norm_num)]; norm_num; linarith
    norm_num at this ⊢
    linarith
  have hu0 : 0 ≤ (((v : ℕ) : ℝ) / 255.0 + 0.055) / 1.055 := by linarith
  refine ⟨hu, by unfold linearize; rw [if_pos hs], ?_, ?_⟩
  · have h := le_rpow_of_pow_le 0.0033 _ (by norm_num) hu0 12 5 (by norm_num)
      (by
        have : (0.093 : ℝ) ^ 12 ≤ ((((v : ℕ) : ℝ) / 255.0 + 0.055) / 1.055) ^ 12 :=
          pow_le_pow_left₀ (by norm_num) hu 12
        have e : (0.0033 : ℝ) ^ 5 ≤ (0.093 : ℝ) ^ 12 := by norm_num
        linarith)
    have e : ((12 : ℕ) : ℝ) / ((5 : ℕ) : ℝ) = 2.4 := by norm_num
    rw [e] at h
    exact h
  · have h := le_rpow_of_pow_le 0.02 _ (by norm_num) hu0 7 5 (by norm_num)
      (by
        have : (0.093 : ℝ) ^ 7 ≤ ((((v : ℕ) : ℝ) / 255.0 + 0.055) / 1.055) ^ 7 :=
          pow_le_pow_left₀ (by norm_num) hu 7
        have e : (0.02 : ℝ) ^ 5 ≤ (0.093 : ℝ) ^ 7 := by norm_num
        linarith)
    have e : ((7 : ℕ) : ℝ) / ((5 : ℕ) : ℝ) = 1.4 := by norm_num
    rw [e] at h
    exact h

/-- The linear range of the decoding: for a channel value up to 10 the decoded value is
`s / 12.92`, at most 0.00304. -/
theorem linearize_linear_range (v : BYTE) (hv : (v : ℕ) ≤ 10) :
    linearize (((v : ℕ) : ℝ) / 255.0) = ((v : ℕ) : ℝ) / 255.0 / 12.92
      ∧ ((v : ℕ) : ℝ) / 255.0 / 12.92 ≤ 0.00304
      ∧ 12.92 * (((v : ℕ) : ℝ) / 255.0 / 12.92) * 255 = ((v : ℕ) : ℝ) := by
  have hv' : ((v : ℕ) : ℝ) ≤ 10 := by exact_mod_cast hv
  have hs : ¬((v : ℕ) : ℝ) / 255.0 > 0.04045 := by
    rw [not_lt, div_le_iff₀ (by norm_num)]; norm_num; linarith
  refine ⟨by unfold linearize; rw [if_neg hs], ?_, ?_⟩
  · rw [div_le_iff₀ (by norm_num), div_le_iff₀ (by norm_num)]; norm_num; linarith
  · norm_num; ring

/-- For `u >= 0.093` and `p = u ^ 1.4 >= 0.02`: moving `u` by `1 / 269.025` moves `u ^ 2.4` by
more than 0.00007. -/
theorem rpow_step (u : ℝ) (hu : 0.093 ≤ u) (hp : 0.02 ≤ u ^ (1.4 : ℝ)) :
    (u - 1 / 269.025) ^ (2.4 : ℝ) < u ^ (2.4 : ℝ) - 0.00007
      ∧ u ^ (2.4 : ℝ) + 0.00007 < (u + 1 / 269.025) ^ (2.4 : ℝ) := by
  have hu0 : 0 < u := by linarith
  have hl : u ^ (2.4 : ℝ) = u * u ^ (1.4 : ℝ) := by
    have := Real.rpow_add hu0 1 1.4
    rw [Real.rpow_one] at this
    rw [← this]; norm_num
  have hpp : 0 ≤ u ^ (1.4 : ℝ) := by linarith
  constructor
  · have hr0 : 0 < (u - 1 / 269.025) / u := div_pos (by norm_num at hu ⊢; linarith) hu0
    have hr1 : (u - 1 / 269.025) / u ≤ 1 := by
      rw [div_le_one hu0]; norm_num
    have e : u - 1 / 269.025 = u * ((u - 1 / 269.025) / u) := by field_simp; ring
    have hpow : ((u - 1 / 269.025) / u) ^ (2.4 : ℝ) ≤ (u - 1 / 269.025) / u := by
      have := Real.rpow_le_rpow_of_exponent_ge hr0 hr1 (by norm_num : (1 : ℝ) ≤ 2.4)
      rwa [Real.rpow_one] at this
    have h1 : (u - 1 / 269.025) ^ (2.4 : ℝ)
        ≤ u ^ (2.4 : ℝ) * ((u - 1 / 269.025) / u) := by
      conv_lhs => rw [e]
      rw [Real.mul_rpow hu0.le hr0.le]
      exact mul_le_mul_of_nonneg_left hpow (Real.rpow_nonneg hu0.le _)
    have h2 : u ^ (2.4 : ℝ) * ((u - 1 / 269.025) / u)
        = u ^ (2.4 : ℝ) - u ^ (1.4 : ℝ) * (1 / 269.025) := by
      rw [hl]; field_simp; ring
    have h3 : (0.00007 : ℝ) < u ^ (1.4 : ℝ) * (1 / 269.025) := by
      have : (0.02 : ℝ) * (1 / 269.025) ≤ u ^ (1.4 : ℝ) * (1 / 269.025) :=
        mul_le_mul_of_nonneg_right hp (by norm_num)
      norm_num at this ⊢
      linarith
    linarith
  · have hr1 : 1 ≤ (u + 1 / 269.025) / u := by
      rw [le_div_iff₀ hu0]; norm_num
    have e : u + 1 / 269.025 = u * ((u + 1 / 269.025) / u) := by field_simp; ring
    have hpow : (u + 1 / 269.025) / u ≤ ((u + 1 / 269.025) / u) ^ (2.4 : ℝ) := by
      have := Real.rpow_le_rpow_of_exponent_le hr1 (by norm_num : (1 : ℝ) ≤ 2.4)
      rwa [Real.rpow_one] at this
    have h1 : u ^ (2.4 : ℝ) * ((u + 1 / 269.025) / u)
        ≤ (u + 1 / 269.025) ^ (2.4 : ℝ) := by
      conv_rhs => rw [e]
      rw [Real.mul_rpow hu0.le (by linarith)]
      exact mul_le_mul_of_nonneg_left hpow (Real.rpow_nonneg hu0.le _)
    have h2 : u ^ (2.4 : ℝ) * ((u + 1 / 269.025) / u)
        = u ^ (2.4 : ℝ) + u ^ (1.4 : ℝ) * (1 / 269.025) := by
      rw [hl]; field_simp; ring
    have h3 : (0.00007 : ℝ) < u ^ (1.4 : ℝ) * (1 / 269.025) := by
      have : (0.02 : ℝ) * (1 / 269.025) ≤ u ^ (1.4 : ℝ) * (1 / 269.025) :=
        mul_le_mul_of_nonneg_right hp (by norm_num)
      norm_num at this ⊢
      linarith
    linarith

/-- Encoding a value within 0.00007 of a decoded channel value gives a value less than 1 away
from the channel value. -/
theorem gamma_near (v : BYTE) (w : ℝ)
    (hlo : linearize (((v : ℕ) : ℝ) / 255.0) - 0.00007 ≤ w)
    (hhi : w ≤ linearize (((v : ℕ) : ℝ) / 255.0) + 0.00007) :
    ((v : ℕ) : ℝ) - 1 < gammaEnc w * 255 ∧ gammaEnc w * 255 < ((v : ℕ) : ℝ) + 1 := by
  rcases le_or_lt (v : ℕ) 10 with hv | hv
  · obtain ⟨hl, hb, he⟩ := linearize_linear_range v hv
    rw [hl] at hlo hhi
    have harg : ¬w > 0.0031308 := by
      rw [not_lt]; norm_num at hb hhi ⊢; linarith
    unfold gammaEnc
    rw [if_neg harg]
    norm_num at he hlo hhi ⊢
    constructor <;> linarith
  · obtain ⟨hu, hl, hb, hp⟩ := linearize_power_range v hv
    obtain ⟨s1, s2⟩ := rpow_step _ hu hp
    rw [hl] at hlo hhi
    have hu0 : 0 ≤ (((v : ℕ) : ℝ) / 255.0 + 0.055) / 1.055 := by linarith
    have hw : w > 0.0031308 := by norm_num at hb hlo ⊢; linarith
    have hw0 : 0 ≤ w := by norm_num at hw ⊢; linarith
    have hm0 : 0 ≤ (((v : ℕ) : ℝ) / 255.0 + 0.055) / 1.055 - 1 / 269.025 := by
      norm_num at hu ⊢; linarith
    have low : (((v : ℕ) : ℝ) / 255.0 + 0.055) / 1.055 - 1 / 269.025 < w ^ ((1 : ℝ) / 2.4) := by
      have := Real.rpow_lt_rpow (Real.rpow_nonneg hm0 _) (lt_of_lt_of_le s1 hlo)
        (by norm_num : (0 : ℝ) < (1 : ℝ) / 2.4)
      rwa [rpow_rpow_inv_24 _ hm0] at this
    have high : w ^ ((1 : ℝ) / 2.4) < (((v : ℕ) : ℝ) / 255.0 + 0.055) / 1.055 + 1 / 269.025 := by
      have := Real.rpow_lt_rpow hw0 (lt_of_le_of_lt hhi s2)
        (by norm_num : (0 : ℝ) < (1 : ℝ) / 2.4)
      rwa [rpow_rpow_inv_24 _ (by linarith)] at this
    unfold gammaEnc
    rw [if_pos hw]
    generalize w ^ ((1 : ℝ) / 2.4) = y at low high
    norm_num at low high ⊢
    constructor <;> linarith

/-- Encoding a value at or just above a decoded channel value gives at least the channel
value. -/
theorem gamma_ge (v : BYTE) (w : ℝ) (hlo : linearize (((v : ℕ) : ℝ) / 255.0) ≤ w)
    (hhi : w ≤ linearize (((v : ℕ) : ℝ) / 255.0) + 0.00007) :
    ((v : ℕ) : ℝ) ≤ gammaEnc w * 255 := by
  rcases le_or_lt (v : ℕ) 10 with hv | hv
  · obtain ⟨hl, hb, he⟩ := linearize_linear_range v hv
    rw [hl] at hlo hhi
    have harg : ¬w > 0.0031308 := by
      rw [not_lt]; norm_num at hb hhi ⊢; linarith
    unfold gammaEnc
    rw [if_neg harg]
    norm_num at he hlo ⊢
    linarith
  · obtain ⟨hu, hl, hb, -⟩ := linearize_power_range v hv
    rw [hl] at hlo
    have hu0 : 0 ≤ (((v : ℕ) : ℝ) / 255.0 + 0.055) / 1.055 := by linarith
    have hw : w > 0.0031308 := by norm_num at hb hlo ⊢; linarith
    have low : (((v : ℕ) : ℝ) / 255.0 + 0.055) / 1.055 ≤ w ^ ((1 : ℝ) / 2.4) := by
      have := Real.rpow_le_rpow (Real.rpow_nonneg hu0 _) hlo
        (by norm_num : (0 : ℝ) ≤ (1 : ℝ) / 2.4)
      rwa [rpow_rpow_inv_24 _ hu0] at this
    unfold gammaEnc
    rw [if_pos hw]
    generalize w ^ ((1 : ℝ) / 2.4) = y at low
    norm_num at low ⊢
    linarith

/-- A real number less than 1 away from a channel value is clamped to that value or to the
one below it. -/
theorem Clamp_within (n : BYTE) (x : ℝ) (h1 : ((n : ℕ) : ℝ) - 1 < x)
    (h2 : x < ((n : ℕ) : ℝ) + 1) :
    ((ColorFix._Clamp x : BYTE) : ℕ) = (n : ℕ) ∨ ((ColorFix._Clamp x : BYTE) : ℕ) + 1 = (n : ℕ) := by
  have hn : (n : ℕ) ≤ 255 := by omega
  by_cases x0 : x ≤ 0
  · rw [Clamp_of_nonpos x x0]
    left
    have : ((n : ℕ) : ℝ) < 1 := by linarith
    have : (n : ℕ) < 1 := by exact_mod_cast this
    show 0 = (n : ℕ)
    omega
  · by_cases x1 : x ≥ 255
    · rw [Clamp_of_ge x x1]
      left
      have : (254 : ℝ) < ((n : ℕ) : ℝ) := by linarith
      have : 254 < (n : ℕ) := by exact_mod_cast this
      show 255 = (n : ℕ)
      omega
    · rw [Clamp_val_of_mem x (not_le.mp x0) (not_le.mp x1)]
      have hup : ⌊x⌋₊ < (n : ℕ) + 1 := (Nat.floor_lt (not_le.mp x0).le).mpr (by push_cast; exact h2)
      rcases Nat.eq_zero_or_pos (n : ℕ) with hz | hpos
      · left; omega
      · have hlow : (n : ℕ) - 1 ≤ ⌊x⌋₊ := by
          apply Nat.le_floor
          rw [Nat.cast_sub (by omega)]
          push_cast
          linarith
        omega

/-- The arguments of `_Clamp` in the pass of any colour: each linear channel comes back as
itself plus a small combination of the three, the product of the two matrices being the
identity only up to the rounding of their entries. -/
theorem toRGB_ofColor (c : COLORREF) :
    toRGB_R (ColorFix.ofColor c)
        = gammaEnc (linearize (((c.r : ℕ) : ℝ) / 255.0)
            + (linearize (((c.b : ℕ) : ℝ) / 255.0) * 0.00002316
              - linearize (((c.r : ℕ) : ℝ) / 255.0) * 0.00000826)) * 255
      ∧ toRGB_G (ColorFix.ofColor c)
        = gammaEnc (linearize (((c.g : ℕ) : ℝ) / 255.0)
            + (linearize (((c.r : ℕ) : ℝ) / 255.0) * 0.00002167
              + linearize (((c.g : ℕ) : ℝ) / 255.0) * 0.00004032
              - linearize (((c.b : ℕ) : ℝ) / 255.0) * 0.00000794)) * 255
      ∧ toRGB_B (ColorFix.ofColor c)
        = gammaEnc (linearize (((c.b : ℕ) : ℝ) / 255.0)
            + (linearize (((c.r : ℕ) : ℝ) / 255.0) * 0.00000038
              + linearize (((c.g : ℕ) : ℝ) / 255.0) * 0.00001192
              + linearize (((c.b : ℕ) : ℝ) / 255.0) * 0.00000355)) * 255 := by
  obtain ⟨hx, hy, hz⟩ := toRGB_XYZ_ofColor c
  unfold toRGB_R toRGB_G toRGB_B
  rw [hx, hy, hz]
  unfold linR linG linB
  refine ⟨?_, ?_, ?_⟩ <;> congr 2 <;> norm_num <;> ring

/-- One pass from RGB to Lab and back, channel by channel: red and green come back as they
were or one lower, blue comes back as it was. -/
theorem roundTrip_step (c : COLORREF) :
    ((((roundTrip c).r : BYTE) : ℕ) = (c.r : ℕ) ∨ (((roundTrip c).r : BYTE) : ℕ) + 1 = (c.r : ℕ))
      ∧ ((((roundTrip c).g : BYTE) : ℕ) = (c.g : ℕ)
          ∨ (((roundTrip c).g : BYTE) : ℕ) + 1 = (c.g : ℕ))
      ∧ (roundTrip c).b = c.b := by
  obtain ⟨hr, hg, hb⟩ := toRGB_ofColor c
  obtain ⟨r0, r1⟩ := linearize_mem _ (byte_div_mem c.r).1 (byte_div_mem c.r).2
  obtain ⟨g0, g1⟩ := linearize_mem _ (byte_div_mem c.g).1 (byte_div_mem c.g).2
  obtain ⟨b0, b1⟩ := linearize_mem _ (byte_div_mem c.b).1 (byte_div_mem c.b).2
  have er : (roundTrip c).r = ColorFix._Clamp (toRGB_R (ColorFix.ofColor c)) := rfl
  have eg : (roundTrip c).g = ColorFix._Clamp (toRGB_G (ColorFix.ofColor c)) := rfl
  have eb : (roundTrip c).b = ColorFix._Clamp (toRGB_B (ColorFix.ofColor c)) := rfl
  rw [er, eg, eb, hr, hg, hb]
  refine ⟨?_, ?_, ?_⟩
  · obtain ⟨h1, h2⟩ := gamma_near c.r
      (linearize (((c.r : ℕ) : ℝ) / 255.0)
        + (linearize (((c.b : ℕ) : ℝ) / 255.0) * 0.00002316
          - linearize (((c.r : ℕ) : ℝ) / 255.0) * 0.00000826))
      (by norm_num; linarith) (by norm_num; linarith)
    exact Clamp_within c.r _ h1 h2
  · obtain ⟨h1, h2⟩ := gamma_near c.g
      (linearize (((c.g : ℕ) : ℝ) / 255.0)
        + (linearize (((c.r : ℕ) : ℝ) / 255.0) * 0.00002167
          + linearize (((c.g : ℕ) : ℝ) / 255.0) * 0.00004032
          - linearize (((c.b : ℕ) : ℝ) / 255.0) * 0.00000794))
      (by norm_num; linarith) (by norm_num; linarith)
    exact Clamp_within c.g _ h1 h2
  · have hw : linearize (((c.b : ℕ) : ℝ) / 255.0)
        + (linearize (((c.r : ℕ) : ℝ) / 255.0) * 0.00000038
          + linearize (((c.g : ℕ) : ℝ) / 255.0) * 0.00001192
          + linearize (((c.b : ℕ) : ℝ) / 255.0) * 0.00000355)
        ≤ linearize (((c.b : ℕ) : ℝ) / 255.0) + 0.00007 := by norm_num; linarith
    have h1 := gamma_ge c.b _ (by norm_num; linarith) hw
    obtain ⟨-, h2⟩ := gamma_near c.b _ (by norm_num; linarith) hw
    exact Clamp_eq_of_mem c.b _ h1 h2

/-! ## The search over an arbitrary distance -/

theorem whileLoopWith_exit (dE : ColorFix → ColorFix → ℝ) (i : ℕ) (b f : ColorFix)
    (h : ¬loopCond i f.L) :
    whileLoopWith dE i b f = { frontLab := f, tested := [], returned := none } := by
  unfold loopCond at h
  rw [whileLoopWith, dif_neg h]

theorem whileLoopWith_accept (dE : ColorFix → ColorFix → ℝ) (i : ℕ) (b f : ColorFix)
    (h : loopCond i f.L) (hd : dE f b ≥ gExpThreshold) :
    whileLoopWith dE i b f
      = { frontLab := f._ToRGB, tested := [(i, f.L)], returned := some f._ToRGB.rgb } := by
  unfold loopCond at h
  rw [whileLoopWith, dif_pos h]
  simp only [if_pos hd]

theorem whileLoopWith_reject (dE : ColorFix → ColorFix → ℝ) (i : ℕ) (b f : ColorFix)
    (h : loopCond i f.L) (hd : ¬dE f b ≥ gExpThreshold) :
    whileLoopWith dE i b f
      = { frontLab := (whileLoopWith dE i b (f.withL (f.L + stepOf i))).frontLab
          tested := (i, f.L) :: (whileLoopWith dE i b (f.withL (f.L + stepOf i))).tested
          returned := (whileLoopWith dE i b (f.withL (f.L + stepOf i))).returned } := by
  unfold loopCond at h
  rw [whileLoopWith, dif_pos h]
  simp only [if_neg hd]
  rfl

/-- With the distance of the source, the loop over `dE` is the loop of the source. -/
theorem whileLoopWith_GetDeltaE (i : ℕ) (b f : ColorFix) :
    whileLoopWith ColorFix.GetDeltaE i b f = whileLoop i b f := by
  induction f using whileLoop.induct i b with
  | case1 x hc de2 hd =>
    rw [whileLoop_accept i b x hc hd, whileLoopWith_accept _ i b x hc hd]
  | case2 x hc de2 hd step ih =>
    have hd' : ¬x.GetDeltaE b ≥ gExpThreshold := hd
    have ex : ({ rgb := x.rgb, L := x.L + (if h : i = 0 then gLStep else -gLStep), A := x.A, B := x.B } : ColorFix)
        = x.withL (x.L + stepOf i) := by
      unfold stepOf ColorFix.withL
      split_ifs <;> rfl
    change whileLoopWith ColorFix.GetDeltaE i b _ = whileLoop i b _ at ih
    rw [ex] at ih
    rw [whileLoop_reject i b x hc hd', whileLoopWith_reject _ i b x hc hd', ih]
  | case3 x hc =>
    rw [whileLoop_exit i b x hc, whileLoopWith_exit _ i b x hc]

theorem forBodyWith_GetDeltaE (b : ColorFix) (s : Scan) (i : ℕ) :
    forBodyWith ColorFix.GetDeltaE b s i = forBody b s i := by
  unfold forBodyWith forBody
  simp only [whileLoopWith_GetDeltaE]

/-- With the distance of the source, the run over `dE` is the run of the source. -/
theorem RunWith_GetDeltaE (fg bg : COLORREF) :
    GetPerceivableColorRunWith ColorFix.GetDeltaE fg bg = GetPerceivableColorRun fg bg := by
  unfold GetPerceivableColorRunWith GetPerceivableColorRun
  simp only [List.foldl_cons, List.foldl_nil, forBodyWith_GetDeltaE]

/-- With the distance of the source, the search over `dE` is the search of the source. -/
theorem GetPerceivableColorWith_GetDeltaE (fg bg : COLORREF) :
    ColorFix.GetPerceivableColorWith ColorFix.GetDeltaE fg bg
      = ColorFix.GetPerceivableColor fg bg := by
  unfold ColorFix.GetPerceivableColorWith ColorFix.GetPerceivableColor
  simp only [RunWith_GetDeltaE]

theorem forBodyWith_none (dE : ColorFix → ColorFix → ℝ) (b : ColorFix) (s : Scan) (i : ℕ)
    (h : s.returned = none) :
    forBodyWith dE b s i
      = { frontLab := (whileLoopWith dE i b (s.frontLab.withL (s.frontLab.L + stepOf i))).frontLab
          tested := s.tested
            ++ (whileLoopWith dE i b (s.frontLab.withL (s.frontLab.L + stepOf i))).tested
          returned := (whileLoopWith dE i b (s.frontLab.withL (s.frontLab.L + stepOf i))).returned } := by
  unfold forBodyWith; rw [h]; rfl

/-- A run of the loop in which every tested lightness is rejected: it leaves by the loop
condition with nothing but `L` changed, on the lightness one step past the last one it
tested, or on the one it was started with when it tested none. -/
theorem whileLoopWith_exhausted (dE : ColorFix → ColorFix → ℝ) (i : ℕ) (b f : ColorFix)
    (h : ∀ p ∈ (whileLoopWith dE i b f).tested, dE (f.withL p.2) b < gExpThreshold) :
    (whileLoopWith dE i b f).returned = none
      ∧ (whileLoopWith dE i b f).frontLab = f.withL (whileLoopWith dE i b f).frontLab.L
      ∧ ¬loopCond i (whileLoopWith dE i b f).frontLab.L
      ∧ (((whileLoopWith dE i b f).tested = [] ∧ (whileLoopWith dE i b f).frontLab.L = f.L)
        ∨ ((whileLoopWith dE i b f).tested ≠ []
          ∧ loopCond i ((whileLoopWith dE i b f).frontLab.L - stepOf i))) := by
  induction f using whileLoopWith.induct dE i b with
  | case1 x hc de2 hd =>
    exfalso
    rw [whileLoopWith_accept dE i b x hc hd] at h
    have := h (i, x.L) (List.mem_singleton.mpr rfl)
    rw [withL_self] at this
    exact absurd hd (not_le.mpr this)
  | case2 x hc de2 hd step ih =>
    have hd' : ¬dE x b ≥ gExpThreshold := hd
    have ex : ({ rgb := x.rgb, L := x.L + (if h : i = 0 then gLStep else -gLStep), A := x.A, B := x.B } : ColorFix)
        = x.withL (x.L + stepOf i) := by
      unfold stepOf ColorFix.withL
      split_ifs <;> rfl
    rw [ex] at ih
    rw [whileLoopWith_reject dE i b x hc hd'] at h ⊢
    simp only at h ⊢
    obtain ⟨r1, r2, r3, r4⟩ := ih (fun p hp => by
      rw [withL_withL]
      exact h p (List.mem_cons_of_mem _ hp))
    refine ⟨r1, ?_, r3, Or.inr ⟨List.cons_ne_nil _ _, ?_⟩⟩
    · rw [r2, withL_withL]; rfl
    · rcases r4 with ⟨-, e⟩ | ⟨-, e⟩
      · rw [e, withL_L]
        have : x.L + stepOf i - stepOf i = x.L := by ring
        rw [this]; exact hc
      · exact e
  | case3 x hc =>
    rw [whileLoopWith_exit dE i b x hc]
    exact ⟨rfl, rfl, hc, Or.inl ⟨rfl, rfl⟩⟩

theorem forBodyWith_some (dE : ColorFix → ColorFix → ℝ) (b : ColorFix) (s : Scan) (i : ℕ)
    (c : COLORREF) (h : s.returned = some c) : forBodyWith dE b s i = s := by
  unfold forBodyWith; rw [h]

/-- A run of the search over `dE` that starts below the distance 12.0 and rejects every
lightness it tests: both passes leave by the loop condition, the second one on a lightness
in `[-5, 0)` after at least one test, and nothing but `L` has changed in `frontLab`. -/
theorem RunWith_exhausted (dE : ColorFix → ColorFix → ℝ) (fg bg : COLORREF)
    (h1 : dE (ColorFix.ofColor fg) (ColorFix.ofColor bg) < gMinThreshold)
    (h2 : ∀ p ∈ (GetPerceivableColorRunWith dE fg bg).tested,
      dE ((ColorFix.ofColor fg).withL p.2) (ColorFix.ofColor bg) < gExpThreshold) :
    (GetPerceivableColorRunWith dE fg bg).returned = none
      ∧ (GetPerceivableColorRunWith dE fg bg).frontLab
        = (ColorFix.ofColor fg).withL (GetPerceivableColorRunWith dE fg bg).frontLab.L
      ∧ -5 ≤ (GetPerceivableColorRunWith dE fg bg).frontLab.L
      ∧ (GetPerceivableColorRunWith dE fg bg).frontLab.L < 0
      ∧ (GetPerceivableColorRunWith dE fg bg).tested ≠ [] := by
  have hrun : GetPerceivableColorRunWith dE fg bg
      = forBodyWith dE (ColorFix.ofColor bg) (forBodyWith dE (ColorFix.ofColor bg)
          { frontLab := ColorFix.ofColor fg, tested := [], returned := none } 0) 1 := by
    unfold GetPerceivableColorRunWith
    simp only [if_pos h1, List.foldl_cons, List.foldl_nil]
  obtain ⟨w0, hw0⟩ : ∃ w, w = whileLoopWith dE 0 (ColorFix.ofColor bg)
      ((ColorFix.ofColor fg).withL ((ColorFix.ofColor fg).L + stepOf 0)) := ⟨_, rfl⟩
  have e0 : forBodyWith dE (ColorFix.ofColor bg)
      { frontLab := ColorFix.ofColor fg, tested := [], returned := none } 0
        = { frontLab := w0.frontLab, tested := w0.tested, returned := w0.returned } := by
    rw [forBodyWith_none _ _ _ _ rfl, hw0]
    simp only [List.nil_append]
  rw [e0] at hrun
  have sub0 : ∀ p ∈ w0.tested, p ∈ (GetPerceivableColorRunWith dE fg bg).tested := by
    rw [hrun]
    cases hr : w0.returned with
    | some c =>
      rw [forBodyWith_some _ _ _ _ c rfl]
      exact fun p hp => hp
    | none =>
      rw [forBodyWith_none _ _ _ _ rfl]
      exact fun p hp => List.mem_append_left _ hp
  have x0 := whileLoopWith_exhausted dE 0 (ColorFix.ofColor bg)
    ((ColorFix.ofColor fg).withL ((ColorFix.ofColor fg).L + stepOf 0)) (fun p hp => by
      rw [withL_withL]
      exact h2 p (sub0 p (by rw [hw0]; exact hp)))
  rw [← hw0] at x0
  obtain ⟨a1, a2, a3, -⟩ := x0
  rw [withL_withL] at a2
  rw [a1] at hrun
  rw [forBodyWith_none _ _ _ _ rfl] at hrun
  simp only at hrun
  obtain ⟨w1, hw1⟩ : ∃ w, w = whileLoopWith dE 1 (ColorFix.ofColor bg)
      (w0.frontLab.withL (w0.frontLab.L + stepOf 1)) := ⟨_, rfl⟩
  rw [← hw1] at hrun
  have x1 := whileLoopWith_exhausted dE 1 (ColorFix.ofColor bg)
    (w0.frontLab.withL (w0.frontLab.L + stepOf 1)) (fun p hp => by
      rw [withL_withL, a2, withL_withL]
      refine h2 p ?_
      rw [hrun]
      exact List.mem_append_right _ (by rw [hw1]; exact hp))
  rw [← hw1] at x1
  obtain ⟨b1, b2, b3, b4⟩ := x1
  rw [withL_withL, a2, withL_withL] at b2
  have up : 100 < w0.frontLab.L := by
    unfold loopCond at a3
    by_contra hcon
    exact a3 (Or.inl ⟨rfl, not_lt.mp hcon⟩)
  have dn : w1.frontLab.L < 0 := by
    unfold loopCond at b3
    by_contra hcon
    exact b3 (Or.inr ⟨rfl, not_lt.mp hcon⟩)
  have last : w1.tested ≠ [] ∧ loopCond 1 (w1.frontLab.L - stepOf 1) := by
    rcases b4 with ⟨-, e⟩ | hb
    · exfalso
      rw [withL_L, stepOf_one] at e
      linarith
    · exact hb
  rw [hrun]
  refine ⟨b1, b2, ?_, dn, ?_⟩
  · have := last.2
    unfold loopCond at this
    rw [stepOf_one] at this
    rcases this with ⟨h, -⟩ | ⟨-, h⟩
    · exact absurd h one_ne_zero
    · simp only; linarith
  · intro hcon
    exact last.1 (List.append_eq_nil.mp hcon).2

theorem labFinv_small (w : ℝ) (h0 : 0 ≤ w) (h1 : w ≤ 0.2) :
    labFinv w = (w - 16 / 116) / 7.787 := by
  have h : ¬w ^ 3 > 0.008856 := by
    have := pow_le_pow_left₀ h0 h1 3
    norm_num at this ⊢
    linarith
  unfold labFinv
  rw [if_neg h]

/-- The conversion that line 257 does not make: white with its lightness replaced by a
value of `[-5, 0)` converts to a colour with green channel 0, which is not white. -/
theorem white_dark_ToRGB (l : ℝ) (h0 : -5 ≤ l) (h1 : l < 0) :
    ((ColorFix.ofColor (RGB 255 255 255)).withL l)._ToRGB.rgb ≠ RGB 255 255 255 := by
  obtain ⟨a0, a1⟩ := white_A
  obtain ⟨b0, b1⟩ := white_B
  have hx : toRGB_X ((ColorFix.ofColor (RGB 255 255 255)).withL l)
      = 95.047 * (((ColorFix.ofColor (RGB 255 255 255)).A / 500 + (l + 16) / 116 - 16 / 116) / 7.787) := by
    unfold toRGB_X
    rw [withL_A, withL_L, labFinv_small _ (by norm_num at a0 a1 ⊢; linarith)
      (by norm_num at a0 a1 ⊢; linarith)]
  have hy : toRGB_Y ((ColorFix.ofColor (RGB 255 255 255)).withL l)
      = 100.000 * (((l + 16) / 116 - 16 / 116) / 7.787) := by
    unfold toRGB_Y
    rw [withL_L, labFinv_small _ (by linarith) (by linarith)]
  have hz : toRGB_Z ((ColorFix.ofColor (RGB 255 255 255)).withL l)
      = 108.883 * (((l + 16) / 116 - (ColorFix.ofColor (RGB 255 255 255)).B / 200 - 16 / 116) / 7.787) := by
    unfold toRGB_Z
    rw [withL_B, withL_L, labFinv_small _ (by norm_num at b0 b1 ⊢; linarith)
      (by norm_num at b0 b1 ⊢; linarith)]
  have hg : toRGB_G ((ColorFix.ofColor (RGB 255 255 255)).withL l) < ((1 : ℕ) : ℝ) := by
    unfold toRGB_G
    rw [hx, hy, hz]
    generalize (ColorFix.ofColor (RGB 255 255 255)).A = A at a0 a1 ⊢
    generalize (ColorFix.ofColor (RGB 255 255 255)).B = B at b0 b1 ⊢
    have hlin : 95.047 * ((A / 500 + (l + 16) / 116 - 16 / 116) / 7.787) / 100 * -0.9689
        + 100.000 * (((l + 16) / 116 - 16 / 116) / 7.787) / 100 * 1.8758
        + 108.883 * (((l + 16) / 116 - B / 200 - 16 / 116) / 7.787) / 100 * 0.0415
          ≤ 0.000002 := by
      norm_num at a0 a1 b0 b1 ⊢
      linarith
    have hbr : ¬(95.047 * ((A / 500 + (l + 16) / 116 - 16 / 116) / 7.787) / 100 * -0.9689
        + 100.000 * (((l + 16) / 116 - 16 / 116) / 7.787) / 100 * 1.8758
        + 108.883 * (((l + 16) / 116 - B / 200 - 16 / 116) / 7.787) / 100 * 0.0415
          > 0.0031308) := by
      rw [not_lt]
      norm_num at hlin ⊢
      linarith
    unfold gammaEnc
    rw [if_neg hbr]
    norm_num at hlin ⊢
    linarith
  have hv := Clamp_val_lt _ 1 Nat.one_pos hg
  intro hcon
  rw [toRGB_rgb] at hcon
  have hgc : ColorFix._Clamp (toRGB_G ((ColorFix.ofColor (RGB 255 255 255)).withL l)) = 255 :=
    congrArg COLORREF.g hcon
  rw [hgc] at hv
  exact absurd hv (by decide)

/-! ## The colours that one pass from RGB to Lab and back leaves as they are -/

/-- Encoding a value just below a decoded channel value gives less than the channel value. -/
theorem gamma_lt (v : BYTE) (w : ℝ)
    (hlo : linearize (((v : ℕ) : ℝ) / 255.0) - 0.00007 ≤ w)
    (hhi : w < linearize (((v : ℕ) : ℝ) / 255.0)) :
    gammaEnc w * 255 < ((v : ℕ) : ℝ) := by
  rcases le_or_lt (v : ℕ) 10 with hv | hv
  · obtain ⟨hl, hb, he⟩ := linearize_linear_range v hv
    rw [hl] at hlo hhi
    have harg : ¬w > 0.0031308 := by
      rw [not_lt]; norm_num at hb hhi ⊢; linarith
    unfold gammaEnc
    rw [if_neg harg]
    norm_num at he hhi ⊢
    linarith
  · obtain ⟨hu, hl, hb, -⟩ := linearize_power_range v hv
    rw [hl] at hlo hhi
    have hu0 : 0 ≤ (((v : ℕ) : ℝ) / 255.0 + 0.055) / 1.055 := by linarith
    have hw : w > 0.0031308 := by norm_num at hb hlo ⊢; linarith
    have hw0 : 0 ≤ w := by norm_num at hw ⊢; linarith
    have high : w ^ ((1 : ℝ) / 2.4) < (((v : ℕ) : ℝ) / 255.0 + 0.055) / 1.055 := by
      have := Real.rpow_lt_rpow hw0 hhi (by norm_num : (0 : ℝ) < (1 : ℝ) / 2.4)
      rwa [rpow_rpow_inv_24 _ hu0] at this
    unfold gammaEnc
    rw [if_pos hw]
    generalize w ^ ((1 : ℝ) / 2.4) = y at high
    norm_num at high ⊢
    linarith

theorem byte_pos_of_linearize_pos (n : BYTE) (h : 0 < linearize (((n : ℕ) : ℝ) / 255.0)) :
    0 < (n : ℕ) := by
  rcases Nat.eq_zero_or_pos (n : ℕ) with hz | hpos
  · have e : ((n : ℕ) : ℝ) / 255.0 = 0 := by rw [hz]; norm_num
    rw [e, linearize_zero] at h
    exact absurd h (lt_irrefl 0)
  · exact hpos

/-- The red channel comes back as it was exactly when the share of blue that the pass adds to
it makes up for what the pass takes from it. -/
theorem roundTrip_r_iff (c : COLORREF) :
    (roundTrip c).r = c.r
      ↔ linearize (((c.r : ℕ) : ℝ) / 255.0) * 0.00000826
        ≤ linearize (((c.b : ℕ) : ℝ) / 255.0) * 0.00002316 := by
  obtain ⟨hr, -, -⟩ := toRGB_ofColor c
  obtain ⟨r0, r1⟩ := linearize_mem _ (byte_div_mem c.r).1 (byte_div_mem c.r).2
  obtain ⟨b0, b1⟩ := linearize_mem _ (byte_div_mem c.b).1 (byte_div_mem c.b).2
  have er : (roundTrip c).r = ColorFix._Clamp (toRGB_R (ColorFix.ofColor c)) := rfl
  rw [er, hr]
  constructor
  · intro h
    by_contra hcon
    have hlt := not_le.mp hcon
    have hpos : 0 < (c.r : ℕ) := byte_pos_of_linearize_pos c.r (by nlinarith)
    have h1 := gamma_lt c.r
      (linearize (((c.r : ℕ) : ℝ) / 255.0)
        + (linearize (((c.b : ℕ) : ℝ) / 255.0) * 0.00002316
          - linearize (((c.r : ℕ) : ℝ) / 255.0) * 0.00000826))
      (by norm_num; linarith) (by linarith)
    have h2 := Clamp_val_lt _ (c.r : ℕ) hpos h1
    rw [h] at h2
    exact absurd h2 (lt_irrefl _)
  · intro h
    have hw : linearize (((c.r : ℕ) : ℝ) / 255.0)
        + (linearize (((c.b : ℕ) : ℝ) / 255.0) * 0.00002316
          - linearize (((c.r : ℕ) : ℝ) / 255.0) * 0.00000826)
        ≤ linearize (((c.r : ℕ) : ℝ) / 255.0) + 0.00007 := by norm_num; linarith
    have h1 := gamma_ge c.r _ (by linarith) hw
    obtain ⟨-, h2⟩ := gamma_near c.r _ (by norm_num; linarith) hw
    exact Clamp_eq_of_mem c.r _ h1 h2

/-- The green channel comes back as it was exactly when it is 0 or the shares of red and green
that the pass adds to it make up for the share of blue it takes. -/
theorem roundTrip_g_iff (c : COLORREF) :
    (roundTrip c).g = c.g
      ↔ (c.g = 0 ∨ linearize (((c.b : ℕ) : ℝ) / 255.0) * 0.00000794
          ≤ linearize (((c.r : ℕ) : ℝ) / 255.0) * 0.00002167
            + linearize (((c.g : ℕ) : ℝ) / 255.0) * 0.00004032) := by
  obtain ⟨-, hg, -⟩ := toRGB_ofColor c
  obtain ⟨r0, r1⟩ := linearize_mem _ (byte_div_mem c.r).1 (byte_div_mem c.r).2
  obtain ⟨g0, g1⟩ := linearize_mem _ (byte_div_mem c.g).1 (byte_div_mem c.g).2
  obtain ⟨b0, b1⟩ := linearize_mem _ (byte_div_mem c.b).1 (byte_div_mem c.b).2
  have eg : (roundTrip c).g = ColorFix._Clamp (toRGB_G (ColorFix.ofColor c)) := rfl
  have hwlo : linearize (((c.g : ℕ) : ℝ) / 255.0) - 0.00007
      ≤ linearize (((c.g : ℕ) : ℝ) / 255.0)
        + (linearize (((c.r : ℕ) : ℝ) / 255.0) * 0.00002167
          + linearize (((c.g : ℕ) : ℝ) / 255.0) * 0.00004032
          - linearize (((c.b : ℕ) : ℝ) / 255.0) * 0.00000794) := by norm_num; linarith
  have hwhi : linearize (((c.g : ℕ) : ℝ) / 255.0)
        + (linearize (((c.r : ℕ) : ℝ) / 255.0) * 0.00002167
          + linearize (((c.g : ℕ) : ℝ) / 255.0) * 0.00004032
          - linearize (((c.b : ℕ) : ℝ) / 255.0) * 0.00000794)
      ≤ linearize (((c.g : ℕ) : ℝ) / 255.0) + 0.00007 := by norm_num; linarith
  rw [eg, hg]
  constructor
  · intro h
    by_contra hcon
    rw [not_or] at hcon
    obtain ⟨hne, hcon⟩ := hcon
    have hlt := not_le.mp hcon
    have hpos : 0 < (c.g : ℕ) := by
      rcases Nat.eq_zero_or_pos (c.g : ℕ) with hz | hp
      · exact absurd (Fin.ext hz) hne
      · exact hp
    have h1 := gamma_lt c.g _ hwlo (by linarith)
    have h2 := Clamp_val_lt _ (c.g : ℕ) hpos h1
    rw [h] at h2
    exact absurd h2 (lt_irrefl _)
  · rintro (h | h)
    · obtain ⟨h1, h2⟩ := gamma_near c.g _ hwlo hwhi
      have hz : (c.g : ℕ) = 0 := by rw [h]; rfl
      apply Fin.ext
      rcases Clamp_within c.g _ h1 h2 with e | e
      · exact e
      · omega
    · have h1 := gamma_ge c.g _ (by linarith) hwhi
      obtain ⟨-, h2⟩ := gamma_near c.g _ hwlo hwhi
      exact Clamp_eq_of_mem c.g _ h1 h2

/-- The colours that one pass leaves as they are. -/
theorem roundTrip_eq_iff (c : COLORREF) :
    roundTrip c = c
      ↔ (linearize (((c.r : ℕ) : ℝ) / 255.0) * 0.00000826
          ≤ linearize (((c.b : ℕ) : ℝ) / 255.0) * 0.00002316
        ∧ (c.g = 0 ∨ linearize (((c.b : ℕ) : ℝ) / 255.0) * 0.00000794
            ≤ linearize (((c.r : ℕ) : ℝ) / 255.0) * 0.00002167
              + linearize (((c.g : ℕ) : ℝ) / 255.0) * 0.00004032)) := by
  rw [← roundTrip_r_iff, ← roundTrip_g_iff]
  constructor
  · intro h; rw [h]; exact ⟨rfl, rfl⟩
  · rintro ⟨h1, h2⟩
    have h3 := (roundTrip_step c).2.2
    cases hc : roundTrip c with
    | mk r g b =>
      rw [hc] at h1 h2 h3
      cases c
      simp only [COLORREF.mk.injEq] at h1 h2 h3 ⊢
      exact ⟨h1, h2, h3⟩

/-! ## The fallback of the search -/

/-- C8. The fallback of the search is the colour it was given.  Stated for the search of
lines 233-258 over any distance function `dE`, which at `dE = GetDeltaE` is
`GetPerceivableColor` (last two parts): when the initial distance is below 12.0 and none of the
lightness values tested by the increasing and the decreasing scan reaches the distance 20.0,
the search returns `fg` itself.  Both scans were made and left by their loop condition: no
`return` inside the loop ran, at least one lightness was tested, and line 257 is reached with
`frontLab` holding a lightness of `[-5, 0)` next to the `A`, `B` and `rgb` of `fg`; that `rgb`
is returned, no conversion of the Lab value is made. -/
theorem GetPerceivableColor_fallback (dE : ColorFix → ColorFix → ℝ) (fg bg : COLORREF)
    (h1 : dE (ColorFix.ofColor fg) (ColorFix.ofColor bg) < 12.0)
    (h2 : ∀ p ∈ (GetPerceivableColorRunWith dE fg bg).tested,
      dE ({ rgb := fg, L := p.2, A := (ColorFix.ofColor fg).A, B := (ColorFix.ofColor fg).B } :
        ColorFix) (ColorFix.ofColor bg) < 20.0) :
    ColorFix.GetPerceivableColorWith dE fg bg = fg
      ∧ (GetPerceivableColorRunWith dE fg bg).returned = none
      ∧ (GetPerceivableColorRunWith dE fg bg).tested ≠ []
      ∧ (GetPerceivableColorRunWith dE fg bg).frontLab
        = { rgb := fg, L := (GetPerceivableColorRunWith dE fg bg).frontLab.L,
            A := (ColorFix.ofColor fg).A, B := (ColorFix.ofColor fg).B }
      ∧ -5 ≤ (GetPerceivableColorRunWith dE fg bg).frontLab.L
      ∧ (GetPerceivableColorRunWith dE fg bg).frontLab.L < 0
      ∧ (∀ f b : COLORREF,
          GetPerceivableColorRunWith ColorFix.GetDeltaE f b = GetPerceivableColorRun f b)
      ∧ (∀ f b : COLORREF,
          ColorFix.GetPerceivableColorWith ColorFix.GetDeltaE f b
            = ColorFix.GetPerceivableColor f b) := by
  have g1 : dE (ColorFix.ofColor fg) (ColorFix.ofColor bg) < gMinThreshold := by
    unfold gMinThreshold; exact h1
  have g2 : ∀ p ∈ (GetPerceivableColorRunWith dE fg bg).tested,
      dE ((ColorFix.ofColor fg).withL p.2) (ColorFix.ofColor bg) < gExpThreshold := by
    intro p hp
    unfold gExpThreshold
    exact h2 p hp
  obtain ⟨r1, r2, r3, r4, r5⟩ := RunWith_exhausted dE fg bg g1 g2
  refine ⟨?_, r1, r5, r2, r3, r4, RunWith_GetDeltaE, GetPerceivableColorWith_GetDeltaE⟩
  unfold ColorFix.GetPerceivableColorWith
  simp only [r1]
  rw [r2]
  rfl

/-- C8 at white on white over the distance that is 0 everywhere: the increasing scan tests
nothing, the decreasing scan tests 100, 95, ..., 0 and rejects them all, and white is
returned, where a conversion of the last value of `frontLab` would not give white. -/
theorem GetPerceivableColor_fallback_witness :
    ((fun _ _ => (0 : ℝ)) (ColorFix.ofColor (RGB 255 255 255))
        (ColorFix.ofColor (RGB 255 255 255)) < 12.0)
      ∧ (∀ p ∈ (GetPerceivableColorRunWith (fun _ _ => (0 : ℝ)) (RGB 255 255 255)
            (RGB 255 255 255)).tested,
          (fun _ _ => (0 : ℝ))
            ({ rgb := RGB 255 255 255, L := p.2, A := (ColorFix.ofColor (RGB 255 255 255)).A,
               B := (ColorFix.ofColor (RGB 255 255 255)).B } : ColorFix)
            (ColorFix.ofColor (RGB 255 255 255)) < 20.0)
      ∧ ColorFix.GetPerceivableColorWith (fun _ _ => (0 : ℝ)) (RGB 255 255 255)
          (RGB 255 255 255) = RGB 255 255 255
      ∧ (GetPerceivableColorRunWith (fun _ _ => (0 : ℝ)) (RGB 255 255 255)
          (RGB 255 255 255)).tested ≠ []
      ∧ (GetPerceivableColorRunWith (fun _ _ => (0 : ℝ)) (RGB 255 255 255)
          (RGB 255 255 255)).frontLab._ToRGB.rgb ≠ RGB 255 255 255 :=
  have h1 : (fun _ _ => (0 : ℝ)) (ColorFix.ofColor (RGB 255 255 255))
      (ColorFix.ofColor (RGB 255 255 255)) < 12.0 := by norm_num
  have h2 : ∀ p ∈ (GetPerceivableColorRunWith (fun _ _ => (0 : ℝ)) (RGB 255 255 255)
        (RGB 255 255 255)).tested,
      (fun _ _ => (0 : ℝ))
        ({ rgb := RGB 255 255 255, L := p.2, A := (ColorFix.ofColor (RGB 255 255 255)).A,
           B := (ColorFix.ofColor (RGB 255 255 255)).B } : ColorFix)
        (ColorFix.ofColor (RGB 255 255 255)) < 20.0 := fun _ _ => by norm_num
  have t := GetPerceivableColor_fallback (fun _ _ => (0 : ℝ)) (RGB 255 255 255)
    (RGB 255 255 255) h1 h2
  ⟨h1, h2, t.1, t.2.2.1, by
    rw [t.2.2.2.1]
    exact white_dark_ToRGB _ t.2.2.2.2.1 t.2.2.2.2.2.1⟩

/-! ## One pass and a further pass, channel by channel -/

/-- C6, amended. One pass `toRGB` after `toLab` keeps each channel or lowers it by one, and
the result of a pass need not be a fixed point.  For every RGB colour `c`, with
`c' = toRGB(toLab(c))`: each channel of `toRGB(toLab(c'))` is the same channel of `c'` or one
lower, never higher (red and green are kept or lowered by one, blue is kept), and the same
holds for `c'` against `c`; `toRGB(toLab(c')) = c'` holds exactly when the decoded channels
`lr`, `lg`, `lb` of `c'` satisfy `lr * 0.00000826 <= lb * 0.00002316` and, unless the green
channel of `c'` is 0, `lb * 0.00000794 <= lr * 0.00002167 + lg * 0.00004032`; every gray
colour comes back as it was. -/
theorem roundTrip_within_one (c : COLORREF) (v : BYTE) :
    ((((roundTrip (roundTrip c)).r : BYTE) : ℕ) = ((roundTrip c).r : ℕ)
        ∨ (((roundTrip (roundTrip c)).r : BYTE) : ℕ) + 1 = ((roundTrip c).r : ℕ))
      ∧ ((((roundTrip (roundTrip c)).g : BYTE) : ℕ) = ((roundTrip c).g : ℕ)
        ∨ (((roundTrip (roundTrip c)).g : BYTE) : ℕ) + 1 = ((roundTrip c).g : ℕ))
      ∧ (roundTrip (roundTrip c)).b = (roundTrip c).b
      ∧ ((((roundTrip c).r : BYTE) : ℕ) = (c.r : ℕ)
        ∨ (((roundTrip c).r : BYTE) : ℕ) + 1 = (c.r : ℕ))
      ∧ ((((roundTrip c).g : BYTE) : ℕ) = (c.g : ℕ)
        ∨ (((roundTrip c).g : BYTE) : ℕ) + 1 = (c.g : ℕ))
      ∧ (roundTrip c).b = c.b
      ∧ (roundTrip (roundTrip c) = roundTrip c
        ↔ (linearize ((((roundTrip c).r : ℕ) : ℝ) / 255.0) * 0.00000826
            ≤ linearize ((((roundTrip c).b : ℕ) : ℝ) / 255.0) * 0.00002316
          ∧ ((roundTrip c).g = 0
            ∨ linearize ((((roundTrip c).b : ℕ) : ℝ) / 255.0) * 0.00000794
              ≤ linearize ((((roundTrip c).r : ℕ) : ℝ) / 255.0) * 0.00002167
                + linearize ((((roundTrip c).g : ℕ) : ℝ) / 255.0) * 0.00004032)))
      ∧ roundTrip (RGB v v v) = RGB v v v :=
  ⟨(roundTrip_step (roundTrip c)).1, (roundTrip_step (roundTrip c)).2.1,
    (roundTrip_step (roundTrip c)).2.2, (roundTrip_step c).1, (roundTrip_step c).2.1,
    (roundTrip_step c).2.2, roundTrip_eq_iff (roundTrip c), roundTrip_gray_eq v⟩

end Terminal
